import Mathlib

/-! # FailureStatistics

A shallow embedding of `src/lib/Analysis/FailureStatistics.c` (OpenFTA): the
registry of failure vectors kept in a binary tree whose nodes are also the
elements of a doubly linked rank list.

The C heap of `Fnode` records is modelled field by field: every struct field is
a map from addresses (natural numbers) to values, a pointer is an
`Option Nat` (`none` is `NULL`), and `brk` is the number of records allocated so
far, which is also the address handed out by the next allocation.  Reading a
field through a `NULL` pointer is the fault `nullDeref`.  Loops and recursion
over linked records carry a fuel argument; running out of it is the fault
`outOfFuel`.  The counters `n` and `nother` are C `int`s of 32 bits: the model
keeps them as integers and reduces every sum with `wrap`.
-/

namespace FailureStatistics

/-! ## The bit-array capability (bits.h) -/

/-- Modelled from the spec: the `BitArray` type of bits.h, which is not part of
the source file.  A failure vector is a set of basic-event indices; `n` is the
number of bits of the array (the field read by `list->b->n`) and index `i`
belongs to the vector when bit `i` of `bits` is set. -/
structure BitArray where
  n : Nat
  bits : Nat
deriving DecidableEq, Repr

/-- Modelled from the spec: `clone(v)`, a copy of the vector. -/
def BitClone (b : BitArray) : BitArray := b

/-- Modelled from the spec: `compare(a,b)`, the total order on the integer value
of the vector: `0` on equal vectors, `-1` below, `1` above. -/
def BitComp (a b : BitArray) : Int :=
  if a.bits = b.bits then 0 else if a.bits < b.bits then -1 else 1

/-- Modelled from the spec: `union(a,b)`. -/
def BitOR (a b : BitArray) : BitArray :=
  { n := max a.n b.n, bits := a.bits ||| b.bits }

/-- Modelled from the spec: `equals(a,b)`, equality of the two sets. -/
def BitEquals (a b : BitArray) : Bool := decide (a.bits = b.bits)

/-- Modelled from the spec: `cardinality(v)`, the number of bits set.  A set bit
`i` has `i < 2 ^ i ≤ bits`, so the indices below `bits` cover every set bit. -/
def BitCount (b : BitArray) : Nat :=
  ((List.range b.bits).filter (fun i => b.bits.testBit i)).length

/-! ## The heap and the module's static variables -/

/-- The two ways an operation can fail to produce a state. -/
inductive Fault where
  | nullDeref
  | outOfFuel
deriving DecidableEq, Repr

/-- The `Fnode` heap, one map per struct field (`b`, `n`, `left`, `right`,
`next`, `prev`), together with the static variables of the module
(`Failtree`, `High`, `Low`, `nfm`, `max_fail`, `nother`).  The counters `n` and
`nother` are C `int`s: every addition on them goes through `wrap`.  The
variable `nfm` is the number of records linked in the order list, one per
allocated record at most, and is kept as that number. -/
structure State where
  b : Nat → BitArray
  n : Nat → Int
  left : Nat → Option Nat
  right : Nat → Option Nat
  next : Nat → Option Nat
  prev : Nat → Option Nat
  brk : Nat
  Failtree : Option Nat
  High : Option Nat
  Low : Option Nat
  nfm : Int
  max_fail : Int
  nother : Int

/-- The largest value of a C `int` of 32 bits. -/
def INT_MAX : Int := 2147483647

/-- The smallest value of a C `int` of 32 bits. -/
def INT_MIN : Int := -2147483648

/-- The value an `int` takes when the exact result is `x`: `x` reduced modulo
`2 ^ 32` into the range from `INT_MIN` to `INT_MAX`.  ISO C leaves the overflow
of a signed addition undefined; this is what the addition gives on the two's
complement machines the module is built for. -/
def wrap (x : Int) : Int := (x + 2147483648) % 4294967296 - 2147483648

/-- The routine `Fnode_create`: allocate the next record and initialise its
fields (`b`, `n = 0`, all four links `NULL`).  Allocation always succeeds here;
the `exit(1)` taken when memory runs out is not modelled. -/
def Fnode_create (s : State) (b : BitArray) : State × Nat :=
  ({ s with
      brk := s.brk + 1
      b := Function.update s.b s.brk b
      n := Function.update s.n s.brk 0
      left := Function.update s.left s.brk none
      right := Function.update s.right s.brk none
      next := Function.update s.next s.brk none
      prev := Function.update s.prev s.brk none }, s.brk)

/-- The routine `order_swap`: swap the record `p` with the next record in the
order list.  Every C statement reads the links from the current heap. -/
def order_swap (s : State) (p : Nat) : Except Fault State :=
  match s.next p with
  | none => .ok s
  | some pn =>
    -- tmp = p->next->next
    let tmp := s.next pn
    -- if (tmp) p->next->next->prev = p;
    let s1 : State :=
      match tmp with
      | some pnn => { s with prev := Function.update s.prev pnn (some p) }
      | none => s
    -- p->next->next = p;
    match s1.next p with
    | none => .error .nullDeref
    | some pn1 =>
      let s2 : State := { s1 with next := Function.update s1.next pn1 (some p) }
      -- if (p->prev) p->prev->next = p->next;
      let s3 : State :=
        match s2.prev p with
        | some pp => { s2 with next := Function.update s2.next pp (s2.next p) }
        | none => s2
      -- p->next->prev = p->prev;
      match s3.next p with
      | none => .error .nullDeref
      | some pn3 =>
        let s4 : State := { s3 with prev := Function.update s3.prev pn3 (s3.prev p) }
        -- p->prev = p->next;
        let s5 : State := { s4 with prev := Function.update s4.prev p (s4.next p) }
        -- p->next = tmp;
        .ok { s5 with next := Function.update s5.next p tmp }

/-- The `while` loop of `tree_insert` after `t->n++`: while `t` has a next
record with a strictly smaller count, move `Low`/`High` when `t` crosses them
and swap `t` with its next record. -/
def rank_settle : Nat → State → Nat → Except Fault State
  | 0, _, _ => .error .outOfFuel
  | fuel + 1, s, t =>
    match s.next t with
    | none => .ok s
    | some tn =>
      if s.n t > s.n tn then
        let s1 : State := if some t = s.Low then { s with Low := s.next t } else s
        let s2 : State := if s1.next t = s1.High then { s1 with High := some t } else s1
        match order_swap s2 t with
        | .ok s3 => rank_settle fuel s3 t
        | .error e => .error e
      else .ok s

/-- The routine `tree_insert`: insert the vector `b` in the subtree `t` and
return the (possibly new) subtree pointer. -/
def tree_insert : Nat → State → Option Nat → BitArray → Except Fault (State × Option Nat)
  | 0, _, _, _ => .error .outOfFuel
  | _ + 1, s, none, b =>
    if s.max_fail = 0 ∨ s.nfm ≤ s.max_fail then
      let bc := BitClone b
      let (s1, t) := Fnode_create s bc
      let s2 : State := { s1 with n := Function.update s1.n t 1 }
      match s2.High with
      | none =>
        .ok ({ s2 with High := some t, Low := some t, nfm := s2.nfm + 1 }, some t)
      | some _ =>
        match s2.Low with
        | none => .error .nullDeref
        | some low =>
          let s3 : State := { s2 with prev := Function.update s2.prev low (some t) }
          let s4 : State := { s3 with next := Function.update s3.next t s3.Low }
          .ok ({ s4 with Low := some t, nfm := s4.nfm + 1 }, some t)
    else
      .ok ({ s with nother := wrap (s.nother + 1) }, none)
  | fuel + 1, s, some t, b =>
    if BitComp b (s.b t) = 0 then
      let s1 : State := { s with n := Function.update s.n t (wrap (s.n t + 1)) }
      match rank_settle s1.brk s1 t with
      | .ok s2 => .ok (s2, some t)
      | .error e => .error e
    else if BitComp b (s.b t) = 1 then
      match tree_insert fuel s (s.right t) b with
      | .ok (s1, r) => .ok ({ s1 with right := Function.update s1.right t r }, some t)
      | .error e => .error e
    else if BitComp b (s.b t) = -1 then
      match tree_insert fuel s (s.left t) b with
      | .ok (s1, l) => .ok ({ s1 with left := Function.update s1.left t l }, some t)
      | .error e => .error e
    else
      .ok (s, some t)

/-- The state at program start: no record allocated, the static variables with
their initialisers (`NULL` and `0`). -/
def start : State :=
  { b := fun _ => { n := 0, bits := 0 }
    n := fun _ => 0
    left := fun _ => none
    right := fun _ => none
    next := fun _ => none
    prev := fun _ => none
    brk := 0
    Failtree := none
    High := none
    Low := none
    max_fail := 0
    nfm := 0
    nother := 0 }

/-- The routine `initialise_failures`: `tree_destroy` releases every record, so
the heap is empty afterwards, and the static variables are reset. -/
def initialise_failures (_s : State) (n : Int) : State :=
  { b := fun _ => { n := 0, bits := 0 }
    n := fun _ => 0
    left := fun _ => none
    right := fun _ => none
    next := fun _ => none
    prev := fun _ => none
    brk := 0
    Failtree := none
    High := none
    Low := none
    max_fail := n
    nfm := 0
    nother := 0 }

/-- The routine `record_failure`: `Failtree = tree_insert(Failtree, b)`.  The
tree has at most `brk` records, so `brk + 1` levels of recursion reach every
leaf position. -/
def record_failure (s : State) (b : BitArray) : Except Fault State :=
  match tree_insert (s.brk + 1) s s.Failtree b with
  | .ok (s1, t) => .ok { s1 with Failtree := t }
  | .error e => .error e

/-- The routine `get_fail_data`: `(High, nfm, nother)`. -/
def get_fail_data (s : State) : Option Nat × Int × Int :=
  (s.High, s.nfm, s.nother)

/-- The routine `unlink_node`: take `f` out of the order list (the tree links
are not touched) and decrement `nfm`. -/
def unlink_node (s : State) (f : Nat) : State :=
  let s1 : State :=
    match s.prev f with
    | none => { s with Low := s.next f }
    | some fp => { s with next := Function.update s.next fp (s.next f) }
  let s2 : State :=
    match s1.next f with
    | none => { s1 with High := s1.prev f }
    | some fn => { s1 with prev := Function.update s1.prev fn (s1.prev f) }
  { s2 with nfm := s2.nfm - 1 }

/-- The result codes of `FnodeSubset`. -/
def SUBSET : Int := 1

/-- See `SUBSET`. -/
def SUPERSET : Int := -1

/-- See `SUBSET`. -/
def NEITHER : Int := 0

/-- The routine `FnodeSubset` on the records `f1`, `f2`. -/
def FnodeSubset (s : State) (f1 f2 : Nat) : Int :=
  let b := BitOR (s.b f1) (s.b f2)
  if BitEquals b (s.b f2) then SUBSET
  else if BitEquals b (s.b f1) then SUPERSET
  else NEITHER

/-- The routine `add_fnode`: put `node` at the front of `*list`; the new value
of `*list` is returned. -/
def add_fnode (s : State) (node : Nat) (list : Option Nat) : State × Option Nat :=
  match list with
  | none => (s, some node)
  | some l =>
    let s1 : State := { s with prev := Function.update s.prev l (some node) }
    let s2 : State := { s1 with next := Function.update s1.next node (some l) }
    (s2, some node)

/-- The local variables of `order_fail_data` that live across its loops. -/
structure SortVars where
  list : Option Nat
  ordered : Option Nat
  local_High : Option Nat
deriving DecidableEq, Repr

/-- The `while (p)` loop of `order_fail_data` for the bit count `i`. -/
def order_scan (i : Nat) : Nat → State → SortVars → Option Nat → Except Fault (State × SortVars)
  | 0, _, _, _ => .error .outOfFuel
  | _ + 1, s, v, none => .ok (s, v)
  | fuel + 1, s, v, some local_p =>
    let p := s.next local_p
    if BitCount (s.b local_p) = i then
      let v1 : SortVars := if v.list = some local_p then { v with list := s.next local_p } else v
      let s1 := unlink_node s local_p
      -- remove internal links
      let s2 : State := { s1 with next := Function.update s1.next local_p none }
      let s3 : State := { s2 with prev := Function.update s2.prev local_p none }
      -- remember last in list
      let v2 : SortVars := if v1.ordered = none then { v1 with local_High := some local_p } else v1
      let (s4, ordered) := add_fnode s3 local_p v2.ordered
      order_scan i fuel s4 { v2 with ordered := ordered } p
    else
      order_scan i fuel s v p

/-- The `for (i = 1; i <= max_bit_count; i++)` loop of `order_fail_data`, with
`k` iterations left. -/
def order_buckets : Nat → Nat → State → SortVars → Except Fault (State × SortVars)
  | 0, _, s, v => .ok (s, v)
  | k + 1, i, s, v =>
    match order_scan i (s.brk + 1) s v v.list with
    | .ok (s1, v1) => order_buckets k (i + 1) s1 v1
    | .error e => .error e

/-- The routine `order_fail_data`: re-link the order list by bit count.  The
returned pointer `ordered` is the new `Low`. -/
def order_fail_data (s : State) (list : Option Nat) : Except Fault State :=
  match list with
  | none => .error .nullDeref
  | some l =>
    let local_nfm := s.nfm
    let max_bit_count := (s.b l).n
    match order_buckets max_bit_count 1 s
        { list := some l, ordered := none, local_High := none } with
    | .ok (s1, v) => .ok { s1 with High := v.local_High, Low := v.ordered, nfm := local_nfm }
    | .error e => .error e

/-- The inner loop of `compress_fail_data2`:
`for (q = p; q != NULL; q = q->next)`; the flag is returned with the state. -/
def compress2_scan (p : Nat) : Nat → State → Option Nat → Bool → Except Fault (State × Bool)
  | 0, _, _, _ => .error .outOfFuel
  | _ + 1, s, none, flag => .ok (s, flag)
  | fuel + 1, s, some q, flag =>
    if q ≠ p ∧ s.n q ≠ 0 then
      if FnodeSubset s q p = SUBSET then
        -- q absorbs p, set flag and add the score of p to q
        let s1 : State := { s with n := Function.update s.n q (wrap (s.n q + s.n p)) }
        compress2_scan p fuel s1 (s1.next q) true
      else
        compress2_scan p fuel s (s.next q) flag
    else
      compress2_scan p fuel s (s.next q) flag

/-- The outer loop of `compress_fail_data2`:
`for (p = High; p != NULL; p = p->prev)`. -/
def compress2_loop : Nat → State → Option Nat → Except Fault State
  | 0, _, _ => .error .outOfFuel
  | _ + 1, s, none => .ok s
  | fuel + 1, s, some p =>
    match compress2_scan p (s.brk + 1) s (some p) false with
    | .ok (s1, flag) =>
      let s2 : State := if flag then unlink_node s1 p else s1
      compress2_loop fuel s2 (s2.prev p)
    | .error e => .error e

/-- The routine `compress_fail_data2`: sort by bit count, then compress in one
direction.  The outputs `*h`, `*n`, `*oth` are `get_fail_data` of the result. -/
def compress_fail_data2 (s : State) : Except Fault State :=
  match order_fail_data s s.Low with
  | .ok s1 => compress2_loop (s1.brk + 1) s1 s1.High
  | .error e => .error e

/-- The inner loop of `compress_fail_data`:
`for (q = High; q != p; q = q->prev)`; the flag is returned with the state. -/
def compress_scan (p : Nat) : Nat → State → Option Nat → Bool → Except Fault (State × Bool)
  | 0, _, _, _ => .error .outOfFuel
  | fuel + 1, s, q, flag =>
    if q = some p then .ok (s, flag)
    else
      match q with
      | none => .error .nullDeref
      | some q =>
        if s.n q ≠ 0 then
          if FnodeSubset s q p = SUBSET then
            -- q absorbs p, set flag and add the score of p to q
            let s1 : State := { s with n := Function.update s.n q (wrap (s.n q + s.n p)) }
            compress_scan p fuel s1 (s1.prev q) true
          else if FnodeSubset s q p = SUPERSET then
            -- p absorbs q, unlink q and add score to p
            let s1 : State := { s with n := Function.update s.n p (wrap (s.n p + s.n q)) }
            let s2 := unlink_node s1 q
            compress_scan p fuel s2 (s2.prev q) flag
          else
            compress_scan p fuel s (s.prev q) flag
        else
          compress_scan p fuel s (s.prev q) flag

/-- The outer loop of `compress_fail_data`:
`for (p = High; p != NULL; p = p->prev)`. -/
def compress_loop : Nat → State → Option Nat → Except Fault State
  | 0, _, _ => .error .outOfFuel
  | _ + 1, s, none => .ok s
  | fuel + 1, s, some p =>
    match compress_scan p (s.brk + 1) s s.High false with
    | .ok (s1, flag) =>
      let s2 : State := if flag then unlink_node s1 p else s1
      compress_loop fuel s2 (s2.prev p)
    | .error e => .error e

/-- The routine `compress_fail_data`: compress the order list to minimal sets,
absorbing in both directions.  The outputs `*h`, `*n`, `*oth` are
`get_fail_data` of the result. -/
def compress_fail_data (s : State) : Except Fault State :=
  compress_loop (s.brk + 1) s s.High

/-! ## Observations -/

/-- Follow a link field from `p` until `NULL`, collecting the addresses. -/
def walk (link : Nat → Option Nat) : Nat → Option Nat → Option (List Nat)
  | _, none => some []
  | 0, some _ => none
  | fuel + 1, some a => (walk link fuel (link a)).map (fun l => a :: l)

/-- The rank list: the records met from `High` through `prev`. -/
def rank_list (s : State) : Option (List Nat) := walk s.prev s.brk s.High

/-- The records met from `Low` through `next`. -/
def rank_list_up (s : State) : Option (List Nat) := walk s.next s.brk s.Low

/-- The records of the subtree `t`, left subtree first (the order of
`tree_print`). -/
def tree_list (s : State) : Nat → Option Nat → Option (List Nat)
  | _, none => some []
  | 0, some _ => none
  | fuel + 1, some t =>
    match tree_list s fuel (s.left t), tree_list s fuel (s.right t) with
    | some l, some r => some (l ++ t :: r)
    | _, _ => none

/-- The records reachable from `Failtree`. -/
def tree_nodes (s : State) : Option (List Nat) := tree_list s s.brk s.Failtree

/-- A run of `record_failure` calls. -/
def record_all (s : State) : List BitArray → Except Fault State
  | [] => .ok s
  | b :: bs =>
    match record_failure s b with
    | .ok s1 => record_all s1 bs
    | .error e => .error e

/-- The report rows of the rank list: vector and count of each record. -/
def rows (s : State) (l : List Nat) : List (BitArray × Int) :=
  l.map (fun a => (s.b a, s.n a))

/-- A vector with the bits of the integer `k`, in an array of `w` bits
(`BitCreate(w)` followed by `BitSetInt(_, k)`). -/
def vec (w k : Nat) : BitArray := { n := w, bits := k }

/-! ## Doubly linked chains -/

/-- First address of a chain, or `d` for the empty chain. -/
def headOr (L : List Nat) (d : Option Nat) : Option Nat :=
  match L with
  | [] => d
  | a :: _ => some a

/-- Last address of a chain, or `d` for the empty chain. -/
def lastOr (L : List Nat) (d : Option Nat) : Option Nat :=
  match L with
  | [] => d
  | a :: L1 => lastOr L1 (some a)

/-- The records of `L`, listed from the high end, are chained: `next` of each
is the record before it (`hi` for the first) and `prev` is the record after it
(`lo` for the last). -/
def Linked (nx pv : Nat → Option Nat) : Option Nat → List Nat → Option Nat → Prop
  | _, [], _ => True
  | hi, a :: L, lo => nx a = hi ∧ pv a = headOr L lo ∧ Linked nx pv (some a) L lo

/-- The order list of `s` is exactly `L`, from `High` to `Low`. -/
structure RankInv (s : State) (L : List Nat) : Prop where
  linked : Linked s.next s.prev none L none
  high : s.High = headOr L none
  low : s.Low = lastOr L none
  nodup : L.Nodup
  bound : ∀ a ∈ L, a < s.brk

/-- Everything but the order list (`next`, `prev`, `High`, `Low`) is the same in
`s` and `s1`. -/
structure SameButRank (s s1 : State) : Prop where
  b : s1.b = s.b
  n : s1.n = s.n
  left : s1.left = s.left
  right : s1.right = s.right
  brk : s1.brk = s.brk
  Failtree : s1.Failtree = s.Failtree
  nfm : s1.nfm = s.nfm
  max_fail : s1.max_fail = s.max_fail
  nother : s1.nother = s.nother

/-- The two pointer adjustments made by the loop of `tree_insert` before
`order_swap(t)`: `if (t == Low) Low = t->next; if (t->next == High) High = t;`. -/
def rank_adjust (s : State) (t : Nat) : State :=
  let s1 : State := if some t = s.Low then { s with Low := s.next t } else s
  if s1.next t = s1.High then { s1 with High := some t } else s1

/-! ## The search tree -/

/-- The shape of a binary tree of records. -/
inductive Shape where
  | leaf
  | node (l : Shape) (a : Nat) (r : Shape)

/-- The records of a shape, left subtree first. -/
def Shape.nodes : Shape → List Nat
  | .leaf => []
  | .node l a r => l.nodes ++ a :: r.nodes

/-- The `left`/`right` links below the pointer `p` spell out the shape `T`. -/
def IsTree (left right : Nat → Option Nat) : Option Nat → Shape → Prop
  | p, .leaf => p = none
  | p, .node l a r => p = some a ∧ IsTree left right (left a) l ∧ IsTree left right (right a) r

/-- Binary-search-tree order under `BitComp`: every vector of a left subtree
compares below (`-1`) the vector of the root, every vector of a right subtree
above (`1`). -/
def Bst (b : Nat → BitArray) : Shape → Prop
  | .leaf => True
  | .node l a r =>
    (∀ x ∈ l.nodes, BitComp (b x) (b a) = -1) ∧ (∀ x ∈ r.nodes, BitComp (b x) (b a) = 1) ∧
      Bst b l ∧ Bst b r

/-- The record that the search of `tree_insert` for the vector `v` ends at. -/
def Shape.lookup (b : Nat → BitArray) (v : BitArray) : Shape → Option Nat
  | .leaf => none
  | .node l a r =>
    if BitComp v (b a) = 0 then some a
    else if BitComp v (b a) = 1 then r.lookup b v
    else l.lookup b v

/-- The shape after a new record `new` is hung where the search for `v` ends. -/
def Shape.insert (b : Nat → BitArray) (v : BitArray) (new : Nat) : Shape → Shape
  | .leaf => .node .leaf new .leaf
  | .node l a r =>
    if BitComp v (b a) = 0 then .node l a r
    else if BitComp v (b a) = 1 then .node l a (r.insert b v new)
    else .node (l.insert b v new) a r

/-- Everything but the tree links (`left`, `right`) is the same in `s` and
`s1`. -/
structure SameButTree (s s1 : State) : Prop where
  b : s1.b = s.b
  n : s1.n = s.n
  next : s1.next = s.next
  prev : s1.prev = s.prev
  brk : s1.brk = s.brk
  High : s1.High = s.High
  Low : s1.Low = s.Low
  nfm : s1.nfm = s.nfm
  max_fail : s1.max_fail = s.max_fail
  nother : s1.nother = s.nother

/-- The state after `t->n++`. -/
def bump (s : State) (t : Nat) : State :=
  { s with n := Function.update s.n t (wrap (s.n t + 1)) }

/-- The state after a new record for `v` has been created and put at the low
end of the order list (the branch `t == NULL` of `tree_insert` when the limit
allows it); the tree links of the older records are not yet changed. -/
def grown (s : State) (v : BitArray) : State :=
  { s with
    brk := s.brk + 1
    b := Function.update s.b s.brk v
    n := Function.update s.n s.brk 1
    left := Function.update s.left s.brk none
    right := Function.update s.right s.brk none
    next := Function.update s.next s.brk s.Low
    prev := match s.Low with
      | some low => Function.update (Function.update s.prev s.brk none) low (some s.brk)
      | none => Function.update s.prev s.brk none
    High := match s.High with
      | some h => some h
      | none => some s.brk
    Low := some s.brk
    nfm := s.nfm + 1 }

/-- The invariant of the registry between `record_failure` calls: the order
list is `L`, the tree has the shape `T` over the same records, the tree is
ordered by `BitComp`, `nfm` counts the records, every allocated record is in
the list, and every count is a value of type `int`. -/
structure Inv (s : State) (T : Shape) (L : List Nat) : Prop where
  rank : RankInv s L
  tree : IsTree s.left s.right s.Failtree T
  perm : T.nodes.Perm L
  bst : Bst s.b T
  nfm : s.nfm = L.length
  brk : s.brk = L.length
  range : ∀ a ∈ L, wrap (s.n a) = s.n a

/-- The counts of the order list `L` while no more than `k` calls of
`record_failure` have been made: they are at least one, at most `k`, and do not
increase from `High` to `Low`. -/
structure Ranked (s : State) (L : List Nat) (k : Int) : Prop where
  sorted : L.Pairwise (fun a c => s.n c ≤ s.n a)
  pos : ∀ a ∈ L, 1 ≤ s.n a
  le : ∀ a ∈ L, s.n a ≤ k

/-- The states reached from `initialise_failures` by `record_failure` calls. -/
def Reachable (s : State) : Prop :=
  ∃ (s0 : State) (c : Int) (bs : List BitArray),
    record_all (initialise_failures s0 c) bs = .ok s

/-- The state after `initialise_failures(c)` and one `record_failure` call for
each integer of `ks`, taken as a vector in a 5-bit array (the vectors of the
test `main`); `start` if the run faults. -/
def scenario (c : Int) (ks : List Nat) : State :=
  match record_all (initialise_failures start c) (ks.map (vec 5)) with
  | .ok s => s
  | .error _ => start

/-! ## The compressors on rank lists -/

/-- The result code of `FnodeSubset` as a function of the vector field alone. -/
def subset_code (b : Nat → BitArray) (f1 f2 : Nat) : Int :=
  if BitEquals (BitOR (b f1) (b f2)) (b f2) then SUBSET
  else if BitEquals (BitOR (b f1) (b f2)) (b f1) then SUPERSET
  else NEITHER

/-- The inner loop of `compress_fail_data` on the rank list: `Q` holds the
records still to be compared with `p`; the result is the part of `Q` left in
the list, the counts and the flag. -/
def scan_model (b : Nat → BitArray) (p : Nat) :
    (Nat → Int) → List Nat → Bool → List Nat × (Nat → Int) × Bool
  | n, [], flag => ([], n, flag)
  | n, q :: Q, flag =>
    if n q ≠ 0 then
      if subset_code b q p = SUBSET then
        let r := scan_model b p (Function.update n q (wrap (n q + n p))) Q true
        (q :: r.1, r.2)
      else if subset_code b q p = SUPERSET then
        scan_model b p (Function.update n p (wrap (n p + n q))) Q flag
      else
        let r := scan_model b p n Q flag
        (q :: r.1, r.2)
    else
      let r := scan_model b p n Q flag
      (q :: r.1, r.2)

/-- The outer loop of `compress_fail_data` on the rank list: `P` holds the
records already handled and still in the list, `R` those to come. -/
def compress_model (b : Nat → BitArray) :
    (Nat → Int) → List Nat → List Nat → List Nat × (Nat → Int)
  | n, P, [] => (P, n)
  | n, P, p :: R =>
    let r := scan_model b p n P false
    if r.2.2 then compress_model b r.2.1 r.1 R
    else compress_model b r.2.1 (r.1 ++ [p]) R

/-- The inner loop of `compress_fail_data` with the additions carried out on
unbounded integers: what `scan_model` computes as long as no sum leaves the
range of `int`. -/
def scan_exact (b : Nat → BitArray) (p : Nat) :
    (Nat → Int) → List Nat → Bool → List Nat × (Nat → Int) × Bool
  | n, [], flag => ([], n, flag)
  | n, q :: Q, flag =>
    if n q ≠ 0 then
      if subset_code b q p = SUBSET then
        let r := scan_exact b p (Function.update n q (n q + n p)) Q true
        (q :: r.1, r.2)
      else if subset_code b q p = SUPERSET then
        scan_exact b p (Function.update n p (n p + n q)) Q flag
      else
        let r := scan_exact b p n Q flag
        (q :: r.1, r.2)
    else
      let r := scan_exact b p n Q flag
      (q :: r.1, r.2)

/-- The outer loop of `compress_fail_data` with the additions carried out on
unbounded integers. -/
def compress_exact (b : Nat → BitArray) :
    (Nat → Int) → List Nat → List Nat → List Nat × (Nat → Int)
  | n, P, [] => (P, n)
  | n, P, p :: R =>
    let r := scan_exact b p n P false
    if r.2.2 then compress_exact b r.2.1 r.1 R
    else compress_exact b r.2.1 (r.1 ++ [p]) R

/-- The fields that neither compressor changes (everything but the order list,
the counts and `nfm`) are the same in `s` and `s1`. -/
structure SameFrame (s s1 : State) : Prop where
  b : s1.b = s.b
  left : s1.left = s.left
  right : s1.right = s.right
  brk : s1.brk = s.brk
  Failtree : s1.Failtree = s.Failtree
  max_fail : s1.max_fail = s.max_fail
  nother : s1.nother = s.nother

/-! ## Set inclusion of failure vectors -/

/-- The basic event `i` belongs to the failure vector `a`. -/
def BitArray.has (a : BitArray) (i : Nat) : Prop := a.bits.testBit i = true

/-- Every basic event of `a` is a basic event of `b`. -/
def Subset (a b : BitArray) : Prop := ∀ i, a.has i → b.has i

/-- The vector `a` is a proper subset of `b`. -/
def ProperSubset (a b : BitArray) : Prop := Subset a b ∧ ¬ Subset b a

/-- No vector of the records `L` is a subset of the vector of another record
of `L`. -/
def Antichain (b : Nat → BitArray) (L : List Nat) : Prop :=
  L.Pairwise (fun x y => ¬ Subset (b x) (b y) ∧ ¬ Subset (b y) (b x))

/-- The sum of the counts of the records `L`. -/
def total (n : Nat → Int) (L : List Nat) : Int := (L.map n).sum

/-- No record of `L` has a vector that includes the vectors of two other
records of `L`. -/
def NoDouble (b : Nat → BitArray) (L : List Nat) : Prop :=
  ∀ x ∈ L, ∀ y ∈ L, ∀ z ∈ L, y ≠ x → z ≠ x →
    Subset (b y) (b x) → Subset (b z) (b x) → y = z

/-! ## The sort by bit count on rank lists -/

/-- The statements of `order_fail_data` that move the record `local_p` from
the order list to the front of the list `ordered`. -/
def sort_move (s : State) (v : SortVars) (local_p : Nat) : State × SortVars :=
  let v1 : SortVars := if v.list = some local_p then { v with list := s.next local_p } else v
  let s1 := unlink_node s local_p
  let s2 : State := { s1 with next := Function.update s1.next local_p none }
  let s3 : State := { s2 with prev := Function.update s2.prev local_p none }
  let v2 : SortVars := if v1.ordered = none then { v1 with local_High := some local_p } else v1
  let r := add_fnode s3 local_p v2.ordered
  (r.1, { v2 with ordered := r.2 })

/-- The invariant of the loops of `order_fail_data`: the order list is `M` and
`list` is its low end; the records already moved are chained as `O`, with
`ordered` at the low end and `local_High` at the high end. -/
structure SortInv (s : State) (v : SortVars) (M O : List Nat) : Prop where
  main : RankInv s M
  list : v.list = lastOr M none
  chain : Linked s.next s.prev none O none
  ordered : v.ordered = lastOr O none
  local_High : v.local_High = headOr O none
  nodup : (M ++ O).Nodup
  bound : ∀ a ∈ O, a < s.brk

/-- The `for` loop of `order_fail_data` on rank lists: `k` buckets from the bit
count `i` on; `M` is what is left of the order list, `O` the records moved. -/
def sort_model (b : Nat → BitArray) : Nat → Nat → List Nat → List Nat → List Nat × List Nat
  | 0, _, M, O => (M, O)
  | k + 1, i, M, O =>
    sort_model b k (i + 1) (M.filter (fun x => decide (BitCount (b x) ≠ i)))
      (O ++ M.reverse.filter (fun x => decide (BitCount (b x) = i)))

/-- The inner loop of `compress_fail_data2` on rank lists: `U` holds the
records visited from `p` through `next`; only counts and the flag change. -/
def scan2_model (b : Nat → BitArray) (p : Nat) :
    (Nat → Int) → List Nat → Bool → (Nat → Int) × Bool
  | n, [], flag => (n, flag)
  | n, q :: U, flag =>
    if q ≠ p ∧ n q ≠ 0 then
      if subset_code b q p = SUBSET then
        scan2_model b p (Function.update n q (wrap (n q + n p))) U true
      else scan2_model b p n U flag
    else scan2_model b p n U flag

/-- The outer loop of `compress_fail_data2` on rank lists: `P` holds the
records already handled and still in the list, `R` those to come. -/
def compress2_model (b : Nat → BitArray) :
    (Nat → Int) → List Nat → List Nat → List Nat × (Nat → Int)
  | n, P, [] => (P, n)
  | n, P, p :: R =>
    let r := scan2_model b p n (p :: P.reverse) false
    if r.2 then compress2_model b r.1 P R
    else compress2_model b r.1 (P ++ [p]) R

/-! ## One pass of a compressor in closed form -/

/-- The counts after the record `p` has been compared with the records `P`
when only the `SUBSET` branch is taken: every record of `P` with a non-zero
count and a vector included in the vector of `p` gains the count of `p`. -/
def absorb (b : Nat → BitArray) (p : Nat) (n : Nat → Int) (P : List Nat) : Nat → Int :=
  fun x => if x ∈ P ∧ n x ≠ 0 ∧ subset_code b x p = SUBSET then wrap (n x + n p) else n x

/-- Some record of `P` with a non-zero count has a vector included in the
vector of `p`. -/
def absorbed (b : Nat → BitArray) (p : Nat) (n : Nat → Int) (P : List Nat) : Bool :=
  decide (∃ x ∈ P, n x ≠ 0 ∧ subset_code b x p = SUBSET)

/-! ## The census of a run of `record_failure` calls -/

/-- The number of vectors of `pre` equal as sets to `v`. -/
def tally (pre : List BitArray) (v : BitArray) : Int :=
  (pre.countP (fun u => decide (u.bits = v.bits)) : Nat)

/-- With no limit, the records `L` are the distinct vectors of the calls `pre`
made so far, each with the number of calls made for it, as an `int`. -/
structure Census (s : State) (L : List Nat) (pre : List BitArray) : Prop where
  mem : ∀ x ∈ L, s.b x ∈ pre
  count : ∀ x ∈ L, s.n x = wrap (tally pre (s.b x))
  cover : ∀ v ∈ pre, ∃ x ∈ L, (s.b x).bits = v.bits
  unlimited : s.max_fail = 0
  nother : s.nother = 0

/-- Every record of `L` whose vector is included in the vector of another
record of `L` has the count zero: `compress_fail_data2` skips such a record. -/
def Dormant (b : Nat → BitArray) (n : Nat → Int) (L : List Nat) : Prop :=
  ∀ q ∈ L, ∀ p ∈ L, q ≠ p → Subset (b q) (b p) → n q = 0

/-! # Properties -/

set_option linter.unusedTactic false
set_option linter.unnecessarySeqFocus false

/-! ## Arithmetic on `int` -/

theorem wrap_of_range {x : Int} (h1 : INT_MIN ≤ x) (h2 : x ≤ INT_MAX) : wrap x = x := by
  unfold INT_MIN at h1
  unfold INT_MAX at h2
  unfold wrap
  omega

theorem wrap_range (x : Int) : INT_MIN ≤ wrap x ∧ wrap x ≤ INT_MAX := by
  unfold INT_MIN INT_MAX wrap
  omega

theorem wrap_idem (x : Int) : wrap (wrap x) = wrap x :=
  wrap_of_range (wrap_range x).1 (wrap_range x).2

theorem wrap_add_left (x y : Int) : wrap (wrap x + y) = wrap (x + y) := by
  unfold wrap
  omega

theorem wrap_one : wrap 1 = 1 := by decide

theorem wrap_eq_self_iff (x : Int) : wrap x = x ↔ INT_MIN ≤ x ∧ x ≤ INT_MAX := by
  constructor
  · intro h; rw [← h]; exact wrap_range x
  · intro h; exact wrap_of_range h.1 h.2

@[simp] theorem headOr_nil (d : Option Nat) : headOr [] d = d := rfl
@[simp] theorem headOr_cons (a : Nat) (L : List Nat) (d : Option Nat) : headOr (a :: L) d = some a := rfl
@[simp] theorem lastOr_nil (d : Option Nat) : lastOr [] d = d := rfl
@[simp] theorem lastOr_cons (a : Nat) (L : List Nat) (d : Option Nat) :
    lastOr (a :: L) d = lastOr L (some a) := rfl

theorem headOr_append (A B : List Nat) (d : Option Nat) :
    headOr (A ++ B) d = headOr A (headOr B d) := by
  cases A <;> simp

theorem lastOr_append (A B : List Nat) (d : Option Nat) :
    lastOr (A ++ B) d = lastOr B (lastOr A d) := by
  induction A generalizing d with
  | nil => simp
  | cons a A ih => simp [ih]

@[simp] theorem lastOr_snoc (A : List Nat) (a : Nat) (d : Option Nat) :
    lastOr (A ++ [a]) d = some a := by
  simp [lastOr_append]

theorem lastOr_mem (L : List Nat) (d : Option Nat) (x : Nat) (h : lastOr L d = some x) :
    x ∈ L ∨ (L = [] ∧ d = some x) := by
  induction L generalizing d with
  | nil => simp_all
  | cons a L ih =>
    simp only [lastOr_cons] at h
    rcases ih _ h with h1 | ⟨h1, h2⟩
    · simp [h1]
    · simp_all

theorem headOr_mem (L : List Nat) (d : Option Nat) (x : Nat) (h : headOr L d = some x) :
    x ∈ L ∨ (L = [] ∧ d = some x) := by
  cases L <;> simp_all

theorem lastOr_ne_nil (L : List Nat) (d e : Option Nat) (h : L ≠ []) :
    lastOr L d = lastOr L e := by
  cases L with
  | nil => exact absurd rfl h
  | cons a L => simp

theorem headOr_ne_nil (L : List Nat) (d e : Option Nat) (h : L ≠ []) :
    headOr L d = headOr L e := by
  cases L with
  | nil => exact absurd rfl h
  | cons a L => simp

@[simp] theorem Linked_nil (nx pv : Nat → Option Nat) (hi lo : Option Nat) :
    Linked nx pv hi [] lo = True := rfl

@[simp] theorem Linked_cons (nx pv : Nat → Option Nat) (hi lo : Option Nat) (a : Nat) (L : List Nat) :
    Linked nx pv hi (a :: L) lo = (nx a = hi ∧ pv a = headOr L lo ∧ Linked nx pv (some a) L lo) := rfl

theorem Linked_append (nx pv : Nat → Option Nat) (A B : List Nat) (hi lo : Option Nat) :
    Linked nx pv hi (A ++ B) lo ↔
      Linked nx pv hi A (headOr B lo) ∧ Linked nx pv (lastOr A hi) B lo := by
  induction A generalizing hi with
  | nil => simp
  | cons a A ih =>
    simp only [List.cons_append, Linked_cons, ih, headOr_append, lastOr_cons]
    tauto

/-- Move a chain to another heap that differs from the old one only at the two
ends of the chain. -/
theorem Linked.transfer {nx pv nx1 pv1 : Nat → Option Nat} {hi lo : Option Nat} {L : List Nat}
    (h : Linked nx pv hi L lo) (hnd : L.Nodup) (hi1 lo1 : Option Nat)
    (hn : ∀ a ∈ L, nx1 a = if headOr L none = some a then hi1 else nx a)
    (hp : ∀ a ∈ L, pv1 a = if lastOr L none = some a then lo1 else pv a) :
    Linked nx1 pv1 hi1 L lo1 := by
  induction L generalizing hi hi1 with
  | nil => trivial
  | cons a L ih =>
    obtain ⟨h1, h2, h3⟩ := h
    have hnd1 := List.nodup_cons.mp hnd
    refine ⟨?_, ?_, ?_⟩
    · simpa using hn a (by simp)
    · have := hp a (by simp)
      cases L with
      | nil => simpa using this
      | cons c L =>
        have hne : lastOr (c :: L) (some a) ≠ some a := by
          intro hL
          rcases lastOr_mem _ _ _ hL with h4 | ⟨h4, _⟩
          · exact hnd1.1 h4
          · simp at h4
        simp only [lastOr_cons] at this hne
        simp only [lastOr_cons, hne, if_false] at this
        simpa [this] using h2
    · apply ih h3 hnd1.2
      · intro x hx
        have hxa : x ≠ a := fun e => hnd1.1 (e ▸ hx)
        have := hn x (by simp [hx])
        simp only [headOr_cons, Option.some.injEq] at this
        rw [this, if_neg (fun e => hxa e.symm)]
        cases L with
        | nil => simp at hx
        | cons c L =>
          simp only [headOr_cons, Option.some.injEq]
          split
          · next e => subst e; exact h3.1
          · rfl
      · intro x hx
        have := hp x (by simp [hx])
        simp only [lastOr_cons] at this
        rw [this]
        simp only [lastOr_ne_nil L (some a) none (List.ne_nil_of_mem hx)]

/-- A chain only depends on the links of its own records. -/
theorem Linked.frame {nx pv nx1 pv1 : Nat → Option Nat} {hi lo : Option Nat} {L : List Nat}
    (h : Linked nx pv hi L lo)
    (hn : ∀ a ∈ L, nx1 a = nx a) (hp : ∀ a ∈ L, pv1 a = pv a) :
    Linked nx1 pv1 hi L lo := by
  induction L generalizing hi with
  | nil => trivial
  | cons a L ih =>
    obtain ⟨h1, h2, h3⟩ := h
    refine ⟨by rw [hn a (by simp), h1], by rw [hp a (by simp), h2], ?_⟩
    exact ih h3 (fun x hx => hn x (by simp [hx])) (fun x hx => hp x (by simp [hx]))

theorem Linked.walk_prev {nx pv : Nat → Option Nat} {hi : Option Nat} {L : List Nat}
    (h : Linked nx pv hi L none) (fuel : Nat) (hf : L.length ≤ fuel) :
    walk pv fuel (headOr L none) = some L := by
  induction L generalizing hi fuel with
  | nil => cases fuel <;> rfl
  | cons a L ih =>
    obtain ⟨_, h2, h3⟩ := h
    cases fuel with
    | zero => simp at hf
    | succ fuel =>
      simp only [headOr_cons, walk, h2]
      rw [ih h3 fuel (by simpa using hf)]
      rfl

theorem Linked.reverse {nx pv : Nat → Option Nat} {hi lo : Option Nat} {L : List Nat}
    (h : Linked nx pv hi L lo) : Linked pv nx lo L.reverse hi := by
  induction L generalizing hi with
  | nil => trivial
  | cons a L ih =>
    obtain ⟨h1, h2, h3⟩ := h
    rw [List.reverse_cons, Linked_append]
    refine ⟨?_, ?_⟩
    · simpa using ih h3
    · simp only [Linked_cons, Linked_nil, and_true, headOr_nil]
      refine ⟨?_, h1⟩
      rw [h2]
      cases L with
      | nil => simp
      | cons c L => simp [lastOr_append]

theorem headOr_reverse (L : List Nat) (d : Option Nat) :
    headOr L.reverse d = lastOr L d := by
  induction L generalizing d with
  | nil => rfl
  | cons a L ih => simp [headOr_append, ih]

theorem SameButRank.refl (s : State) : SameButRank s s :=
  ⟨rfl, rfl, rfl, rfl, rfl, rfl, rfl, rfl, rfl⟩

theorem SameButRank.trans {s s1 s2 : State} (h1 : SameButRank s s1) (h2 : SameButRank s1 s2) :
    SameButRank s s2 :=
  ⟨h2.b.trans h1.b, h2.n.trans h1.n, h2.left.trans h1.left, h2.right.trans h1.right,
   h2.brk.trans h1.brk, h2.Failtree.trans h1.Failtree, h2.nfm.trans h1.nfm,
   h2.max_fail.trans h1.max_fail, h2.nother.trans h1.nother⟩

/-- The links around a record in the middle of a chain. -/
theorem Linked.at {nx pv : Nat → Option Nat} {hi lo : Option Nat} {A B : List Nat} {a : Nat}
    (h : Linked nx pv hi (A ++ a :: B) lo) :
    nx a = lastOr A hi ∧ pv a = headOr B lo := by
  rw [Linked_append] at h
  exact ⟨h.2.1, h.2.2.1⟩

theorem Linked.head_next {nx pv : Nat → Option Nat} {hi lo : Option Nat} {L : List Nat} {a : Nat}
    (h : Linked nx pv hi L lo) (e : headOr L none = some a) : nx a = hi := by
  cases L with
  | nil => simp at e
  | cons c L =>
    simp only [headOr_cons, Option.some.injEq] at e
    subst e
    exact h.1

theorem Linked.last_prev {nx pv : Nat → Option Nat} {hi lo : Option Nat} {L : List Nat} {a : Nat}
    (h : Linked nx pv hi L lo) (e : lastOr L none = some a) : pv a = lo := by
  have h1 := h.reverse
  rw [← headOr_reverse] at e
  exact h1.head_next e

theorem order_swap_spec (s : State) (A B : List Nat) (q t : Nat)
    (h : Linked s.next s.prev none (A ++ q :: t :: B) none)
    (hnd : (A ++ q :: t :: B).Nodup) :
    ∃ s1, order_swap s t = .ok s1 ∧ Linked s1.next s1.prev none (A ++ t :: q :: B) none ∧
      SameButRank s s1 ∧ s1.High = s.High ∧ s1.Low = s.Low := by
  have hq := Linked.at h
  have ht := Linked.at (A := A ++ [q]) (by simpa using h)
  simp only [lastOr_snoc, headOr_cons] at hq ht
  obtain ⟨hq1, hq2⟩ := hq
  obtain ⟨ht1, ht2⟩ := ht
  rw [Linked_append] at h
  obtain ⟨hA, -, -, -, -, hB⟩ := h
  simp only [headOr_cons] at hA
  have hnd1 := List.nodup_append.mp hnd
  obtain ⟨hndA, hndB, hdis⟩ := hnd1
  simp only [List.nodup_cons, List.mem_cons, not_or] at hndB
  obtain ⟨⟨hqt, hqB⟩, htB, hndB⟩ := hndB
  have hAq : q ∉ A := fun hx => hdis hx (by simp)
  have hAt : t ∉ A := fun hx => hdis hx (by simp)
  have hAB : ∀ x ∈ A, x ∉ B := fun x hx hb => hdis hx (by simp [hb])
  have hxA : ∀ x, lastOr A none = some x → x ∈ A := fun x hx => by
    rcases lastOr_mem _ _ _ hx with h1 | ⟨_, h2⟩
    · exact h1
    · simp at h2
  have hrB : ∀ r, headOr B none = some r → r ∈ B := fun r hr => by
    rcases headOr_mem _ _ _ hr with h1 | ⟨_, h2⟩
    · exact h1
    · simp at h2
  have key : ∀ s1 : State,
      (∀ a, s1.next a = if a = t then lastOr A none else if a = q then some t
          else if headOr B none = some a then some q else s.next a) →
      (∀ a, s1.prev a = if a = t then some q else if a = q then headOr B none
          else if lastOr A none = some a then some t else s.prev a) →
      Linked s1.next s1.prev none (A ++ t :: q :: B) none := by
    intro s1 hn hp
    rw [Linked_append]
    refine ⟨?_, ?_, ?_, ?_, ?_, ?_⟩
    · apply hA.transfer hndA
      · intro a ha
        have h1 : a ≠ t := fun e => hAt (e ▸ ha)
        have h2 : a ≠ q := fun e => hAq (e ▸ ha)
        have h3 : headOr B none ≠ some a := fun e => hAB a ha (hrB a e)
        rw [hn a, if_neg h1, if_neg h2, if_neg h3]
        split
        · next e => exact hA.head_next e
        · rfl
      · intro a ha
        have h1 : a ≠ t := fun e => hAt (e ▸ ha)
        have h2 : a ≠ q := fun e => hAq (e ▸ ha)
        rw [hp a, if_neg h1, if_neg h2]
        simp only [headOr_cons]
    · simp [hn t]
    · simp [hp t]
    · simp [hn q, hqt]
    · simp [hp q, hqt]
    · apply hB.transfer hndB
      · intro a ha
        have h1 : a ≠ t := fun e => htB (e ▸ ha)
        have h2 : a ≠ q := fun e => hqB (e ▸ ha)
        rw [hn a, if_neg h1, if_neg h2]
      · intro a ha
        have h1 : a ≠ t := fun e => htB (e ▸ ha)
        have h2 : a ≠ q := fun e => hqB (e ▸ ha)
        have h3 : lastOr A none ≠ some a := fun e => hAB a (hxA a e) ha
        rw [hp a, if_neg h1, if_neg h2, if_neg h3]
        split
        · next e => exact hB.last_prev e
        · rfl
  have htq : t ≠ q := fun e => hqt e.symm
  rcases hx : lastOr A none with _ | x <;> rcases hr : headOr B none with _ | r
  all_goals
    simp only [hx, hr] at hq1 ht2 key
    try have hxt : t ≠ x := fun e => hAt (e ▸ hxA x hx)
    try have hxq : q ≠ x := fun e => hAq (e ▸ hxA x hx)
    try have hrt : t ≠ r := fun e => htB (e ▸ hrB r hr)
    try have hrq : q ≠ r := fun e => hqB (e ▸ hrB r hr)
    try have hxr : x ≠ r := fun e => hAB x (hxA x hx) (e ▸ hrB r hr)
    simp only [order_swap, ht1, hq1, ht2, hq2]
    try simp only [Function.update_noteq hxt, ht2]
    try simp only [Function.update_noteq hrt, Function.update_noteq htq, ht1]
    try simp only [Function.update_noteq htq, ht1]
    refine ⟨_, rfl, key _ (fun a => ?_) (fun a => ?_), ⟨rfl, rfl, rfl, rfl, rfl, rfl, rfl, rfl, rfl⟩, rfl, rfl⟩
    all_goals
      clear key hA hB hnd hndA hdis hndB hAB hxA hrB hAq hAt hqB htB hx hr hq1 hq2 ht1 ht2
      simp only [Function.update_apply, Option.some.injEq, reduceCtorEq, if_false]
      try (split_ifs <;> first | rfl | (subst_vars; simp_all))

theorem lastOr_eq_default (L : List Nat) (t : Nat) (h : t ∉ L) :
    lastOr L (some t) = some t ↔ L = [] := by
  constructor
  · intro e
    rcases lastOr_mem _ _ _ e with h1 | ⟨h1, _⟩
    · exact absurd h1 h
    · exact h1
  · rintro rfl; rfl

theorem headOr_eq_default (L : List Nat) (t : Nat) (h : t ∉ L) :
    headOr L (some t) = some t ↔ L = [] := by
  constructor
  · intro e
    rcases headOr_mem _ _ _ e with h1 | ⟨h1, _⟩
    · exact absurd h1 h
    · exact h1
  · rintro rfl; rfl

theorem rank_settle_succ (fuel : Nat) (s : State) (t : Nat) :
    rank_settle (fuel + 1) s t =
      match s.next t with
      | none => .ok s
      | some tn =>
        if s.n t > s.n tn then
          match order_swap (rank_adjust s t) t with
          | .ok s3 => rank_settle fuel s3 t
          | .error e => .error e
        else .ok s := rfl

theorem rank_adjust_spec (s : State) (A0 B : List Nat) (t q : Nat)
    (hL : s.Low = lastOr B (some t)) (hH : s.High = headOr A0 (some q))
    (htB : t ∉ B) (hqA : q ∉ A0) (hn : s.next t = some q) :
    (rank_adjust s t).next = s.next ∧ (rank_adjust s t).prev = s.prev ∧
      SameButRank s (rank_adjust s t) ∧ (rank_adjust s t).High = headOr A0 (some t) ∧
      (rank_adjust s t).Low = lastOr B (some q) := by
  have h1 : some t = s.Low ↔ B = [] := by
    rw [hL, eq_comm]; exact lastOr_eq_default B t htB
  have h2 : some q = s.High ↔ A0 = [] := by
    rw [hH, eq_comm]; exact headOr_eq_default A0 q hqA
  unfold rank_adjust
  simp only [hn]
  split_ifs with c1 c2 c2
  all_goals refine ⟨rfl, rfl, ⟨rfl, rfl, rfl, rfl, rfl, rfl, rfl, rfl, rfl⟩, ?_, ?_⟩
  all_goals
    try simp only [hn] at c2
    try have hB := h1.mp c1
    try have hA := h2.mp c2
    try have hB : B ≠ [] := fun e => c1 (h1.mpr e)
    try have hA : A0 ≠ [] := fun e => c2 (h2.mpr e)
    first
    | (subst hB; rfl) | (subst hA; rfl)
    | (rw [hL]; exact lastOr_ne_nil _ _ _ hB) | (rw [hH]; exact headOr_ne_nil _ _ _ hA)

theorem rank_settle_spec (fuel : Nat) (s : State) (A B : List Nat) (t : Nat)
    (h : RankInv s (A ++ t :: B)) (hf : A.length < fuel) :
    ∃ s1 A1 A2, rank_settle fuel s t = .ok s1 ∧ A = A1 ++ A2 ∧
      RankInv s1 (A1 ++ t :: (A2 ++ B)) ∧ SameButRank s s1 ∧
      (∀ x ∈ A2, s.n x < s.n t) ∧ (∀ x, lastOr A1 none = some x → s.n t ≤ s.n x) := by
  induction fuel generalizing s A B with
  | zero => simp at hf
  | succ fuel ih =>
    have ht := h.linked.at
    have hcases : A = [] ∨ ∃ A0 q, A = A0 ++ [q] := by
      rcases List.eq_nil_or_concat A with e | ⟨A0, q, e⟩
      · exact Or.inl e
      · exact Or.inr ⟨A0, q, by simpa using e⟩
    rcases hcases with rfl | ⟨A0, q, rfl⟩
    · refine ⟨s, [], [], ?_, rfl, h, SameButRank.refl s, by simp, by simp⟩
      simp only [lastOr_nil] at ht
      simp [rank_settle, ht.1]
    · simp only [lastOr_snoc] at ht
      by_cases hc : s.n t > s.n q
      · have hnd := h.nodup
        have hnd1 : (A0 ++ q :: t :: B).Nodup := by simpa using hnd
        have hl : Linked s.next s.prev none (A0 ++ q :: t :: B) none := by simpa using h.linked
        have hnd2 := List.nodup_append.mp hnd1
        have htB : t ∉ B := by
          have := hnd2.2.1
          simp only [List.nodup_cons, List.mem_cons, not_or] at this
          exact this.2.1
        have hqA : q ∉ A0 := fun hx => hnd2.2.2 hx (by simp)
        rw [rank_settle_succ]
        simp only [ht.1, hc, if_true]
        have hLow : s.Low = lastOr B (some t) := by
          rw [h.low]; simp [lastOr_append]
        have hHigh : s.High = headOr A0 (some q) := by
          rw [h.high]; simp [headOr_append]
        obtain ⟨ha1, ha2, ha3, ha4, ha5⟩ := rank_adjust_spec s A0 B t q hLow hHigh htB hqA ht.1
        obtain ⟨s3, hs3, hl3, hsame, hH, hL⟩ := order_swap_spec (rank_adjust s t) A0 B q t
          (by rw [ha1, ha2]; exact hl) hnd1
        rw [hs3]
        have hinv3 : RankInv s3 (A0 ++ t :: (q :: B)) := by
          refine ⟨hl3, ?_, ?_, ?_, ?_⟩
          · rw [hH, ha4]; simp [headOr_append]
          · rw [hL, ha5]; simp [lastOr_append]
          · have hp : (A0 ++ t :: q :: B).Perm (A0 ++ q :: t :: B) :=
              List.Perm.append_left A0 (List.Perm.swap q t B)
            exact hp.nodup_iff.mpr hnd1
          · intro a ha
            rw [hsame.brk, ha3.brk]
            apply h.bound
            simp only [List.mem_append, List.mem_cons, List.mem_singleton] at ha ⊢
            tauto
        obtain ⟨s4, A1, A2, hs4, hA, hinv4, hsame4, hlt, hge⟩ := ih s3 A0 (q :: B) hinv3
          (by simp at hf; omega)
        have hn3 : s3.n = s.n := by rw [hsame.n, ha3.n]
        refine ⟨s4, A1, A2 ++ [q], hs4, by rw [hA]; simp, by simpa using hinv4,
          (ha3.trans hsame).trans hsame4, ?_, ?_⟩
        · intro x hx
          simp only [List.mem_append, List.mem_singleton] at hx
          rcases hx with hx | rfl
          · simpa [hn3] using hlt x hx
          · exact hc
        · intro x hx
          simpa [hn3] using hge x hx
      · refine ⟨s, A0 ++ [q], [], ?_, by simp, by simpa using h, SameButRank.refl s, by simp, ?_⟩
        · simp [rank_settle, ht.1, hc]
        · intro x hx
          simp only [lastOr_snoc, Option.some.injEq] at hx
          subst hx
          exact not_lt.mp hc

theorem BitComp_eq_zero (a b : BitArray) : BitComp a b = 0 ↔ a.bits = b.bits := by
  unfold BitComp; split_ifs <;> simp_all

theorem BitComp_eq_one (a b : BitArray) : BitComp a b = 1 ↔ b.bits < a.bits := by
  unfold BitComp; split_ifs <;> simp_all <;> omega

theorem BitComp_eq_neg_one (a b : BitArray) : BitComp a b = -1 ↔ a.bits < b.bits := by
  unfold BitComp; split_ifs <;> simp_all

theorem BitComp_cases (a b : BitArray) :
    BitComp a b = 0 ∨ BitComp a b = 1 ∨ BitComp a b = -1 := by
  unfold BitComp; split_ifs <;> simp

@[simp] theorem Shape.nodes_leaf : Shape.leaf.nodes = [] := rfl
@[simp] theorem Shape.nodes_node (l r : Shape) (a : Nat) :
    (Shape.node l a r).nodes = l.nodes ++ a :: r.nodes := rfl

theorem IsTree.reframe {left right left1 right1 : Nat → Option Nat} {p : Option Nat} {T : Shape}
    (h : IsTree left right p T)
    (hl : ∀ a ∈ T.nodes, left1 a = left a) (hr : ∀ a ∈ T.nodes, right1 a = right a) :
    IsTree left1 right1 p T := by
  induction T generalizing p with
  | leaf => exact h
  | node l a r ihl ihr =>
    obtain ⟨h1, h2, h3⟩ := h
    refine ⟨h1, ?_, ?_⟩
    · rw [hl a (by simp)]
      exact ihl h2 (fun x hx => hl x (by simp [hx])) (fun x hx => hr x (by simp [hx]))
    · rw [hr a (by simp)]
      exact ihr h3 (fun x hx => hl x (by simp [hx])) (fun x hx => hr x (by simp [hx]))

theorem IsTree.tree_list_eq {s : State} {p : Option Nat} {T : Shape}
    (h : IsTree s.left s.right p T) (fuel : Nat) (hf : T.nodes.length ≤ fuel) :
    tree_list s fuel p = some T.nodes := by
  induction T generalizing p fuel with
  | leaf =>
    have : p = none := h
    subst this
    cases fuel <;> rfl
  | node l a r ihl ihr =>
    obtain ⟨h1, h2, h3⟩ := h
    subst h1
    cases fuel with
    | zero => simp at hf
    | succ fuel =>
      simp only [Shape.nodes_node, List.length_append, List.length_cons] at hf
      simp only [tree_list, ihl h2 fuel (by omega), ihr h3 fuel (by omega), Shape.nodes_node]

theorem tree_insert_leaf (fuel : Nat) (s : State) (v : BitArray)
    (hHL : s.High = none ↔ s.Low = none) :
    tree_insert (fuel + 1) s none v =
      if s.max_fail = 0 ∨ s.nfm ≤ s.max_fail then .ok (grown s v, some s.brk)
      else .ok ({ s with nother := wrap (s.nother + 1) }, none) := by
  simp only [tree_insert, Fnode_create, BitClone]
  split_ifs
  · rcases hH : s.High with _ | h <;> rcases hL : s.Low with _ | l <;>
      simp_all [grown]
  · rfl

theorem State.right_self (s : State) (a : Nat) (r : Option Nat) (h : r = s.right a) :
    { s with right := Function.update s.right a r } = s := by
  subst h
  rw [Function.update_eq_self]

theorem State.left_self (s : State) (a : Nat) (r : Option Nat) (h : r = s.left a) :
    { s with left := Function.update s.left a r } = s := by
  subst h
  rw [Function.update_eq_self]

theorem tree_insert_found (s s2 : State) (T : Shape) (p : Option Nat) (v : BitArray) (t fuel : Nat)
    (hT : IsTree s.left s.right p T) (hl : T.lookup s.b v = some t) (hf : T.nodes.length < fuel)
    (hs : rank_settle s.brk (bump s t) t = .ok s2)
    (hL : s2.left = s.left) (hR : s2.right = s.right) :
    tree_insert fuel s p v = .ok (s2, p) := by
  induction T generalizing p fuel with
  | leaf => simp [Shape.lookup] at hl
  | node l a r ihl ihr =>
    obtain ⟨h1, h2, h3⟩ := hT
    subst h1
    cases fuel with
    | zero => simp at hf
    | succ fuel =>
      simp only [Shape.nodes_node, List.length_append, List.length_cons] at hf
      simp only [Shape.lookup] at hl
      simp only [tree_insert]
      split_ifs at hl ⊢ with c0 c1 c2
      · simp only [Option.some.injEq] at hl
        subst hl
        have : rank_settle s.brk { s with n := Function.update s.n a (wrap (s.n a + 1)) } a
            = .ok s2 := hs
        rw [this]
      · rw [ihr _ _ h3 hl (by omega)]
        simp only
        rw [State.right_self s2 a _ (by rw [hR])]
      · rw [ihl _ _ h2 hl (by omega)]
        simp only
        rw [State.left_self s2 a _ (by rw [hL])]
      · rcases BitComp_cases v (s.b a) with h | h | h <;> contradiction

theorem tree_insert_reject (s : State) (T : Shape) (p : Option Nat) (v : BitArray) (fuel : Nat)
    (hT : IsTree s.left s.right p T) (hl : T.lookup s.b v = none) (hf : T.nodes.length < fuel)
    (hHL : s.High = none ↔ s.Low = none) (hcap : ¬ (s.max_fail = 0 ∨ s.nfm ≤ s.max_fail)) :
    tree_insert fuel s p v = .ok ({ s with nother := wrap (s.nother + 1) }, p) := by
  induction T generalizing p fuel with
  | leaf =>
    have : p = none := hT
    subst this
    cases fuel with
    | zero => simp at hf
    | succ fuel => rw [tree_insert_leaf fuel s v hHL, if_neg hcap]
  | node l a r ihl ihr =>
    obtain ⟨h1, h2, h3⟩ := hT
    subst h1
    cases fuel with
    | zero => simp at hf
    | succ fuel =>
      simp only [Shape.nodes_node, List.length_append, List.length_cons] at hf
      simp only [Shape.lookup] at hl
      simp only [tree_insert]
      split_ifs at hl ⊢ with c0 c1 c2
      · rw [ihr _ _ h3 hl (by omega)]
        simp only
        rw [State.right_self { s with nother := wrap (s.nother + 1) } a _ rfl]
      · rw [ihl _ _ h2 hl (by omega)]
        simp only
        rw [State.left_self { s with nother := wrap (s.nother + 1) } a _ rfl]
      · rcases BitComp_cases v (s.b a) with h | h | h <;> contradiction

theorem Shape.mem_insert {b : Nat → BitArray} {v : BitArray} {new x : Nat} {T : Shape}
    (h : x ∈ (T.insert b v new).nodes) : x ∈ T.nodes ∨ x = new := by
  induction T with
  | leaf => simpa [Shape.insert] using h
  | node l a r ihl ihr =>
    simp only [Shape.insert] at h
    split_ifs at h
    · exact Or.inl h
    · simp only [Shape.nodes_node, List.mem_append, List.mem_cons] at h ⊢
      rcases h with h | h | h
      · tauto
      · tauto
      · rcases ihr h with h | h <;> tauto
    · simp only [Shape.nodes_node, List.mem_append, List.mem_cons] at h ⊢
      rcases h with h | h | h
      · rcases ihl h with h | h <;> tauto
      · tauto
      · tauto

theorem tree_insert_grow (s : State) (T : Shape) (p : Option Nat) (v : BitArray) (fuel : Nat)
    (hT : IsTree s.left s.right p T) (hl : T.lookup s.b v = none) (hf : T.nodes.length < fuel)
    (hHL : s.High = none ↔ s.Low = none) (hcap : s.max_fail = 0 ∨ s.nfm ≤ s.max_fail)
    (hb : ∀ a ∈ T.nodes, a < s.brk) (hnd : T.nodes.Nodup) :
    ∃ s1 p1, tree_insert fuel s p v = .ok (s1, p1) ∧
      IsTree s1.left s1.right p1 (T.insert s.b v s.brk) ∧ SameButTree (grown s v) s1 ∧
      (∀ a, a ∉ T.nodes → s1.left a = (grown s v).left a ∧ s1.right a = (grown s v).right a) := by
  induction T generalizing p fuel with
  | leaf =>
    have : p = none := hT
    subst this
    cases fuel with
    | zero => simp at hf
    | succ fuel =>
      rw [tree_insert_leaf fuel s v hHL, if_pos hcap]
      refine ⟨_, _, rfl, ?_, ⟨rfl, rfl, rfl, rfl, rfl, rfl, rfl, rfl, rfl, rfl⟩, fun a _ => ⟨rfl, rfl⟩⟩
      simp [Shape.insert, IsTree, grown]
  | node l a r ihl ihr =>
    obtain ⟨h1, h2, h3⟩ := hT
    subst h1
    cases fuel with
    | zero => simp at hf
    | succ fuel =>
      simp only [Shape.nodes_node, List.length_append, List.length_cons] at hf
      simp only [Shape.lookup] at hl
      simp only [Shape.nodes_node, List.mem_append, List.mem_cons] at hb
      have hnd1 := List.nodup_append.mp hnd
      have hnd2 := List.nodup_cons.mp hnd1.2.1
      have hal : a ∉ l.nodes := fun hx => hnd1.2.2 hx (by simp)
      have hlr : ∀ x ∈ l.nodes, x ∉ r.nodes := fun x hx hx1 => hnd1.2.2 hx (by simp [hx1])
      have hgl : ∀ x, x < s.brk → (grown s v).left x = s.left x := fun x hx => by
        simp [grown, Function.update_noteq (Nat.ne_of_lt hx)]
      have hgr : ∀ x, x < s.brk → (grown s v).right x = s.right x := fun x hx => by
        simp [grown, Function.update_noteq (Nat.ne_of_lt hx)]
      simp only [tree_insert, Shape.insert]
      split_ifs at hl ⊢ with c0 c1 c2
      · obtain ⟨s1, p1, e, ht, hs, hfr⟩ := ihr (s.right a) fuel h3 hl (by omega) (fun x hx => hb x (by tauto)) hnd2.2
        rw [e]
        refine ⟨_, _, rfl, ⟨rfl, ?_, ?_⟩,
          ⟨hs.b, hs.n, hs.next, hs.prev, hs.brk, hs.High, hs.Low, hs.nfm, hs.max_fail, hs.nother⟩, ?_⟩
        · simp only
          rw [(hfr a hnd2.1).1, hgl a (hb a (by tauto))]
          apply h2.reframe
          · intro x hx
            rw [(hfr x (hlr x hx)).1, hgl x (hb x (by tauto))]
          · intro x hx
            have hxa : x ≠ a := fun e => hal (e ▸ hx)
            rw [Function.update_noteq hxa, (hfr x (hlr x hx)).2, hgr x (hb x (by tauto))]
        · simp only [Function.update_same]
          apply ht.reframe
          · intro x hx; rfl
          · intro x hx
            have hxa : x ≠ a := by
              rintro rfl
              rcases Shape.mem_insert hx with h | h
              · exact hnd2.1 h
              · exact absurd h (Nat.ne_of_lt (hb x (by tauto)))
            simp only [Function.update_noteq hxa]
        · intro x hx
          simp only [Shape.nodes_node, List.mem_append, List.mem_cons, not_or] at hx
          refine ⟨(hfr x hx.2.2).1, ?_⟩
          simp only [Function.update_noteq hx.2.1]
          exact (hfr x hx.2.2).2
      · obtain ⟨s1, p1, e, ht, hs, hfr⟩ := ihl (s.left a) fuel h2 hl (by omega) (fun x hx => hb x (by tauto))
          hnd1.1
        rw [e]
        refine ⟨_, _, rfl, ⟨rfl, ?_, ?_⟩,
          ⟨hs.b, hs.n, hs.next, hs.prev, hs.brk, hs.High, hs.Low, hs.nfm, hs.max_fail, hs.nother⟩, ?_⟩
        · simp only [Function.update_same]
          apply ht.reframe
          · intro x hx
            have hxa : x ≠ a := by
              rintro rfl
              rcases Shape.mem_insert hx with h | h
              · exact hal h
              · exact absurd h (Nat.ne_of_lt (hb x (by tauto)))
            simp only [Function.update_noteq hxa]
          · intro x hx; rfl
        · simp only
          rw [(hfr a hal).2, hgr a (hb a (by tauto))]
          apply h3.reframe
          · intro x hx
            have hxa : x ≠ a := fun e => hnd2.1 (e ▸ hx)
            have hxl : x ∉ l.nodes := fun h => hlr x h hx
            rw [Function.update_noteq hxa, (hfr x hxl).1, hgl x (hb x (by tauto))]
          · intro x hx
            have hxl : x ∉ l.nodes := fun h => hlr x h hx
            rw [(hfr x hxl).2, hgr x (hb x (by tauto))]
        · intro x hx
          simp only [Shape.nodes_node, List.mem_append, List.mem_cons, not_or] at hx
          refine ⟨?_, (hfr x hx.1).2⟩
          simp only [Function.update_noteq hx.2.1]
          exact (hfr x hx.1).1
      · rcases BitComp_cases v (s.b a) with h | h | h <;> contradiction

theorem Shape.lookup_mem {b : Nat → BitArray} {v : BitArray} {t : Nat} {T : Shape}
    (h : T.lookup b v = some t) : t ∈ T.nodes ∧ BitComp v (b t) = 0 := by
  induction T with
  | leaf => simp [Shape.lookup] at h
  | node l a r ihl ihr =>
    simp only [Shape.lookup] at h
    simp only [Shape.nodes_node, List.mem_append, List.mem_cons]
    split_ifs at h with c0 c1
    · simp only [Option.some.injEq] at h
      subst h
      exact ⟨by tauto, c0⟩
    · exact ⟨by have := (ihr h).1; tauto, (ihr h).2⟩
    · exact ⟨by have := (ihl h).1; tauto, (ihl h).2⟩

theorem lastOr_some (L : List Nat) (a : Nat) : ∃ x, lastOr L (some a) = some x := by
  induction L generalizing a with
  | nil => exact ⟨a, rfl⟩
  | cons c L ih => exact ih c

theorem RankInv.high_low {s : State} {L : List Nat} (h : RankInv s L) :
    s.High = none ↔ s.Low = none := by
  rw [h.high, h.low]
  cases L with
  | nil => simp
  | cons a L =>
    obtain ⟨x, hx⟩ := lastOr_some L a
    simp [hx]

theorem RankInv.length_le {s : State} {L : List Nat} (h : RankInv s L) : L.length ≤ s.brk := by
  have h1 : L ⊆ List.range s.brk := fun a ha => List.mem_range.mpr (h.bound a ha)
  have := (List.subperm_of_subset h.nodup h1).length_le
  simpa using this

theorem RankInv.of_bump {s : State} {L : List Nat} (h : RankInv s L) (t : Nat) :
    RankInv (bump s t) L :=
  ⟨h.linked, h.high, h.low, h.nodup, h.bound⟩

theorem sorted_after_settle (n : Nat → Int) (A1 A2 B : List Nat) (t : Nat)
    (hnd : (A1 ++ A2 ++ t :: B).Nodup)
    (hs : (A1 ++ A2 ++ t :: B).Pairwise (fun a c => n c ≤ n a))
    (hlt : ∀ x ∈ A2, n x < n t + 1)
    (hge : ∀ x, lastOr A1 none = some x → n t + 1 ≤ n x) :
    (A1 ++ t :: (A2 ++ B)).Pairwise
      (fun a c => Function.update n t (n t + 1) c ≤ Function.update n t (n t + 1) a) := by
  have hnt : ∀ x ∈ A1 ++ A2 ++ B, x ≠ t := by
    intro x hx e
    subst e
    simp only [List.append_assoc, List.nodup_append, List.nodup_cons, List.mem_append,
      List.mem_cons] at hnd hx
    have h1 := hnd.2.2
    have h2 := hnd.2.1.2.2
    rcases hx with hx | hx | hx
    · exact h1 hx (by simp)
    · exact h2 hx (by simp)
    · exact hnd.2.1.2.1.1 hx
  have hA1 : ∀ x ∈ A1, n t + 1 ≤ n x := by
    intro x hx
    obtain ⟨A0, q, rfl⟩ : ∃ A0 q, A1 = A0 ++ [q] := by
      rcases List.eq_nil_or_concat A1 with e | ⟨A0, q, e⟩
      · subst e; simp at hx
      · exact ⟨A0, q, by simpa using e⟩
    have hq := hge q (by simp)
    simp only [List.mem_append, List.mem_singleton] at hx
    rcases hx with hx | rfl
    · have : n q ≤ n x := by
        simp only [List.append_assoc, List.pairwise_append, List.mem_append, List.mem_cons,
          List.mem_singleton] at hs
        exact hs.2.2 x hx q (by simp)
      omega
    · exact hq
  simp only [List.append_assoc, List.pairwise_append, List.pairwise_cons, List.mem_append,
    List.mem_cons] at hs ⊢
  simp only [List.mem_append] at hnt
  obtain ⟨hs1, ⟨hs2, ⟨hs3, hs4⟩, hs5⟩, hs6⟩ := hs
  have upd : ∀ x, x ≠ t → Function.update n t (n t + 1) x = n x := fun x hx =>
    Function.update_noteq hx _ _
  simp only [Function.update_same]
  refine ⟨?_, ⟨?_, ?_, ?_, ?_⟩, ?_⟩
  · exact hs1.imp_of_mem (fun {a c} ha hc h => by
      rw [upd a (hnt a (by tauto)), upd c (hnt c (by tauto))]; exact h)
  · intro x hx
    rcases hx with hx | hx
    · rw [upd x (hnt x (by tauto))]; have := hlt x hx; omega
    · rw [upd x (hnt x (by tauto))]; have := hs3 x hx; omega
  · exact hs2.imp_of_mem (fun {a c} ha hc h => by
      rw [upd a (hnt a (by tauto)), upd c (hnt c (by tauto))]; exact h)
  · exact hs4.imp_of_mem (fun {a c} ha hc h => by
      rw [upd a (hnt a (by tauto)), upd c (hnt c (by tauto))]; exact h)
  · intro x hx y hy
    rw [upd x (hnt x (by tauto)), upd y (hnt y (by tauto))]
    exact hs5 x hx y (by tauto)
  · intro x hx y hy
    rcases hy with rfl | hy | hy
    · simp only [Function.update_same]
      rw [upd x (hnt x (by tauto))]
      exact hA1 x hx
    · rw [upd x (hnt x (by tauto)), upd y (hnt y (by tauto))]
      exact hs6 x hx y (by tauto)
    · rw [upd x (hnt x (by tauto)), upd y (hnt y (by tauto))]
      exact hs6 x hx y (by tauto)

theorem record_found (s : State) (T : Shape) (L : List Nat) (v : BitArray) (t : Nat)
    (h : Inv s T L) (hl : T.lookup s.b v = some t) :
    ∃ s1 L1, record_failure s v = .ok s1 ∧ Inv s1 T L1 ∧ L1.Perm L ∧
      s1.n = Function.update s.n t (wrap (s.n t + 1)) ∧ s1.b = s.b ∧ s1.nfm = s.nfm ∧
      s1.nother = s.nother ∧ s1.max_fail = s.max_fail ∧ s1.brk = s.brk ∧
      (∀ k : Int, Ranked s L k → k < INT_MAX → Ranked s1 L1 (k + 1)) := by
  have htm := (Shape.lookup_mem hl).1
  have htL : t ∈ L := h.perm.mem_iff.mp htm
  obtain ⟨A, B, rfl⟩ := List.append_of_mem htL
  have hlen : (A ++ t :: B).length = s.brk := h.brk.symm
  obtain ⟨s2, A1, A2, hs2, rfl, hinv, hsame, hlt, hge⟩ :=
    rank_settle_spec s.brk (bump s t) A B t (h.rank.of_bump t) (by simp at hlen; omega)
  have hL : s2.left = s.left := hsame.left
  have hR : s2.right = s.right := hsame.right
  have hti := tree_insert_found s s2 T s.Failtree v t (s.brk + 1) h.tree hl
    (by rw [h.perm.length_eq, hlen]; omega) hs2 hL hR
  have hperm : (A1 ++ t :: (A2 ++ B)).Perm (A1 ++ A2 ++ t :: B) := by
    rw [List.append_assoc]
    exact List.Perm.append_left A1 List.perm_middle.symm
  have hn2 : s2.n = Function.update s.n t (wrap (s.n t + 1)) := hsame.n
  have hnt : ∀ x ∈ A2, x ≠ t := by
    intro x hx e
    subst e
    have := h.rank.nodup
    simp only [List.append_assoc, List.nodup_append, List.nodup_cons, List.mem_append,
      List.mem_cons] at this
    exact this.2.1.2.2 hx (by simp)
  refine ⟨{ s2 with Failtree := s.Failtree }, A1 ++ t :: (A2 ++ B), ?_, ?_, hperm, hn2,
    hsame.b, hsame.nfm, hsame.nother, hsame.max_fail, hsame.brk, ?_⟩
  · simp only [record_failure, hti]
  · refine ⟨⟨hinv.linked, hinv.high, hinv.low, hinv.nodup, hinv.bound⟩, ?_, ?_, ?_, ?_, ?_, ?_⟩
    · show IsTree s2.left s2.right s.Failtree T
      rw [hL, hR]; exact h.tree
    · exact h.perm.trans hperm.symm
    · show Bst s2.b T
      rw [hsame.b]; exact h.bst
    · show s2.nfm = _
      rw [hsame.nfm, hperm.length_eq]; exact h.nfm
    · show s2.brk = _
      rw [hsame.brk, hperm.length_eq]; exact h.brk
    · intro a ha
      show wrap (s2.n a) = s2.n a
      rw [hn2]
      have ha1 : a ∈ A1 ++ A2 ++ t :: B := hperm.mem_iff.mp ha
      by_cases e : a = t
      · subst e; simp only [Function.update_same]; exact wrap_idem _
      · simp only [Function.update_noteq e]; exact h.range a ha1
  · intro k hk hlt1
    have ht1 := hk.pos t htL
    have ht2 := hk.le t htL
    have hw : wrap (s.n t + 1) = s.n t + 1 :=
      wrap_of_range (by unfold INT_MIN; omega) (by omega)
    rw [hw] at hn2
    refine ⟨?_, ?_, ?_⟩
    · show List.Pairwise (fun a c => s2.n c ≤ s2.n a) _
      rw [hn2]
      apply sorted_after_settle s.n A1 A2 B t h.rank.nodup hk.sorted
      · intro x hx
        have := hlt x hx
        simp only [bump, Function.update_same, Function.update_noteq (hnt x hx), hw] at this
        exact this
      · intro x hx
        have := hge x hx
        have hxt : x ≠ t := by
          rintro rfl
          rcases lastOr_mem _ _ _ hx with h1 | ⟨_, h1⟩
          · have := h.rank.nodup
            simp only [List.append_assoc, List.nodup_append, List.nodup_cons, List.mem_append,
              List.mem_cons] at this
            exact this.2.2 h1 (by simp)
          · simp at h1
        simp only [bump, Function.update_same, Function.update_noteq hxt, hw] at this
        exact this
    · intro a ha
      show 1 ≤ s2.n a
      rw [hn2]
      have ha1 : a ∈ A1 ++ A2 ++ t :: B := hperm.mem_iff.mp ha
      have := hk.pos a ha1
      by_cases e : a = t
      · subst e; simp only [Function.update_same]; omega
      · simp only [Function.update_noteq e]; exact this
    · intro a ha
      show s2.n a ≤ k + 1
      rw [hn2]
      have ha1 : a ∈ A1 ++ A2 ++ t :: B := hperm.mem_iff.mp ha
      have := hk.le a ha1
      by_cases e : a = t
      · subst e; simp only [Function.update_same]; omega
      · simp only [Function.update_noteq e]; omega

theorem record_reject (s : State) (T : Shape) (L : List Nat) (v : BitArray)
    (h : Inv s T L) (hl : T.lookup s.b v = none)
    (hcap : ¬ (s.max_fail = 0 ∨ s.nfm ≤ s.max_fail)) :
    record_failure s v = .ok { s with nother := wrap (s.nother + 1) } ∧
      Inv { s with nother := wrap (s.nother + 1) } T L ∧
      (∀ k : Int, Ranked s L k → Ranked { s with nother := wrap (s.nother + 1) } L (k + 1)) := by
  have hti := tree_insert_reject s T s.Failtree v (s.brk + 1) h.tree hl
    (by rw [h.perm.length_eq, h.brk]; omega) h.rank.high_low hcap
  refine ⟨?_, ⟨⟨h.rank.linked, h.rank.high, h.rank.low, h.rank.nodup, h.rank.bound⟩, h.tree,
    h.perm, h.bst, h.nfm, h.brk, h.range⟩, ?_⟩
  · simp only [record_failure, hti]
  · intro k hk
    exact ⟨hk.sorted, hk.pos, fun a ha => by have := hk.le a ha; show s.n a ≤ k + 1; omega⟩

theorem Bst.rebase {b b1 : Nat → BitArray} {T : Shape} (h : Bst b T)
    (hb : ∀ x ∈ T.nodes, b1 x = b x) : Bst b1 T := by
  induction T with
  | leaf => trivial
  | node l a r ihl ihr =>
    obtain ⟨h1, h2, h3, h4⟩ := h
    simp only [Shape.nodes_node, List.mem_append, List.mem_cons] at hb
    refine ⟨?_, ?_, ihl h3 (fun x hx => hb x (by tauto)), ihr h4 (fun x hx => hb x (by tauto))⟩
    · intro x hx
      rw [hb x (by tauto), hb a (by tauto)]
      exact h1 x hx
    · intro x hx
      rw [hb x (by tauto), hb a (by tauto)]
      exact h2 x hx

theorem Bst.insert {b : Nat → BitArray} {T : Shape} {v : BitArray} {new : Nat}
    (h : Bst b T) (hl : T.lookup b v = none) (hnew : new ∉ T.nodes) :
    Bst (Function.update b new v) (T.insert b v new) := by
  induction T with
  | leaf => simp [Shape.insert, Bst]
  | node l a r ihl ihr =>
    obtain ⟨h1, h2, h3, h4⟩ := h
    simp only [Shape.nodes_node, List.mem_append, List.mem_cons, not_or] at hnew
    simp only [Shape.lookup] at hl
    simp only [Shape.insert]
    have hu : ∀ x, x ≠ new → Function.update b new v x = b x := fun x hx =>
      Function.update_noteq hx _ _
    have hne : ∀ x ∈ l.nodes ++ a :: r.nodes, x ≠ new := by
      intro x hx e
      subst e
      simp only [List.mem_append, List.mem_cons] at hx
      tauto
    simp only [List.mem_append, List.mem_cons] at hne
    split_ifs at hl ⊢ with c0 c1
    · refine ⟨?_, ?_, h3.rebase (fun x hx => hu x (hne x (by tauto))), ihr h4 hl hnew.2.2⟩
      · intro x hx
        rw [hu x (hne x (by tauto)), hu a (hne a (by tauto))]
        exact h1 x hx
      · intro x hx
        rcases Shape.mem_insert hx with hx | rfl
        · rw [hu x (hne x (by tauto)), hu a (hne a (by tauto))]
          exact h2 x hx
        · rw [Function.update_same, hu a (hne a (by tauto))]
          exact c1
    · have c2 : BitComp v (b a) = -1 := by
        rcases BitComp_cases v (b a) with h | h | h
        · exact absurd h c0
        · exact absurd h c1
        · exact h
      refine ⟨?_, ?_, ihl h3 hl hnew.1, h4.rebase (fun x hx => hu x (hne x (by tauto)))⟩
      · intro x hx
        rcases Shape.mem_insert hx with hx | rfl
        · rw [hu x (hne x (by tauto)), hu a (hne a (by tauto))]
          exact h1 x hx
        · rw [Function.update_same, hu a (hne a (by tauto))]
          exact c2
      · intro x hx
        rw [hu x (hne x (by tauto)), hu a (hne a (by tauto))]
        exact h2 x hx

theorem Shape.insert_perm {b : Nat → BitArray} {T : Shape} {v : BitArray} {new : Nat}
    (hl : T.lookup b v = none) : (T.insert b v new).nodes.Perm (new :: T.nodes) := by
  induction T with
  | leaf => simp [Shape.insert]
  | node l a r ihl ihr =>
    simp only [Shape.lookup] at hl
    simp only [Shape.insert]
    split_ifs at hl ⊢ with c0 c1
    · simp only [Shape.nodes_node]
      have := ihr hl
      exact ((List.Perm.append_left _ (List.Perm.cons a this)).trans
        (List.Perm.append_left _ (List.Perm.swap new a _))).trans List.perm_middle
    · simp only [Shape.nodes_node]
      have := ihl hl
      exact (List.Perm.append_right _ this)

theorem RankInv.of_grown {s : State} {L : List Nat} (h : RankInv s L) (v : BitArray) :
    RankInv (grown s v) (L ++ [s.brk]) := by
  have hk : ∀ a ∈ L, a ≠ s.brk := fun a ha => Nat.ne_of_lt (h.bound a ha)
  have hkL : s.brk ∉ L := fun ha => hk _ ha rfl
  refine ⟨?_, ?_, ?_, ?_, ?_⟩
  · rw [Linked_append]
    refine ⟨?_, ?_⟩
    · apply h.linked.transfer h.nodup
      · intro a ha
        simp only [grown, Function.update_noteq (hk a ha)]
        split
        · next e => exact h.linked.head_next e
        · rfl
      · intro a ha
        simp only [grown, headOr_cons]
        rw [h.low]
        rcases hx : lastOr L none with _ | x
        · rcases lastOr_mem L none a (by
            cases L with
            | nil => simp at ha
            | cons c L => obtain ⟨y, hy⟩ := lastOr_some L c; simp [hy] at hx) with h1 | ⟨h1, _⟩
          · cases L with
            | nil => simp at ha
            | cons c L => obtain ⟨y, hy⟩ := lastOr_some L c; simp [hy] at hx
          · subst h1; simp at ha
        · simp only [Option.some.injEq]
          split
          · next e => subst e; simp
          · next e =>
            rw [Function.update_noteq (fun e1 => e e1.symm), Function.update_noteq (hk a ha)]
    · simp only [Linked_cons, Linked_nil, and_true, headOr_nil, grown, Function.update_same]
      refine ⟨h.low, ?_⟩
      rcases hx : s.Low with _ | x
      · simp
      · have hxL : x ∈ L := by
          rw [h.low] at hx
          rcases lastOr_mem _ _ _ hx with h1 | ⟨_, h1⟩
          · exact h1
          · simp at h1
        simp only [Function.update_noteq (hk x hxL).symm, Function.update_same]
  · simp only [grown, headOr_append, headOr_cons, headOr_nil, h.high]
    cases L <;> rfl
  · simp [grown]
  · rw [List.nodup_append]
    refine ⟨h.nodup, by simp, ?_⟩
    intro a ha hb
    simp only [List.mem_singleton] at hb
    exact hk a ha hb
  · intro a ha
    simp only [List.mem_append, List.mem_singleton] at ha
    simp only [grown]
    rcases ha with ha | rfl
    · have := h.bound a ha; omega
    · omega

theorem record_grow (s : State) (T : Shape) (L : List Nat) (v : BitArray)
    (h : Inv s T L) (hl : T.lookup s.b v = none)
    (hcap : s.max_fail = 0 ∨ s.nfm ≤ s.max_fail) :
    ∃ s1, record_failure s v = .ok s1 ∧ Inv s1 (T.insert s.b v s.brk) (L ++ [s.brk]) ∧
      s1.b = Function.update s.b s.brk v ∧ s1.n = Function.update s.n s.brk 1 ∧
      s1.nfm = s.nfm + 1 ∧ s1.nother = s.nother ∧ s1.max_fail = s.max_fail ∧
      s1.brk = s.brk + 1 ∧
      (∀ k : Int, Ranked s L k → 0 ≤ k → Ranked s1 (L ++ [s.brk]) (k + 1)) := by
  have hk : ∀ a ∈ L, a ≠ s.brk := fun a ha => Nat.ne_of_lt (h.rank.bound a ha)
  have hkT : s.brk ∉ T.nodes := fun ha => hk _ (h.perm.mem_iff.mp ha) rfl
  obtain ⟨s1, p1, hti, htree, hsame, -⟩ := tree_insert_grow s T s.Failtree v (s.brk + 1) h.tree hl
    (by rw [h.perm.length_eq, h.brk]; omega) h.rank.high_low hcap
    (fun a ha => h.rank.bound a (h.perm.mem_iff.mp ha)) (h.perm.nodup_iff.mpr h.rank.nodup)
  have hr := h.rank.of_grown v
  refine ⟨{ s1 with Failtree := p1 }, ?_, ?_, hsame.b, hsame.n, hsame.nfm, hsame.nother,
    hsame.max_fail, hsame.brk, ?_⟩
  · simp only [record_failure, hti]
  · refine ⟨⟨?_, ?_, ?_, hr.nodup, ?_⟩, htree, ?_, ?_, ?_, ?_, ?_⟩
    · show Linked s1.next s1.prev none _ none
      rw [hsame.next, hsame.prev]; exact hr.linked
    · show s1.High = _
      rw [hsame.High]; exact hr.high
    · show s1.Low = _
      rw [hsame.Low]; exact hr.low
    · show ∀ a ∈ _, a < s1.brk
      rw [hsame.brk]; exact hr.bound
    · exact ((Shape.insert_perm hl).trans (List.Perm.cons _ h.perm)).trans
        (List.perm_append_singleton _ _).symm
    · show Bst s1.b _
      rw [hsame.b]
      exact h.bst.insert hl hkT
    · show s1.nfm = _
      rw [hsame.nfm]
      simp [grown, h.nfm]
    · show s1.brk = _
      rw [hsame.brk]
      simp [grown, h.brk]
    · intro a ha
      show wrap (s1.n a) = s1.n a
      rw [hsame.n]
      simp only [List.mem_append, List.mem_singleton] at ha
      simp only [grown]
      rcases ha with ha | rfl
      · rw [Function.update_noteq (hk a ha)]; exact h.range a ha
      · rw [Function.update_same]; exact wrap_one
  · intro k hk0 hk1
    refine ⟨?_, ?_, ?_⟩
    · show List.Pairwise (fun a c => s1.n c ≤ s1.n a) _
      rw [hsame.n]
      simp only [grown, List.pairwise_append, List.pairwise_cons, List.mem_singleton,
        List.not_mem_nil, false_implies, implies_true, List.Pairwise.nil, and_true, true_and]
      refine ⟨?_, ?_⟩
      · exact hk0.sorted.imp_of_mem (fun {a c} ha hc hac => by
          rw [Function.update_noteq (hk a ha), Function.update_noteq (hk c hc)]; exact hac)
      · intro a ha c hc
        subst hc
        rw [Function.update_same, Function.update_noteq (hk a ha)]
        exact hk0.pos a ha
    · intro a ha
      show 1 ≤ s1.n a
      rw [hsame.n]
      simp only [List.mem_append, List.mem_singleton] at ha
      simp only [grown]
      rcases ha with ha | rfl
      · rw [Function.update_noteq (hk a ha)]; exact hk0.pos a ha
      · rw [Function.update_same]
    · intro a ha
      show s1.n a ≤ k + 1
      rw [hsame.n]
      simp only [List.mem_append, List.mem_singleton] at ha
      simp only [grown]
      rcases ha with ha | rfl
      · rw [Function.update_noteq (hk a ha)]; have := hk0.le a ha; omega
      · rw [Function.update_same]; omega

theorem Inv.init (s0 : State) (c : Int) : Inv (initialise_failures s0 c) .leaf [] := by
  refine ⟨⟨trivial, rfl, rfl, List.nodup_nil, by simp⟩, rfl, by simp, trivial, rfl, rfl,
    by simp⟩

theorem Inv.step {s : State} {T : Shape} {L : List Nat} (h : Inv s T L) (v : BitArray) :
    ∃ s1 T1 L1, record_failure s v = .ok s1 ∧ Inv s1 T1 L1 := by
  rcases hl : T.lookup s.b v with _ | t
  · by_cases hcap : s.max_fail = 0 ∨ s.nfm ≤ s.max_fail
    · obtain ⟨s1, h1, h2, -⟩ := record_grow s T L v h hl hcap
      exact ⟨s1, _, _, h1, h2⟩
    · obtain ⟨h1, h2, -⟩ := record_reject s T L v h hl hcap
      exact ⟨_, _, _, h1, h2⟩
  · obtain ⟨s1, L1, h1, h2, -⟩ := record_found s T L v t h hl
    exact ⟨s1, _, _, h1, h2⟩

theorem Inv.run {s : State} {T : Shape} {L : List Nat} (h : Inv s T L) (bs : List BitArray) :
    ∃ s1 T1 L1, record_all s bs = .ok s1 ∧ Inv s1 T1 L1 := by
  induction bs generalizing s T L with
  | nil => exact ⟨s, T, L, rfl, h⟩
  | cons v bs ih =>
    obtain ⟨s1, T1, L1, h1, h2⟩ := h.step v
    obtain ⟨s2, T2, L2, h3, h4⟩ := ih h2
    refine ⟨s2, T2, L2, ?_, h4⟩
    simp only [record_all, h1, h3]

theorem Reachable.inv {s : State} (h : Reachable s) : ∃ T L, Inv s T L := by
  obtain ⟨s0, c, bs, hr⟩ := h
  obtain ⟨s1, T1, L1, h1, h2⟩ := (Inv.init s0 c).run bs
  rw [h1] at hr
  cases hr
  exact ⟨T1, L1, h2⟩

theorem Reachable.record {s : State} (h : Reachable s) (v : BitArray) :
    ∃ s1, record_failure s v = .ok s1 ∧ Reachable s1 := by
  obtain ⟨T, L, hi⟩ := h.inv
  obtain ⟨s1, -, -, h1, -⟩ := hi.step v
  obtain ⟨s0, c, bs, hr⟩ := h
  refine ⟨s1, h1, s0, c, bs ++ [v], ?_⟩
  have : ∀ (bs : List BitArray) (s s1 s2 : State), record_all s bs = .ok s1 →
      record_failure s1 v = .ok s2 → record_all s (bs ++ [v]) = .ok s2 := by
    intro bs
    induction bs with
    | nil =>
      intro s s1 s2 h1 h2
      cases h1
      simp [record_all, h2]
    | cons b bs ih =>
      intro s s1 s2 h1 h2
      simp only [record_all, List.cons_append] at h1 ⊢
      rcases hb : record_failure s b with e | s3
      · simp [hb] at h1
      · simp only [hb] at h1 ⊢
        exact ih s3 s1 s2 h1 h2
  exact this bs _ s s1 hr h1

theorem Inv.rank_list {s : State} {T : Shape} {L : List Nat} (h : Inv s T L) :
    rank_list s = some L := by
  unfold FailureStatistics.rank_list
  rw [h.rank.high]
  exact h.rank.linked.walk_prev _ (by rw [h.brk])

theorem lastOr_eq_getLast? (L : List Nat) : lastOr L none = L.getLast? := by
  have : ∀ (L : List Nat) (d : Nat), lastOr L (some d) = (d :: L).getLast? := by
    intro L
    induction L with
    | nil => intro d; rfl
    | cons a L ih => intro d; rw [lastOr_cons, ih a, List.getLast?_cons_cons]
  cases L with
  | nil => rfl
  | cons a L => rw [lastOr_cons, this]

theorem headOr_eq_head? (L : List Nat) : headOr L none = L.head? := by
  cases L <;> rfl

theorem Inv.rank_list_up {s : State} {T : Shape} {L : List Nat} (h : Inv s T L) :
    rank_list_up s = some L.reverse := by
  unfold FailureStatistics.rank_list_up
  rw [h.rank.low, ← headOr_reverse]
  exact h.rank.linked.reverse.walk_prev _ (by rw [h.brk]; simp)

theorem Inv.tree_nodes {s : State} {T : Shape} {L : List Nat} (h : Inv s T L) :
    tree_nodes s = some T.nodes := by
  unfold FailureStatistics.tree_nodes
  exact h.tree.tree_list_eq _ (by rw [h.brk, h.perm.length_eq])

theorem BitComp_congr_left {v w : BitArray} (h : BitComp v w = 0) (x : BitArray) :
    BitComp v x = BitComp w x := by
  rw [BitComp_eq_zero] at h
  unfold BitComp
  rw [h]

theorem Bst.lookup_of_mem {b : Nat → BitArray} {T : Shape} {v : BitArray} {t : Nat}
    (h : Bst b T) (ht : t ∈ T.nodes) (hv : BitComp v (b t) = 0) : T.lookup b v = some t := by
  induction T with
  | leaf => simp at ht
  | node l a r ihl ihr =>
    obtain ⟨h1, h2, h3, h4⟩ := h
    simp only [Shape.nodes_node, List.mem_append, List.mem_cons] at ht
    simp only [Shape.lookup]
    rcases ht with ht | rfl | ht
    · have := h1 t ht
      rw [← BitComp_congr_left hv] at this
      rw [if_neg (by omega), if_neg (by omega)]
      exact ihl h3 ht
    · rw [if_pos hv]
    · have := h2 t ht
      rw [← BitComp_congr_left hv] at this
      rw [if_neg (by omega), if_pos this]
      exact ihr h4 ht

theorem Bst.pairwise {b : Nat → BitArray} {T : Shape} (h : Bst b T) :
    T.nodes.Pairwise (fun x y => (b x).bits < (b y).bits) := by
  induction T with
  | leaf => exact List.Pairwise.nil
  | node l a r ihl ihr =>
    obtain ⟨h1, h2, h3, h4⟩ := h
    simp only [Shape.nodes_node, List.pairwise_append, List.pairwise_cons, List.mem_cons]
    refine ⟨ihl h3, ⟨fun x hx => ?_, ihr h4⟩, ?_⟩
    · exact (BitComp_eq_one _ _).mp (h2 x hx)
    · intro x hx y hy
      have hxa := (BitComp_eq_neg_one _ _).mp (h1 x hx)
      rcases hy with rfl | hy
      · exact hxa
      · exact lt_trans hxa ((BitComp_eq_one _ _).mp (h2 y hy))

theorem Bst.distinct {b : Nat → BitArray} {T : Shape} (h : Bst b T) :
    ∀ x ∈ T.nodes, ∀ y ∈ T.nodes, x ≠ y → (b x).bits ≠ (b y).bits := by
  have h1 : T.nodes.Pairwise (fun x y => (b x).bits ≠ (b y).bits) :=
    h.pairwise.imp (fun hxy => Nat.ne_of_lt hxy)
  exact h1.forall (fun x y hxy => hxy.symm)

theorem IsTree.subtree {left right : Nat → Option Nat} {b : Nat → BitArray} {p : Option Nat}
    {T : Shape} (h : IsTree left right p T) (hb : Bst b T) {t : Nat} (ht : t ∈ T.nodes) :
    ∃ l r : Shape, IsTree left right (left t) l ∧ IsTree left right (right t) r ∧
      l.nodes.length ≤ T.nodes.length ∧ r.nodes.length ≤ T.nodes.length ∧
      (∀ x ∈ l.nodes, BitComp (b x) (b t) = -1) ∧ (∀ x ∈ r.nodes, BitComp (b x) (b t) = 1) := by
  induction T generalizing p with
  | leaf => simp at ht
  | node l a r ihl ihr =>
    obtain ⟨h1, h2, h3⟩ := h
    obtain ⟨b1, b2, b3, b4⟩ := hb
    simp only [Shape.nodes_node, List.mem_append, List.mem_cons] at ht
    simp only [Shape.nodes_node, List.length_append, List.length_cons]
    rcases ht with ht | rfl | ht
    · obtain ⟨l1, r1, e1, e2, e3, e4, e5, e6⟩ := ihl h2 b3 ht
      exact ⟨l1, r1, e1, e2, by omega, by omega, e5, e6⟩
    · exact ⟨l, r, h2, h3, by omega, by omega, b1, b2⟩
    · obtain ⟨l1, r1, e1, e2, e3, e4, e5, e6⟩ := ihr h3 b4 ht
      exact ⟨l1, r1, e1, e2, by omega, by omega, e5, e6⟩

theorem record_repeat (s : State) (T : Shape) (L : List Nat) (v : BitArray) (t : Nat)
    (h : Inv s T L) (hl : T.lookup s.b v = some t) (k : Nat) :
    ∃ s1 L1, record_all s (List.replicate k v) = .ok s1 ∧ Inv s1 T L1 ∧ s1.b = s.b ∧
      s1.n = Function.update s.n t (wrap (s.n t + k)) ∧ s1.nfm = s.nfm ∧
      s1.nother = s.nother := by
  induction k generalizing s L with
  | zero =>
    refine ⟨s, L, rfl, h, rfl, ?_, rfl, rfl⟩
    have htL : t ∈ L := h.perm.mem_iff.mp (Shape.lookup_mem hl).1
    simp [h.range t htL]
  | succ k ih =>
    obtain ⟨s1, L1, e1, hi1, -, hn1, hb1, hf1, ho1, -, -⟩ := record_found s T L v t h hl
    obtain ⟨s2, L2, e2, hi2, hb2, hn2, hf2, ho2⟩ := ih s1 L1 hi1 (by rw [hb1]; exact hl)
    refine ⟨s2, L2, ?_, hi2, hb2.trans hb1, ?_, hf2.trans hf1, ho2.trans ho1⟩
    · simp only [List.replicate_succ, record_all, e1, e2]
    · rw [hn2, hn1]
      simp only [Function.update_same, Function.update_idem, wrap_add_left]
      push_cast
      ring_nf

theorem record_all_append (s : State) (as bs : List BitArray) :
    record_all s (as ++ bs) =
      match record_all s as with
      | .ok s1 => record_all s1 bs
      | .error e => .error e := by
  induction as generalizing s with
  | nil => rfl
  | cons a as ih =>
    simp only [List.cons_append, record_all]
    rcases record_failure s a with e | s1
    · rfl
    · exact ih s1

theorem record_all_append_ok {s s1 : State} {as : List BitArray}
    (h : record_all s as = .ok s1) (bs : List BitArray) :
    record_all s (as ++ bs) = record_all s1 bs := by
  rw [record_all_append, h]

/-- A call for the vector of the record at `High` only increments its count:
the settle loop finds no record above it. -/
theorem record_at_High (s : State) (T : Shape) (L : List Nat) (v : BitArray) (t : Nat)
    (h : Inv s T L) (hl : T.lookup s.b v = some t) (hH : s.High = some t) :
    record_failure s v = .ok (bump s t) := by
  obtain ⟨B, rfl⟩ : ∃ B, L = t :: B := by
    have := h.rank.high
    rw [hH] at this
    cases L with
    | nil => simp at this
    | cons a B =>
      simp only [headOr_cons, Option.some.injEq] at this
      exact ⟨B, by rw [this]⟩
  have hnx : s.next t = none := h.rank.linked.1
  have hbrk : s.brk = B.length + 1 := by rw [h.brk]; rfl
  have hs : rank_settle s.brk (bump s t) t = .ok (bump s t) := by
    rw [hbrk]
    have : (bump s t).next t = none := hnx
    simp [rank_settle, this]
  have hti := tree_insert_found s (bump s t) T s.Failtree v t (s.brk + 1) h.tree hl
    (by rw [h.perm.length_eq, h.brk]; omega) hs rfl rfl
  simp only [record_failure, hti]
  rfl

theorem repeat_at_High (s : State) (T : Shape) (L : List Nat) (v : BitArray) (t : Nat)
    (h : Inv s T L) (hl : T.lookup s.b v = some t) (hH : s.High = some t) (k : Nat) :
    record_all s (List.replicate k v)
      = .ok { s with n := Function.update s.n t (wrap (s.n t + k)) } := by
  induction k generalizing s L with
  | zero =>
    have htL : t ∈ L := h.perm.mem_iff.mp (Shape.lookup_mem hl).1
    simp [record_all, h.range t htL]
  | succ k ih =>
    obtain ⟨s1, L1, e1, hi1, -, -, hb1, -⟩ := record_found s T L v t h hl
    have e2 := record_at_High s T L v t h hl hH
    rw [e1] at e2
    cases e2
    simp only [List.replicate_succ, record_all, e1]
    rw [ih (bump s t) L1 hi1 hl hH]
    simp only [bump, Function.update_same, Function.update_idem, wrap_add_left]
    congr 3
    push_cast
    ring_nf

theorem Ranked.at_init (s0 : State) (c : Int) : Ranked (initialise_failures s0 c) [] 0 :=
  ⟨List.Pairwise.nil, by simp, by simp⟩

/-- While no more than `INT_MAX` calls have been made, no count has left the
range of `int`, and the order list is sorted by count. -/
theorem Ranked.after_run {s : State} {T : Shape} {L : List Nat} {k : Int} (h : Inv s T L)
    (hk : Ranked s L k) (h0 : 0 ≤ k) (bs : List BitArray) (hb : k + bs.length ≤ INT_MAX) :
    ∃ s1 T1 L1, record_all s bs = .ok s1 ∧ Inv s1 T1 L1 ∧ Ranked s1 L1 (k + bs.length) := by
  induction bs generalizing s T L k with
  | nil => exact ⟨s, T, L, rfl, h, by simpa using hk⟩
  | cons v bs ih =>
    simp only [List.length_cons, Nat.cast_add, Nat.cast_one] at hb
    have hstep : ∃ s1 T1 L1, record_failure s v = .ok s1 ∧ Inv s1 T1 L1 ∧
        Ranked s1 L1 (k + 1) := by
      rcases hl : T.lookup s.b v with _ | t
      · by_cases hcap : s.max_fail = 0 ∨ s.nfm ≤ s.max_fail
        · obtain ⟨s1, h1, h2, -, -, -, -, -, -, h3⟩ := record_grow s T L v h hl hcap
          exact ⟨s1, _, _, h1, h2, h3 k hk h0⟩
        · obtain ⟨h1, h2, h3⟩ := record_reject s T L v h hl hcap
          exact ⟨_, _, _, h1, h2, h3 k hk⟩
      · obtain ⟨s1, L1, h1, h2, -, -, -, -, -, -, -, h3⟩ := record_found s T L v t h hl
        exact ⟨s1, _, _, h1, h2, h3 k hk (by omega)⟩
    obtain ⟨s1, T1, L1, h1, h2, h3⟩ := hstep
    obtain ⟨s2, T2, L2, h4, h5, h6⟩ := ih h2 h3 (by omega) (by omega)
    refine ⟨s2, T2, L2, ?_, h5, ?_⟩
    · simp only [record_all, h1, h4]
    · simp only [List.length_cons, Nat.cast_add, Nat.cast_one]
      rw [show k + ((bs.length : Int) + 1) = k + 1 + bs.length by ring]
      exact h6

/-! ## The registry between `record_failure` calls -/

/-- C1, the code at the failing input: after `initialise_failures(1)` two
distinct vectors are both stored, so `nfm` is 2 although the limit is 1; the
test `nfm <= max_fail` of `tree_insert` still admits a record when the limit
has been reached. -/
theorem C1_limit_exceeded :
    ∃ s, record_all (initialise_failures start 1) [vec 5 1, vec 5 2] = .ok s ∧
      s.max_fail = 1 ∧ s.nfm = 2 ∧ s.nother = 0 ∧
      rank_list s = some [0, 1] ∧ tree_nodes s = some [0, 1] :=
  ⟨_, rfl, rfl, rfl, rfl, rfl, rfl⟩

/-- C2, the code at the failing input: after `initialise_failures(3)` the
vectors `{0}`, `{1}`, `{0}`, `{2}`, `{3}` leave four stored records and
`nother = 0`; the fourth distinct vector `{3}` arrives when `nfm = 3` equals the
limit and is stored, not counted as overflow. -/
theorem C2_fourth_vector_stored :
    ∃ s, record_all (initialise_failures start 3)
        [vec 5 1, vec 5 2, vec 5 1, vec 5 4, vec 5 8] = .ok s ∧
      s.nfm = 4 ∧ s.nother = 0 ∧
      (rank_list s).map (rows s) =
        some [(vec 5 1, 2), (vec 5 2, 1), (vec 5 4, 1), (vec 5 8, 1)] :=
  ⟨_, rfl, rfl, rfl, rfl⟩

/-- C3, the claim as stated fails: the count is a C `int`.  After `{1}` once
and `{0}` `2 ^ 31` times the record of `{0}` is at `High` with the count
`INT_MAX + 1` reduced to `INT_MIN`, above the record of `{1}` with the count 1:
the counts increase on the walk from `High` through `prev`. -/
theorem C3_count_wraps :
    ∃ s, record_all (initialise_failures start 0)
        ([vec 5 2, vec 5 1, vec 5 1] ++ List.replicate 2147483646 (vec 5 1)) = .ok s ∧
      rank_list s = some [1, 0] ∧ s.n 1 = -2147483648 ∧ s.n 0 = 1 ∧
      ¬ ([1, 0].map s.n).Pairwise (fun x y => y ≤ x) := by
  have hr : Reachable (scenario 0 [2, 1, 1]) := ⟨start, 0, [2, 1, 1].map (vec 5), rfl⟩
  obtain ⟨T, L, hi⟩ := hr.inv
  have hT : T.nodes = [1, 0] := by
    have e1 := hi.tree_nodes
    have e2 : tree_nodes (scenario 0 [2, 1, 1]) = some [1, 0] := rfl
    rw [e2] at e1
    exact (Option.some.inj e1).symm
  have hl : T.lookup (scenario 0 [2, 1, 1]).b (vec 5 1) = some 1 :=
    hi.bst.lookup_of_mem (by rw [hT]; simp) rfl
  have e := repeat_at_High _ T L (vec 5 1) 1 hi hl rfl 2147483646
  have e0 : record_all (initialise_failures start 0) [vec 5 2, vec 5 1, vec 5 1]
      = .ok (scenario 0 [2, 1, 1]) := rfl
  have h1 : Function.update (scenario 0 [2, 1, 1]).n 1
      (wrap ((scenario 0 [2, 1, 1]).n 1 + (2147483646 : Nat))) 1 = -2147483648 := by
    rw [Function.update_same]
    decide
  have h0 : Function.update (scenario 0 [2, 1, 1]).n 1
      (wrap ((scenario 0 [2, 1, 1]).n 1 + (2147483646 : Nat))) 0 = 1 := by
    rw [Function.update_noteq (by decide)]
    rfl
  obtain ⟨s1, e1, hn, hrl⟩ : ∃ s1 : State,
      record_all (scenario 0 [2, 1, 1]) (List.replicate 2147483646 (vec 5 1)) = .ok s1 ∧
      s1.n = Function.update (scenario 0 [2, 1, 1]).n 1
        (wrap ((scenario 0 [2, 1, 1]).n 1 + (2147483646 : Nat))) ∧
      rank_list s1 = some [1, 0] := ⟨_, e, rfl, rfl⟩
  rw [← hn] at h1 h0
  refine ⟨s1, ?_, hrl, h1, h0, ?_⟩
  · exact (record_all_append_ok e0 _).trans e1
  · simp only [List.map_cons, List.map_nil, List.pairwise_cons, List.mem_singleton,
      forall_eq, List.not_mem_nil, false_implies, implies_true, List.Pairwise.nil, and_true,
      h1, h0]
    decide

/-- C3 as amended: for every limit and every sequence of at most `INT_MAX`
`record_failure` calls after `initialise_failures`, the run completes, the walk
from `High` through `prev` ends at `Low`, and the counts met on the way never
increase. -/
theorem C3_rank_list_non_increasing (s0 : State) (c : Int) (bs : List BitArray)
    (hlen : (bs.length : Int) ≤ INT_MAX) :
    ∃ s L, record_all (initialise_failures s0 c) bs = .ok s ∧
      rank_list s = some L ∧ s.High = L.head? ∧ s.Low = L.getLast? ∧
      (L.map s.n).Pairwise (fun x y => y ≤ x) := by
  obtain ⟨s, T, L, hr, hi, hk⟩ :=
    Ranked.after_run (Inv.init s0 c) (Ranked.at_init s0 c) (le_refl 0) bs (by omega)
  refine ⟨s, L, hr, hi.rank_list, ?_, ?_, ?_⟩
  · rw [hi.rank.high, headOr_eq_head?]
  · rw [hi.rank.low, lastOr_eq_getLast?]
  · rw [List.pairwise_map]
    exact hk.sorted

/-- Witness for C3: the run `{0}`, `{1}`, `{1}` under the limit 0. -/
theorem C3_rank_list_non_increasing_witness :
    ∃ s L, record_all (initialise_failures start 0) [vec 5 1, vec 5 2, vec 5 2] = .ok s ∧
      rank_list s = some L ∧ s.High = L.head? ∧ s.Low = L.getLast? ∧
      (L.map s.n).Pairwise (fun x y => y ≤ x) :=
  C3_rank_list_non_increasing start 0 [vec 5 1, vec 5 2, vec 5 2] (by decide)

/-- C4, the claim as stated fails: the count is a C `int`.  The record of `{0}`
has the count 1; after `INT_MAX` further calls for `{0}` its count is not
`1 + INT_MAX` but `INT_MIN`. -/
theorem C4_count_wraps :
    ∃ s1, record_all (scenario 0 [1]) (List.replicate 2147483647 (vec 5 1)) = .ok s1 ∧
      (scenario 0 [1]).n 0 = 1 ∧ s1.n 0 = -2147483648 ∧
      s1.n 0 ≠ (scenario 0 [1]).n 0 + (2147483647 : Nat) := by
  have hr : Reachable (scenario 0 [1]) := ⟨start, 0, [1].map (vec 5), rfl⟩
  obtain ⟨T, L, hi⟩ := hr.inv
  have hT : T.nodes = [0] := by
    have e1 := hi.tree_nodes
    have e2 : tree_nodes (scenario 0 [1]) = some [0] := rfl
    rw [e2] at e1
    exact (Option.some.inj e1).symm
  have hl : T.lookup (scenario 0 [1]).b (vec 5 1) = some 0 :=
    hi.bst.lookup_of_mem (by rw [hT]; simp) rfl
  have e := repeat_at_High _ T L (vec 5 1) 0 hi hl rfl 2147483647
  have h1 : Function.update (scenario 0 [1]).n 0
      (wrap ((scenario 0 [1]).n 0 + (2147483647 : Nat))) 0 = -2147483648 := by
    rw [Function.update_same]
    decide
  obtain ⟨s1, e1, hn⟩ : ∃ s1 : State,
      record_all (scenario 0 [1]) (List.replicate 2147483647 (vec 5 1)) = .ok s1 ∧
      s1.n = Function.update (scenario 0 [1]).n 0
        (wrap ((scenario 0 [1]).n 0 + (2147483647 : Nat))) := ⟨_, e, rfl⟩
  rw [← hn] at h1
  refine ⟨s1, e1, rfl, h1, ?_⟩
  rw [h1]
  decide

/-- C4 as amended: in a reachable state, `k` further `record_failure` calls
with a vector equal to the vector of a stored record `t` complete, leave `nfm`
and `nother` unchanged, and change no other count and no stored vector; the
count of `t` becomes its old value plus `k` reduced to an `int`, which is the
old value plus `k` itself as long as that sum does not exceed `INT_MAX`. -/
theorem C4_repeated_record (s : State) (h : Reachable s) (T : List Nat)
    (hT : tree_nodes s = some T) (t : Nat) (ht : t ∈ T) (v : BitArray)
    (hv : BitEquals v (s.b t) = true) (k : Nat) :
    ∃ s1, record_all s (List.replicate k v) = .ok s1 ∧
      s1.nfm = s.nfm ∧ s1.nother = s.nother ∧ s1.n t = wrap (s.n t + k) ∧
      (s.n t + k ≤ INT_MAX → s1.n t = s.n t + k) ∧
      (∀ a, a ≠ t → s1.n a = s.n a) ∧ s1.b = s.b := by
  obtain ⟨T1, L, hi⟩ := h.inv
  rw [hi.tree_nodes] at hT
  cases hT
  have hv0 : BitComp v (s.b t) = 0 := by
    rw [BitComp_eq_zero]
    simpa [BitEquals] using hv
  obtain ⟨s1, L1, e1, -, hb, hn, hf, ho⟩ :=
    record_repeat s T1 L v t hi (hi.bst.lookup_of_mem ht hv0) k
  have hrange := (wrap_eq_self_iff _).mp (hi.range t (hi.perm.mem_iff.mp ht))
  refine ⟨s1, e1, hf, ho, ?_, ?_, ?_, hb⟩
  · rw [hn, Function.update_same]
  · intro hk
    rw [hn, Function.update_same]
    exact wrap_of_range (by have := hrange.1; omega) hk
  · intro a ha
    rw [hn, Function.update_noteq ha]

/-- Witness for C4: after the vectors 1, 2, 1 the record 0 (vector 1) is stored;
three more calls with the vector 1 raise its count by 3. -/
theorem C4_repeated_record_witness :
    ∃ s1, record_all (scenario 0 [1, 2, 1]) (List.replicate 3 (vec 5 1)) = .ok s1 ∧
      s1.nfm = (scenario 0 [1, 2, 1]).nfm ∧ s1.nother = (scenario 0 [1, 2, 1]).nother ∧
      s1.n 0 = wrap ((scenario 0 [1, 2, 1]).n 0 + (3 : Nat)) ∧
      ((scenario 0 [1, 2, 1]).n 0 + (3 : Nat) ≤ INT_MAX →
        s1.n 0 = (scenario 0 [1, 2, 1]).n 0 + (3 : Nat)) ∧
      (∀ a, a ≠ 0 → s1.n a = (scenario 0 [1, 2, 1]).n a) ∧
      s1.b = (scenario 0 [1, 2, 1]).b :=
  C4_repeated_record (scenario 0 [1, 2, 1]) ⟨start, 0, [1, 2, 1].map (vec 5), rfl⟩
    [0, 1] rfl 0 (by decide) (vec 5 1) rfl 3

/-- C8: for every sequence of `record_failure` calls after
`initialise_failures`, the records reachable from `Failtree` through `left` and
`right`, those met from `High` through `prev` and those met from `Low` through
`next` are the same records: the tree walk is a permutation of the rank list,
the walk up from `Low` is the rank list reversed, no record occurs twice in
the rank list, and `nfm` is its length. -/
theorem C8_same_record_set (s0 : State) (c : Int) (bs : List BitArray) :
    ∃ s T L, record_all (initialise_failures s0 c) bs = .ok s ∧
      tree_nodes s = some T ∧ rank_list s = some L ∧ rank_list_up s = some L.reverse ∧
      T.Perm L ∧ (∀ a, a ∈ T ↔ a ∈ L) ∧ L.Nodup ∧ s.nfm = L.length := by
  obtain ⟨s, T, L, hr, hi⟩ := (Inv.init s0 c).run bs
  exact ⟨s, T.nodes, L, hr, hi.tree_nodes, hi.rank_list, hi.rank_list_up, hi.perm,
    fun a => hi.perm.mem_iff, hi.rank.nodup, hi.nfm⟩

/-- C9: `BitComp` returns `0` exactly on equal vectors, and for every sequence
of `record_failure` calls after `initialise_failures` no two records of the tree
hold equal vectors, and for every record `t` of the tree every vector in its
left subtree compares below the vector of `t` and every vector in its right
subtree above. -/
theorem C9_search_tree (s0 : State) (c : Int) (bs : List BitArray) :
    (∀ a b, BitComp a b = 0 ↔ BitEquals a b = true) ∧
    ∃ s T, record_all (initialise_failures s0 c) bs = .ok s ∧
      tree_nodes s = some T ∧
      (∀ x ∈ T, ∀ y ∈ T, x ≠ y →
        BitEquals (s.b x) (s.b y) = false ∧ BitComp (s.b x) (s.b y) ≠ 0) ∧
      (∀ t ∈ T, ∃ l r, tree_list s s.brk (s.left t) = some l ∧
        tree_list s s.brk (s.right t) = some r ∧
        (∀ x ∈ l, BitComp (s.b x) (s.b t) = -1) ∧
        (∀ x ∈ r, BitComp (s.b x) (s.b t) = 1)) := by
  refine ⟨fun a b => by rw [BitComp_eq_zero]; simp [BitEquals], ?_⟩
  obtain ⟨s, T, L, hr, hi⟩ := (Inv.init s0 c).run bs
  refine ⟨s, T.nodes, hr, hi.tree_nodes, ?_, ?_⟩
  · intro x hx y hy hxy
    have := hi.bst.distinct x hx y hy hxy
    exact ⟨by simpa [BitEquals] using this, by rw [Ne, BitComp_eq_zero]; exact this⟩
  · intro t ht
    obtain ⟨l, r, h1, h2, h3, h4, h5, h6⟩ := hi.tree.subtree hi.bst ht
    have hlen : T.nodes.length = s.brk := by rw [hi.perm.length_eq, hi.brk]
    exact ⟨l.nodes, r.nodes, h1.tree_list_eq _ (by omega), h2.tree_list_eq _ (by omega), h5, h6⟩

/-- C10, the code at the failing input: after `{0}` and `{0,1}` are recorded,
`compress_fail_data` absorbs the record 1 into the record 0 and takes it out of
the order list (`nfm = 1`), but the tree still reaches both records:
`unlink_node` does not touch `left` and `right`. -/
theorem C10_absorbed_still_in_tree :
    ∃ s, compress_fail_data (scenario 0 [1, 3]) = .ok s ∧
      s.nfm = 1 ∧ rank_list s = some [0] ∧ tree_nodes s = some [0, 1] ∧
      (rank_list s).map (rows s) = some [(vec 5 1, 2)] :=
  ⟨_, rfl, rfl, rfl, rfl, rfl⟩

theorem lastOr_mem_of_some {L : List Nat} {x : Nat} (h : lastOr L none = some x) : x ∈ L := by
  rcases lastOr_mem _ _ _ h with h1 | ⟨_, h1⟩
  · exact h1
  · simp at h1

theorem headOr_mem_of_some {L : List Nat} {x : Nat} (h : headOr L none = some x) : x ∈ L := by
  rcases headOr_mem _ _ _ h with h1 | ⟨_, h1⟩
  · exact h1
  · simp at h1

theorem lastOr_none_iff (L : List Nat) : lastOr L none = none ↔ L = [] := by
  cases L with
  | nil => simp
  | cons a L => obtain ⟨x, hx⟩ := lastOr_some L a; simp [hx]

theorem headOr_none_iff (L : List Nat) : headOr L none = none ↔ L = [] := by
  cases L <;> simp

theorem unlink_node_same (s : State) (f : Nat) :
    SameButRank { s with nfm := s.nfm - 1 } (unlink_node s f) := by
  unfold unlink_node
  rcases s.prev f with _ | r
  · simp only
    split <;> exact ⟨rfl, rfl, rfl, rfl, rfl, rfl, rfl, rfl, rfl⟩
  · simp only
    split <;> exact ⟨rfl, rfl, rfl, rfl, rfl, rfl, rfl, rfl, rfl⟩

/-- The effect of `unlink_node` on a record of the order list: the list loses
the record, `nfm` drops by one, the links of the record itself stay. -/
theorem unlink_node_spec (s : State) (A B : List Nat) (f : Nat)
    (h : RankInv s (A ++ f :: B)) :
    RankInv (unlink_node s f) (A ++ B) ∧
      SameButRank { s with nfm := s.nfm - 1 } (unlink_node s f) ∧
      (unlink_node s f).prev f = s.prev f ∧ (unlink_node s f).next f = s.next f := by
  have hf := h.linked.at
  obtain ⟨hf1, hf2⟩ := hf
  have hl := (Linked_append _ _ _ _ _ _).mp h.linked
  obtain ⟨hA, -, -, hB⟩ := hl
  simp only [headOr_cons] at hA
  have hnd := List.nodup_append.mp h.nodup
  obtain ⟨hndA, hndB, hdis⟩ := hnd
  simp only [List.nodup_cons] at hndB
  obtain ⟨hfB, hndB⟩ := hndB
  have hfA : f ∉ A := fun hx => hdis hx (by simp)
  have hAB : ∀ x ∈ A, x ∉ B := fun x hx hb => hdis hx (by simp [hb])
  have key : ∀ s1 : State,
      (∀ a, s1.next a = if headOr B none = some a then lastOr A none else s.next a) →
      (∀ a, s1.prev a = if lastOr A none = some a then headOr B none else s.prev a) →
      s1.High = (if A = [] then headOr B none else s.High) →
      s1.Low = (if B = [] then lastOr A none else s.Low) →
      s1.brk = s.brk →
      RankInv s1 (A ++ B) ∧ s1.prev f = s.prev f ∧ s1.next f = s.next f := by
    intro s1 hn hp hH hL hbrk
    refine ⟨⟨?_, ?_, ?_, ?_, ?_⟩, ?_, ?_⟩
    · rw [Linked_append]
      refine ⟨?_, ?_⟩
      · apply hA.transfer hndA
        · intro a ha
          have h3 : headOr B none ≠ some a := fun e => hAB a ha (headOr_mem_of_some e)
          rw [hn a, if_neg h3]
          split
          · next e => exact hA.head_next e
          · rfl
        · intro a ha
          exact hp a
      · apply hB.transfer hndB
        · intro a ha
          exact hn a
        · intro a ha
          have h3 : lastOr A none ≠ some a := fun e => hAB a (lastOr_mem_of_some e) ha
          rw [hp a, if_neg h3]
          split
          · next e => exact hB.last_prev e
          · rfl
    · rw [hH, headOr_append]
      split
      · next e => subst e; rfl
      · next e => rw [h.high, headOr_append]; exact headOr_ne_nil _ _ _ e
    · rw [hL, lastOr_append]
      split
      · next e => subst e; rfl
      · next e => rw [h.low, lastOr_append, lastOr_cons]; exact lastOr_ne_nil _ _ _ e
    · exact List.nodup_append.mpr ⟨hndA, hndB, fun x hx hb => hAB x hx hb⟩
    · intro a ha
      rw [hbrk]
      apply h.bound
      simp only [List.mem_append, List.mem_cons] at ha ⊢
      tauto
    · rw [hp f, if_neg (fun e => hfA (lastOr_mem_of_some e))]
    · rw [hn f, if_neg (fun e => hfB (headOr_mem_of_some e))]
  have main : RankInv (unlink_node s f) (A ++ B) ∧ (unlink_node s f).prev f = s.prev f ∧
      (unlink_node s f).next f = s.next f := by
    rcases hx : lastOr A none with _ | x
    · have hA0 : A = [] := (lastOr_none_iff A).mp hx
      rcases hr : headOr B none with _ | r
      · have hB0 : B = [] := (headOr_none_iff B).mp hr
        simp only [hx, hr] at hf1 hf2
        apply key
        all_goals
          try intro a
          simp only [unlink_node, hf1, hf2] <;>
          (try simp only [Function.update_noteq hrf, hf1]) <;>
          clear key hA hB hndA hdis hndB hAB h <;>
          (try simp only [Function.update_apply, Option.some.injEq, reduceCtorEq, if_false, if_true]) <;>
          (try (split_ifs <;> first | rfl | (subst_vars; simp_all)))
      · have hB1 : B ≠ [] := fun e => by rw [e] at hr; exact absurd hr (by simp)
        have hrf : f ≠ r := fun e => hfB (e ▸ headOr_mem_of_some hr)
        simp only [hx, hr] at hf1 hf2
        apply key
        all_goals
          try intro a
          simp only [unlink_node, hf1, hf2] <;>
          (try simp only [Function.update_noteq hrf, hf1]) <;>
          clear key hA hB hndA hdis hndB hAB h <;>
          (try simp only [Function.update_apply, Option.some.injEq, reduceCtorEq, if_false, if_true]) <;>
          (try (split_ifs <;> first | rfl | (subst_vars; simp_all)))
    · have hA1 : A ≠ [] := fun e => by rw [e] at hx; exact absurd hx (by simp)
      have hxf : f ≠ x := fun e => hfA (e ▸ lastOr_mem_of_some hx)
      rcases hr : headOr B none with _ | r
      · have hB0 : B = [] := (headOr_none_iff B).mp hr
        simp only [hx, hr] at hf1 hf2
        apply key
        all_goals
          try intro a
          simp only [unlink_node, hf1, hf2] <;>
          (try simp only [Function.update_noteq hrf, hf1]) <;>
          clear key hA hB hndA hdis hndB hAB h <;>
          (try simp only [Function.update_apply, Option.some.injEq, reduceCtorEq, if_false, if_true]) <;>
          (try (split_ifs <;> first | rfl | (subst_vars; simp_all)))
      · have hB1 : B ≠ [] := fun e => by rw [e] at hr; exact absurd hr (by simp)
        have hrf : f ≠ r := fun e => hfB (e ▸ headOr_mem_of_some hr)
        simp only [hx, hr] at hf1 hf2
        apply key
        all_goals
          try intro a
          simp only [unlink_node, hf1, hf2] <;>
          (try simp only [Function.update_noteq hrf, hf1]) <;>
          clear key hA hB hndA hdis hndB hAB h <;>
          (try simp only [Function.update_apply, Option.some.injEq, reduceCtorEq, if_false, if_true]) <;>
          (try (split_ifs <;> first | rfl | (subst_vars; simp_all)))
  exact ⟨main.1, unlink_node_same s f, main.2⟩

theorem FnodeSubset_eq (s : State) (f1 f2 : Nat) :
    FnodeSubset s f1 f2 = subset_code s.b f1 f2 := rfl

theorem scan_model_length (b : Nat → BitArray) (p : Nat) (n : Nat → Int) (Q : List Nat)
    (flag : Bool) : (scan_model b p n Q flag).1.length ≤ Q.length := by
  induction Q generalizing n flag with
  | nil => simp [scan_model]
  | cons q Q ih =>
    simp only [scan_model]
    split_ifs
    · simpa using ih _ _
    · exact Nat.le_succ_of_le (ih _ _)
    · simpa using ih _ _
    · simpa using ih _ _

theorem RankInv.of_counts {s : State} {L : List Nat} (h : RankInv s L) (n : Nat → Int) :
    RankInv { s with n := n } L :=
  ⟨h.linked, h.high, h.low, h.nodup, h.bound⟩

theorem SameFrame.rfl_frame (s : State) : SameFrame s s :=
  ⟨rfl, rfl, rfl, rfl, rfl, rfl, rfl⟩

theorem SameFrame.trans_frame {s s1 s2 : State} (h1 : SameFrame s s1) (h2 : SameFrame s1 s2) :
    SameFrame s s2 :=
  ⟨h2.b.trans h1.b, h2.left.trans h1.left, h2.right.trans h1.right, h2.brk.trans h1.brk,
   h2.Failtree.trans h1.Failtree, h2.max_fail.trans h1.max_fail, h2.nother.trans h1.nother⟩

theorem unlink_node_frame (s : State) (f : Nat) :
    SameFrame s (unlink_node s f) ∧ (unlink_node s f).n = s.n ∧
      (unlink_node s f).nfm = s.nfm - 1 := by
  have h := unlink_node_same s f
  exact ⟨⟨h.b, h.left, h.right, h.brk, h.Failtree, h.max_fail, h.nother⟩, h.n, h.nfm⟩

theorem compress_scan_spec (p : Nat) (Q : List Nat) (fuel : Nat) (s : State) (P1 R : List Nat)
    (flag : Bool) (h : RankInv s (P1 ++ Q ++ p :: R)) (hf : Q.length < fuel) :
    ∃ s1, compress_scan p fuel s (headOr Q (some p)) flag
        = .ok (s1, (scan_model s.b p s.n Q flag).2.2) ∧
      RankInv s1 (P1 ++ (scan_model s.b p s.n Q flag).1 ++ p :: R) ∧
      SameFrame s s1 ∧ s1.n = (scan_model s.b p s.n Q flag).2.1 ∧
      s1.nfm = s.nfm + (scan_model s.b p s.n Q flag).1.length - Q.length := by
  induction Q generalizing fuel s P1 flag with
  | nil =>
    cases fuel with
    | zero => simp at hf
    | succ fuel =>
      refine ⟨s, ?_, by simpa [scan_model] using h, SameFrame.rfl_frame s, rfl, ?_⟩
      · simp [compress_scan, scan_model]
      · simp [scan_model]
  | cons q Q ih =>
    cases fuel with
    | zero => simp at hf
    | succ fuel =>
      have hnd := h.nodup
      have hqp : q ≠ p := by
        intro e
        subst e
        simp only [List.append_assoc, List.cons_append, List.nodup_append, List.nodup_cons,
          List.mem_append, List.mem_cons, true_or, or_true, not_true_eq_false] at hnd
        tauto
      have hq : s.next q = lastOr P1 none ∧ s.prev q = headOr (Q ++ p :: R) none :=
        Linked.at (by simpa using h.linked)
      have hprev : s.prev q = headOr Q (some p) := by
        rw [hq.2, headOr_append]; rfl
      have h1 : RankInv s ((P1 ++ [q]) ++ Q ++ p :: R) := by simpa using h
      simp only [List.length_cons] at hf
      simp only [headOr_cons, compress_scan, Option.some.injEq, hqp, if_false, FnodeSubset_eq,
        scan_model]
      by_cases hn : s.n q ≠ 0
      · simp only [hn, if_true, ne_eq, not_false_eq_true]
        by_cases c1 : subset_code s.b q p = SUBSET
        · simp only [c1, if_true]
          obtain ⟨s1, e1, r1, m1, n1, f1⟩ := ih fuel
            { s with n := Function.update s.n q (wrap (s.n q + s.n p)) } (P1 ++ [q]) true
            (h1.of_counts _) (by omega)
          refine ⟨s1, ?_, by simpa using r1, ⟨m1.b, m1.left, m1.right, m1.brk, m1.Failtree,
            m1.max_fail, m1.nother⟩, n1, ?_⟩
          · rw [← e1, hprev]
          · rw [f1]
            simp only [List.length_cons]
            push_cast
            ring
        · simp only [c1, if_false]
          by_cases c2 : subset_code s.b q p = SUPERSET
          · simp only [c2, if_true]
            have h2 : RankInv { s with n := Function.update s.n p (wrap (s.n p + s.n q)) }
                (P1 ++ q :: (Q ++ p :: R)) := by
              have := h.of_counts (Function.update s.n p (wrap (s.n p + s.n q)))
              simpa using this
            obtain ⟨u1, -, u3, -⟩ := unlink_node_spec _ P1 (Q ++ p :: R) q h2
            obtain ⟨u2, u4, u5⟩ := unlink_node_frame
              { s with n := Function.update s.n p (wrap (s.n p + s.n q)) } q
            obtain ⟨s1, e1, r1, m1, n1, f1⟩ := ih fuel
              (unlink_node { s with n := Function.update s.n p (wrap (s.n p + s.n q)) } q) P1 flag
              (by simpa using u1) (by omega)
            have hb : (unlink_node { s with n := Function.update s.n p (wrap (s.n p + s.n q)) } q).b
                = s.b := u2.b
            have hn1 : (unlink_node { s with n := Function.update s.n p (wrap (s.n p + s.n q)) } q).n
                = Function.update s.n p (wrap (s.n p + s.n q)) := u4
            have hf1 : (unlink_node { s with n := Function.update s.n p (wrap (s.n p + s.n q)) } q).nfm
                = s.nfm - 1 := u5
            rw [hb, hn1] at e1 r1 n1 f1
            refine ⟨s1, ?_, r1, ⟨m1.b.trans u2.b, m1.left.trans u2.left, m1.right.trans u2.right,
              m1.brk.trans u2.brk, m1.Failtree.trans u2.Failtree, m1.max_fail.trans u2.max_fail,
              m1.nother.trans u2.nother⟩, n1, ?_⟩
            · rw [← e1, u3]
              simp only [hprev]
            · rw [f1, hf1]
              simp only [List.length_cons]
              push_cast
              ring
          · simp only [c2, if_false]
            obtain ⟨s1, e1, r1, m1, n1, f1⟩ := ih fuel s (P1 ++ [q]) flag h1 (by omega)
            refine ⟨s1, ?_, by simpa using r1, m1, n1, ?_⟩
            · rw [← e1, hprev]
            · rw [f1]
              simp only [List.length_cons]
              push_cast
              ring
      · simp only [hn, if_false]
        obtain ⟨s1, e1, r1, m1, n1, f1⟩ := ih fuel s (P1 ++ [q]) flag h1 (by omega)
        refine ⟨s1, ?_, by simpa using r1, m1, n1, ?_⟩
        · rw [← e1, hprev]
        · rw [f1]
          simp only [List.length_cons]
          push_cast
          ring

theorem compress_loop_spec (R : List Nat) (fuel : Nat) (s : State) (P : List Nat)
    (h : RankInv s (P ++ R)) (hf : R.length < fuel) :
    ∃ s1, compress_loop fuel s (headOr R none) = .ok s1 ∧
      RankInv s1 (compress_model s.b s.n P R).1 ∧
      SameFrame s s1 ∧ s1.n = (compress_model s.b s.n P R).2 ∧
      s1.nfm = s.nfm + (compress_model s.b s.n P R).1.length - (P.length + R.length) := by
  induction R generalizing fuel s P with
  | nil =>
    cases fuel with
    | zero => simp at hf
    | succ fuel =>
      refine ⟨s, rfl, by simpa [compress_model] using h, SameFrame.rfl_frame s, rfl, ?_⟩
      simp [compress_model]
  | cons p R ih =>
    cases fuel with
    | zero => simp at hf
    | succ fuel =>
      simp only [List.length_cons] at hf
      have hlen := h.length_le
      simp only [List.length_append, List.length_cons] at hlen
      have hH : s.High = headOr P (some p) := by
        rw [h.high, headOr_append]; rfl
      obtain ⟨s1, e1, r1, m1, n1, f1⟩ := compress_scan_spec p P (s.brk + 1) s [] R false
        (by simpa using h) (by omega)
      simp only [List.nil_append] at r1
      simp only [headOr_cons, compress_loop, hH, e1, compress_model]
      have hp1 : s1.prev p = headOr R none := (Linked.at r1.linked).2
      by_cases hflag : (scan_model s.b p s.n P false).2.2 = true
      · simp only [hflag, if_true]
        obtain ⟨u1, -, u3, -⟩ := unlink_node_spec s1 _ R p r1
        obtain ⟨u2, u4, u5⟩ := unlink_node_frame s1 p
        obtain ⟨s2, e2, r2, m2, n2, f2⟩ := ih fuel (unlink_node s1 p) _ u1 (by omega)
        rw [u2.b, u4, m1.b, n1] at r2 n2 f2
        refine ⟨s2, ?_, r2, (m1.trans_frame u2).trans_frame m2, n2, ?_⟩
        · rw [← e2, u3, hp1]
        · rw [f2, u5, f1]
          simp only [List.length_nil, List.length_cons]
          push_cast
          ring
      · rw [Bool.not_eq_true] at hflag
        simp only [hflag, Bool.false_eq_true, if_false]
        obtain ⟨s2, e2, r2, m2, n2, f2⟩ := ih fuel s1 ((scan_model s.b p s.n P false).1 ++ [p])
          (by simpa using r1) (by omega)
        rw [m1.b, n1] at r2 n2 f2
        refine ⟨s2, ?_, r2, m1.trans_frame m2, n2, ?_⟩
        · rw [← e2, hp1]
        · rw [f2, f1]
          simp only [List.length_nil, List.length_cons, List.length_append]
          push_cast
          ring

theorem compress_fail_data_spec (s : State) (L : List Nat) (h : RankInv s L) :
    ∃ s1, compress_fail_data s = .ok s1 ∧
      RankInv s1 (compress_model s.b s.n [] L).1 ∧
      SameFrame s s1 ∧ s1.n = (compress_model s.b s.n [] L).2 ∧
      s1.nfm = s.nfm + (compress_model s.b s.n [] L).1.length - L.length := by
  have hlen := h.length_le
  obtain ⟨s1, e1, r1, m1, n1, f1⟩ := compress_loop_spec L (s.brk + 1) s [] (by simpa using h)
    (by omega)
  refine ⟨s1, ?_, r1, m1, n1, ?_⟩
  · rw [← e1, compress_fail_data, h.high]
  · rw [f1]; simp

theorem Subset_iff_lor (a b : BitArray) : Subset a b ↔ a.bits ||| b.bits = b.bits := by
  constructor
  · intro h
    apply Nat.eq_of_testBit_eq
    intro i
    rw [Nat.testBit_lor]
    have := h i
    simp only [BitArray.has] at this
    cases ha : a.bits.testBit i
    · simp
    · simp [this ha]
  · intro h i hi
    simp only [BitArray.has] at hi ⊢
    have := congrArg (fun x => x.testBit i) h
    simp only [Nat.testBit_lor, hi, Bool.true_or] at this
    exact this.symm

theorem Subset.refl_sub (a : BitArray) : Subset a a := fun _ h => h

theorem Subset.trans_sub {a b c : BitArray} (h1 : Subset a b) (h2 : Subset b c) : Subset a c :=
  fun i h => h2 i (h1 i h)

theorem subset_code_subset (b : Nat → BitArray) (q p : Nat) :
    subset_code b q p = SUBSET ↔ Subset (b q) (b p) := by
  rw [Subset_iff_lor]
  unfold subset_code BitEquals BitOR SUBSET SUPERSET NEITHER
  simp only [decide_eq_true_eq]
  split_ifs <;> simp_all

theorem subset_code_superset (b : Nat → BitArray) (q p : Nat) :
    subset_code b q p = SUPERSET ↔ ¬ Subset (b q) (b p) ∧ Subset (b p) (b q) := by
  rw [Subset_iff_lor, Subset_iff_lor, Nat.lor_comm (b p).bits]
  unfold subset_code BitEquals BitOR SUBSET SUPERSET NEITHER
  simp only [decide_eq_true_eq]
  split_ifs <;> simp_all

theorem scan_exact_facts (b : Nat → BitArray) (p : Nat) (n : Nat → Int) (Q : List Nat)
    (flag : Bool) (hpos : ∀ x ∈ p :: Q, 0 < n x) :
    (scan_exact b p n Q flag).1.Sublist Q ∧
    (∀ x, 0 < n x → 0 < (scan_exact b p n Q flag).2.1 x) ∧
    (∀ x, x ∉ p :: Q → (scan_exact b p n Q flag).2.1 x = n x) ∧
    ((scan_exact b p n Q flag).2.2 = false → flag = false ∧
      ∀ q ∈ (scan_exact b p n Q flag).1,
        ¬ Subset (b q) (b p) ∧ ¬ Subset (b p) (b q)) := by
  induction Q generalizing n flag with
  | nil => simp [scan_exact]
  | cons q Q ih =>
    have hq : 0 < n q := hpos q (by simp)
    have hp : 0 < n p := hpos p (by simp)
    have hn : n q ≠ 0 := by omega
    simp only [scan_exact, hn, ne_eq, not_false_eq_true, if_true]
    have step : ∀ (a : Nat) (v : Int), a ∈ p :: q :: Q → 0 < v →
        (∀ x ∈ p :: Q, 0 < Function.update n a (n a + v) x) ∧
        (∀ x, 0 < n x → 0 < Function.update n a (n a + v) x) ∧
        (∀ x, x ∉ p :: q :: Q → Function.update n a (n a + v) x = n x) := by
      intro a v ha hv
      have hall : ∀ x, 0 < n x → 0 < Function.update n a (n a + v) x := by
        intro x hx
        by_cases e : x = a
        · subst e; rw [Function.update_same]; omega
        · rw [Function.update_noteq e]; exact hx
      refine ⟨fun x hx => hall x (hpos x ?_), hall, ?_⟩
      · simp only [List.mem_cons] at hx ⊢; tauto
      · intro x hx
        have : x ≠ a := fun e => hx (e ▸ ha)
        rw [Function.update_noteq this]
    by_cases c1 : subset_code b q p = SUBSET
    · simp only [c1, if_true]
      obtain ⟨s1, s2, s3⟩ := step q (n p) (by simp) hp
      obtain ⟨i1, i2, i3, i4⟩ := ih (Function.update n q (n q + n p)) true s1
      refine ⟨i1.cons₂ q, fun x hx => i2 x (s2 x hx), ?_, ?_⟩
      · intro x hx
        rw [i3 x (by simp only [List.mem_cons, not_or] at hx ⊢; tauto), s3 x hx]
      · intro hf
        exact absurd (i4 hf).1 (by simp)
    · simp only [c1, if_false]
      by_cases c2 : subset_code b q p = SUPERSET
      · simp only [c2, if_true]
        obtain ⟨s1, s2, s3⟩ := step p (n q) (by simp) hq
        obtain ⟨i1, i2, i3, i4⟩ := ih (Function.update n p (n p + n q)) flag s1
        refine ⟨i1.cons q, fun x hx => i2 x (s2 x hx), ?_, i4⟩
        intro x hx
        rw [i3 x (by simp only [List.mem_cons, not_or] at hx ⊢; tauto), s3 x hx]
      · simp only [c2, if_false]
        obtain ⟨i1, i2, i3, i4⟩ := ih n flag
          (fun x hx => hpos x (by simp only [List.mem_cons] at hx ⊢; tauto))
        refine ⟨i1.cons₂ q, i2, ?_, ?_⟩
        · intro x hx
          exact i3 x (by simp only [List.mem_cons, not_or] at hx ⊢; tauto)
        · intro hf
          refine ⟨(i4 hf).1, ?_⟩
          intro x hx
          simp only [List.mem_cons] at hx
          rcases hx with rfl | hx
          · have n1 : ¬ Subset (b x) (b p) := fun h => c1 ((subset_code_subset b x p).mpr h)
            exact ⟨n1, fun h => c2 ((subset_code_superset b x p).mpr ⟨n1, h⟩)⟩
          · exact (i4 hf).2 x hx

theorem compress_exact_antichain (b : Nat → BitArray) (R : List Nat) (n : Nat → Int)
    (P : List Nat) (hP : Antichain b P) (hpos : ∀ x ∈ P ++ R, 0 < n x) :
    Antichain b (compress_exact b n P R).1 ∧
      (∀ x ∈ (compress_exact b n P R).1, 0 < (compress_exact b n P R).2 x) ∧
      (compress_exact b n P R).1.Sublist (P ++ R) := by
  induction R generalizing n P with
  | nil =>
    simp only [compress_exact]
    exact ⟨hP, by simpa using hpos, by simp⟩
  | cons p R ih =>
    simp only [compress_exact]
    obtain ⟨f1, f2, -, f4⟩ := scan_exact_facts b p n P false
      (fun x hx => hpos x (by simp only [List.mem_cons, List.mem_append] at hx ⊢; tauto))
    have hK : Antichain b (scan_exact b p n P false).1 := List.Pairwise.sublist f1 hP
    by_cases hflag : (scan_exact b p n P false).2.2 = true
    · simp only [hflag, if_true]
      obtain ⟨i1, i2, i3⟩ := ih (scan_exact b p n P false).2.1 (scan_exact b p n P false).1 hK
        (by
          intro x hx
          apply f2
          apply hpos
          simp only [List.mem_append, List.mem_cons] at hx ⊢
          rcases hx with hx | hx
          · exact Or.inl (f1.subset hx)
          · tauto)
      refine ⟨i1, i2, i3.trans ?_⟩
      exact List.Sublist.append f1 (List.sublist_cons_self p R)
    · rw [Bool.not_eq_true] at hflag
      simp only [hflag, Bool.false_eq_true, if_false]
      obtain ⟨i1, i2, i3⟩ := ih (scan_exact b p n P false).2.1
        ((scan_exact b p n P false).1 ++ [p])
        (by
          unfold Antichain
          rw [List.pairwise_append]
          refine ⟨hK, by simp, ?_⟩
          intro x hx y hy
          simp only [List.mem_singleton] at hy
          subst hy
          exact (f4 hflag).2 x hx)
        (by
          intro x hx
          apply f2
          apply hpos
          simp only [List.mem_append, List.mem_cons, List.mem_singleton] at hx ⊢
          rcases hx with (hx | hx) | hx
          · exact Or.inl (f1.subset hx)
          · tauto
          · tauto)
      refine ⟨i1, i2, i3.trans ?_⟩
      rw [List.append_assoc]
      exact List.Sublist.append f1 (List.Sublist.refl _)

theorem scan_exact_mono (b : Nat → BitArray) (p : Nat) (n : Nat → Int) (Q : List Nat)
    (flag : Bool) (hpos : ∀ x ∈ p :: Q, 0 < n x) :
    ∀ x, n x ≤ (scan_exact b p n Q flag).2.1 x := by
  induction Q generalizing n flag with
  | nil => intro x; simp [scan_exact]
  | cons q Q ih =>
    have hq : 0 < n q := hpos q (by simp)
    have hp : 0 < n p := hpos p (by simp)
    have hrest : ∀ x ∈ p :: Q, 0 < n x := fun x hx =>
      hpos x (by simp only [List.mem_cons] at hx ⊢; tauto)
    have step : ∀ (a : Nat) (v : Int), 0 < v →
        (∀ x, n x ≤ Function.update n a (n a + v) x) := by
      intro a v hv x
      by_cases e : x = a
      · subst e; rw [Function.update_same]; omega
      · rw [Function.update_noteq e]
    simp only [scan_exact]
    split_ifs
    · intro x
      exact le_trans (step q (n p) hp x) (ih _ true
        (fun y hy => lt_of_lt_of_le (hrest y hy) (step q (n p) hp y)) x)
    · intro x
      exact le_trans (step p (n q) hq x) (ih _ flag
        (fun y hy => lt_of_lt_of_le (hrest y hy) (step p (n q) hq y)) x)
    · exact ih n flag hrest
    · exact ih n flag hrest

theorem compress_exact_mono (b : Nat → BitArray) (R : List Nat) (n : Nat → Int)
    (P : List Nat) (hpos : ∀ x ∈ P ++ R, 0 < n x) :
    ∀ x, n x ≤ (compress_exact b n P R).2 x := by
  induction R generalizing n P with
  | nil => intro x; simp [compress_exact]
  | cons p R ih =>
    have hposp : ∀ x ∈ p :: P, 0 < n x := fun x hx =>
      hpos x (by simp only [List.mem_cons, List.mem_append] at hx ⊢; tauto)
    obtain ⟨f1, f2, -, -⟩ := scan_exact_facts b p n P false hposp
    have hm := scan_exact_mono b p n P false hposp
    simp only [compress_exact]
    split_ifs
    · intro x
      refine le_trans (hm x) (ih _ _ ?_ x)
      intro y hy
      apply f2
      apply hpos
      simp only [List.mem_append, List.mem_cons] at hy ⊢
      rcases hy with hy | hy
      · exact Or.inl (f1.subset hy)
      · tauto
    · intro x
      refine le_trans (hm x) (ih _ _ ?_ x)
      intro y hy
      apply f2
      apply hpos
      simp only [List.mem_append, List.mem_cons, List.mem_singleton] at hy ⊢
      rcases hy with (hy | hy) | hy
      · exact Or.inl (f1.subset hy)
      · tauto
      · tauto

/-- As long as the counts computed on unbounded integers stay within `int`, the
inner loop of `compress_fail_data` computes them. -/
theorem scan_model_eq_exact (b : Nat → BitArray) (p : Nat) (n : Nat → Int) (Q : List Nat)
    (flag : Bool) (hpos : ∀ x ∈ p :: Q, 0 < n x)
    (hfit : ∀ x ∈ p :: Q, (scan_exact b p n Q flag).2.1 x ≤ INT_MAX) :
    scan_model b p n Q flag = scan_exact b p n Q flag := by
  induction Q generalizing n flag with
  | nil => rfl
  | cons q Q ih =>
    have hq : 0 < n q := hpos q (by simp)
    have hp : 0 < n p := hpos p (by simp)
    have hn : n q ≠ 0 := by omega
    have hrest : ∀ x ∈ p :: Q, 0 < n x := fun x hx =>
      hpos x (by simp only [List.mem_cons] at hx ⊢; tauto)
    have step : ∀ (a : Nat) (v : Int), 0 < v → ∀ x ∈ p :: Q,
        0 < Function.update n a (n a + v) x := by
      intro a v hv x hx
      by_cases e : x = a
      · subst e; rw [Function.update_same]; have := hrest x hx; omega
      · rw [Function.update_noteq e]; exact hrest x hx
    simp only [scan_model, scan_exact] at hfit ⊢
    by_cases c1 : subset_code b q p = SUBSET
    · simp only [hn, ne_eq, not_false_eq_true, if_true, c1] at hfit ⊢
      have hm := scan_exact_mono b p (Function.update n q (n q + n p)) Q true (step q (n p) hp) q
      rw [Function.update_same] at hm
      have hw : wrap (n q + n p) = n q + n p :=
        wrap_of_range (by unfold INT_MIN; omega) (le_trans hm (hfit q (by simp)))
      rw [hw, ih _ true (step q (n p) hp)
        (fun x hx => hfit x (by simp only [List.mem_cons] at hx ⊢; tauto))]
    · by_cases c2 : subset_code b q p = SUPERSET
      · have hd : ¬ (SUPERSET = SUBSET) := by decide
        simp only [hn, ne_eq, not_false_eq_true, if_true, c2, hd, if_false] at hfit ⊢
        have hm := scan_exact_mono b p (Function.update n p (n p + n q)) Q flag
          (step p (n q) hq) p
        rw [Function.update_same] at hm
        have hw : wrap (n p + n q) = n p + n q :=
          wrap_of_range (by unfold INT_MIN; omega) (le_trans hm (hfit p (by simp)))
        rw [hw, ih _ flag (step p (n q) hq)
          (fun x hx => hfit x (by simp only [List.mem_cons] at hx ⊢; tauto))]
      · simp only [hn, ne_eq, not_false_eq_true, if_true, c1, if_false, c2] at hfit ⊢
        rw [ih n flag hrest
          (fun x hx => hfit x (by simp only [List.mem_cons] at hx ⊢; tauto))]

/-- As long as the counts computed on unbounded integers stay within `int`,
`compress_fail_data` computes them. -/
theorem compress_model_eq_exact (b : Nat → BitArray) (R : List Nat) (n : Nat → Int)
    (P : List Nat) (hpos : ∀ x ∈ P ++ R, 0 < n x)
    (hfit : ∀ x ∈ P ++ R, (compress_exact b n P R).2 x ≤ INT_MAX) :
    compress_model b n P R = compress_exact b n P R := by
  induction R generalizing n P with
  | nil => rfl
  | cons p R ih =>
    have hposp : ∀ x ∈ p :: P, 0 < n x := fun x hx =>
      hpos x (by simp only [List.mem_cons, List.mem_append] at hx ⊢; tauto)
    obtain ⟨f1, f2, -, -⟩ := scan_exact_facts b p n P false hposp
    simp only [compress_model, compress_exact] at hfit ⊢
    have hscan : scan_model b p n P false = scan_exact b p n P false := by
      apply scan_model_eq_exact b p n P false hposp
      intro x hx
      have hx1 : x ∈ P ++ p :: R := by
        simp only [List.mem_cons, List.mem_append] at hx ⊢; tauto
      have key : ∀ P1 : List Nat, (∀ y ∈ P1 ++ R, y ∈ P ++ p :: R) →
          (scan_exact b p n P false).2.1 x
            ≤ (compress_exact b (scan_exact b p n P false).2.1 P1 R).2 x := fun P1 h1 =>
        compress_exact_mono b R _ P1 (fun y hy => f2 y (hpos y (h1 y hy))) x
      have hf := hfit x hx1
      split_ifs at hf
      · refine le_trans (key _ ?_) hf
        intro y hy
        simp only [List.mem_append, List.mem_cons] at hy ⊢
        rcases hy with hy | hy
        · exact Or.inl (f1.subset hy)
        · tauto
      · refine le_trans (key _ ?_) hf
        intro y hy
        simp only [List.mem_append, List.mem_cons, List.mem_singleton] at hy ⊢
        rcases hy with (hy | hy) | hy
        · exact Or.inl (f1.subset hy)
        · tauto
        · tauto
    rw [hscan]
    split_ifs with c
    · simp only [c, if_true] at hfit
      apply ih
      · intro y hy
        apply f2
        apply hpos
        simp only [List.mem_append, List.mem_cons] at hy ⊢
        rcases hy with hy | hy
        · exact Or.inl (f1.subset hy)
        · tauto
      · intro y hy
        apply hfit
        simp only [List.mem_append, List.mem_cons] at hy ⊢
        rcases hy with hy | hy
        · exact Or.inl (f1.subset hy)
        · tauto
    · simp only [c, Bool.false_eq_true, if_false] at hfit
      apply ih
      · intro y hy
        apply f2
        apply hpos
        simp only [List.mem_append, List.mem_cons, List.mem_singleton] at hy ⊢
        rcases hy with (hy | hy) | hy
        · exact Or.inl (f1.subset hy)
        · tauto
        · tauto
      · intro y hy
        apply hfit
        simp only [List.mem_append, List.mem_cons, List.mem_singleton] at hy ⊢
        rcases hy with (hy | hy) | hy
        · exact Or.inl (f1.subset hy)
        · tauto
        · tauto

/-- The result of `compress_fail_data` on an order list `L` of positive counts
when the counts computed on unbounded integers stay within `int`. -/
theorem compress_fail_data_exact (s : State) (L : List Nat) (h : RankInv s L)
    (hpos : ∀ x ∈ L, 0 < s.n x)
    (hfit : ∀ x ∈ L, (compress_exact s.b s.n [] L).2 x ≤ INT_MAX) :
    ∃ s1, compress_fail_data s = .ok s1 ∧
      RankInv s1 (compress_exact s.b s.n [] L).1 ∧
      SameFrame s s1 ∧ s1.n = (compress_exact s.b s.n [] L).2 ∧
      s1.nfm = s.nfm + (compress_exact s.b s.n [] L).1.length - L.length := by
  have e := compress_model_eq_exact s.b L s.n [] (by simpa using hpos) (by simpa using hfit)
  rw [← e]
  exact compress_fail_data_spec s L h

theorem RankInv.rank_list_eq {s : State} {L : List Nat} (h : RankInv s L) :
    rank_list s = some L := by
  unfold rank_list
  rw [h.high]
  exact h.linked.walk_prev _ h.length_le

theorem Antichain.not_subset {b : Nat → BitArray} {L : List Nat} (h : Antichain b L) :
    ∀ x ∈ L, ∀ y ∈ L, x ≠ y → ¬ Subset (b x) (b y) := by
  have h1 : L.Pairwise (fun x y => ¬ Subset (b x) (b y) ∧ ¬ Subset (b y) (b x)) := h
  have h2 := h1.forall (fun x y hxy => ⟨hxy.2, hxy.1⟩)
  exact fun x hx y hy hxy => (h2 hx hy hxy).1

/-- C6, the claim as stated fails: the count is a C `int` and
`compress_fail_data` skips a record whose count is zero.  After `2 ^ 32` calls
for `{0}` the count of its record has come back to 0; one call for `{0,1}`
follows, and `compress_fail_data` leaves both records in the rank list although
`{0}` is a proper subset of `{0,1}`. -/
theorem C6_zero_count_survives :
    ∃ s s1, record_all (initialise_failures start 0)
        ([vec 5 1] ++ List.replicate 4294967295 (vec 5 1) ++ [vec 5 3]) = .ok s ∧
      rank_list s = some [0, 1] ∧ rows s [0, 1] = [(vec 5 1, 0), (vec 5 3, 1)] ∧
      compress_fail_data s = .ok s1 ∧ rank_list s1 = some [0, 1] ∧
      rows s1 [0, 1] = [(vec 5 1, 0), (vec 5 3, 1)] ∧
      Subset (s1.b 0) (s1.b 1) ∧ ¬ Subset (s1.b 1) (s1.b 0) := by
  have hr : Reachable (scenario 0 [1]) := ⟨start, 0, [1].map (vec 5), rfl⟩
  obtain ⟨T, L, hi⟩ := hr.inv
  have hT : T.nodes = [0] := by
    have e1 := hi.tree_nodes
    have e2 : tree_nodes (scenario 0 [1]) = some [0] := rfl
    rw [e2] at e1
    exact (Option.some.inj e1).symm
  have hl : T.lookup (scenario 0 [1]).b (vec 5 1) = some 0 :=
    hi.bst.lookup_of_mem (by rw [hT]; simp) rfl
  have e := repeat_at_High _ T L (vec 5 1) 0 hi hl rfl 4294967295
  have e0 : record_all (initialise_failures start 0) [vec 5 1] = .ok (scenario 0 [1]) := rfl
  obtain ⟨sb, eb, hb⟩ : ∃ sb : State,
      record_all (scenario 0 [1]) (List.replicate 4294967295 (vec 5 1)) = .ok sb ∧
      sb = { scenario 0 [1] with n := Function.update (scenario 0 [1]).n 0 0 } := by
    refine ⟨_, e, ?_⟩
    have hw : wrap ((scenario 0 [1]).n 0 + (4294967295 : Nat)) = 0 := by decide
    rw [hw]
  obtain ⟨s, es, hl1, hrow, s1, e1, hl2, hrow1, hsub, hsup⟩ : ∃ s : State,
      record_all { scenario 0 [1] with n := Function.update (scenario 0 [1]).n 0 0 }
        [vec 5 3] = .ok s ∧
      rank_list s = some [0, 1] ∧ rows s [0, 1] = [(vec 5 1, 0), (vec 5 3, 1)] ∧
      ∃ s1, compress_fail_data s = .ok s1 ∧ rank_list s1 = some [0, 1] ∧
        rows s1 [0, 1] = [(vec 5 1, 0), (vec 5 3, 1)] ∧
        subset_code s1.b 0 1 = SUBSET ∧ subset_code s1.b 1 0 ≠ SUBSET :=
    ⟨_, rfl, rfl, rfl, _, rfl, rfl, rfl, rfl, by decide⟩
  rw [← hb] at es
  have h1 : record_all (initialise_failures start 0)
      ([vec 5 1] ++ List.replicate 4294967295 (vec 5 1)) = .ok sb :=
    (record_all_append_ok e0 _).trans eb
  exact ⟨s, s1, (record_all_append_ok h1 _).trans es, hl1, hrow, e1, hl2, hrow1,
    (subset_code_subset s1.b 0 1).mp hsub,
    fun c => hsup ((subset_code_subset s1.b 1 0).mpr c)⟩

/-- C6 as amended: in a reachable state in which every count of the rank list
is positive, in whatever rank order, and for which the sums formed by
`compress_fail_data`, computed on unbounded integers, do not exceed `INT_MAX`,
`compress_fail_data` completes and no record left in the rank list has a
vector that is a proper subset of the vector of another record left in the
list; between two different records left there is no inclusion at all. -/
theorem C6_survivors_antichain (s : State) (h : Reachable s) (L : List Nat)
    (hL : rank_list s = some L) (hpos : ∀ x ∈ L, 0 < s.n x)
    (hfit : ∀ x ∈ L, (compress_exact s.b s.n [] L).2 x ≤ INT_MAX) :
    ∃ s1 L1, compress_fail_data s = .ok s1 ∧ rank_list s1 = some L1 ∧
      (∀ x ∈ L1, ∀ y ∈ L1, ¬ ProperSubset (s1.b x) (s1.b y)) ∧
      (∀ x ∈ L1, ∀ y ∈ L1, x ≠ y → ¬ Subset (s1.b x) (s1.b y)) := by
  obtain ⟨T, L0, hi⟩ := h.inv
  rw [hi.rank_list] at hL
  cases hL
  obtain ⟨s1, e1, r1, m1, -, -⟩ := compress_fail_data_exact s L hi.rank hpos hfit
  obtain ⟨a1, -, -⟩ := compress_exact_antichain s.b L s.n [] List.Pairwise.nil
    (by simpa using hpos)
  have key : ∀ x ∈ (compress_exact s.b s.n [] L).1, ∀ y ∈ (compress_exact s.b s.n [] L).1,
      x ≠ y → ¬ Subset (s1.b x) (s1.b y) := by
    rw [m1.b]; exact a1.not_subset
  refine ⟨s1, _, e1, r1.rank_list_eq, ?_, key⟩
  intro x hx y hy hp
  by_cases e : x = y
  · subst e
    exact hp.2 hp.1
  · exact key x hx y hy e hp.1

/-- Witness for C6: the vectors `{0,1}`, `{0}`, `{1}` recorded in this order. -/
theorem C6_survivors_antichain_witness :
    ∃ s1 L1, compress_fail_data (scenario 0 [3, 1, 2]) = .ok s1 ∧ rank_list s1 = some L1 ∧
      (∀ x ∈ L1, ∀ y ∈ L1, ¬ ProperSubset (s1.b x) (s1.b y)) ∧
      (∀ x ∈ L1, ∀ y ∈ L1, x ≠ y → ¬ Subset (s1.b x) (s1.b y)) :=
  C6_survivors_antichain (scenario 0 [3, 1, 2]) ⟨start, 0, [3, 1, 2].map (vec 5), rfl⟩
    [0, 1, 2] rfl (by decide) (by decide)

@[simp] theorem total_nil (n : Nat → Int) : total n [] = 0 := rfl

@[simp] theorem total_cons (n : Nat → Int) (a : Nat) (L : List Nat) :
    total n (a :: L) = n a + total n L := by
  simp [total]

@[simp] theorem total_append (n : Nat → Int) (A B : List Nat) :
    total n (A ++ B) = total n A + total n B := by
  simp [total]

theorem total_congr {n n1 : Nat → Int} {L : List Nat} (h : ∀ x ∈ L, n1 x = n x) :
    total n1 L = total n L := by
  induction L with
  | nil => rfl
  | cons a L ih =>
    rw [total_cons, total_cons, h a (by simp), ih (fun x hx => h x (by simp [hx]))]

/-- A scan in which no record of `Q` is a strict superset of `p`: nothing is
unlinked, and every record of `Q` that is a subset of `p` receives the count of
`p`. -/
theorem scan_exact_no_superset (b : Nat → BitArray) (p : Nat) (n : Nat → Int) (Q : List Nat)
    (flag : Bool) (hpos : ∀ x ∈ Q, n x ≠ 0) (hp : p ∉ Q) (hnd : Q.Nodup)
    (hno : ∀ q ∈ Q, subset_code b q p ≠ SUPERSET) :
    (scan_exact b p n Q flag).1 = Q ∧
    (∀ x, x ∉ Q → (scan_exact b p n Q flag).2.1 x = n x) ∧
    total (scan_exact b p n Q flag).2.1 Q
      = total n Q + (Q.countP (fun q => decide (subset_code b q p = SUBSET)) : Nat) * n p ∧
    (scan_exact b p n Q flag).2.2
      = (flag || decide (0 < Q.countP (fun q => decide (subset_code b q p = SUBSET)))) := by
  induction Q generalizing n flag with
  | nil => simp [scan_exact]
  | cons q Q ih =>
    have hn : n q ≠ 0 := hpos q (by simp)
    have hqp : p ≠ q := fun e => hp (by simp [e])
    have hqQ : q ∉ Q := (List.nodup_cons.mp hnd).1
    have hpQ : p ∉ Q := fun h => hp (by simp [h])
    simp only [scan_exact, hn, ne_eq, not_false_eq_true, if_true]
    by_cases c1 : subset_code b q p = SUBSET
    · simp only [c1, if_true]
      obtain ⟨i1, i2, i3, i4⟩ := ih (Function.update n q (n q + n p)) true
        (fun x hx => by
          have : x ≠ q := fun e => hqQ (e ▸ hx)
          rw [Function.update_noteq this]; exact hpos x (by simp [hx]))
        hpQ (List.nodup_cons.mp hnd).2 (fun x hx => hno x (by simp [hx]))
      refine ⟨by rw [i1], ?_, ?_, ?_⟩
      · intro x hx
        simp only [List.mem_cons, not_or] at hx
        rw [i2 x hx.2, Function.update_noteq hx.1]
      · rw [total_cons, i3, i2 q hqQ, Function.update_same, Function.update_noteq hqp,
          List.countP_cons_of_pos _ _ (by simpa using c1), total_cons]
        have : total (Function.update n q (n q + n p)) Q = total n Q :=
          total_congr (fun x hx => Function.update_noteq (fun e : x = q => hqQ (e ▸ hx)) _ _)
        rw [this]
        push_cast
        ring
      · rw [i4, List.countP_cons_of_pos _ _ (by simpa using c1)]
        simp
    · have c2 : subset_code b q p ≠ SUPERSET := hno q (by simp)
      simp only [c1, c2, if_false]
      obtain ⟨i1, i2, i3, i4⟩ := ih n flag (fun x hx => hpos x (by simp [hx])) hpQ
        (List.nodup_cons.mp hnd).2 (fun x hx => hno x (by simp [hx]))
      refine ⟨by rw [i1], ?_, ?_, ?_⟩
      · intro x hx
        simp only [List.mem_cons, not_or] at hx
        exact i2 x hx.2
      · rw [total_cons, i3, i2 q hqQ, List.countP_cons_of_neg _ _ (by simpa using c1),
          total_cons]
        ring
      · rw [i4, List.countP_cons_of_neg _ _ (by simpa using c1)]

/-- A scan in which no record of `Q` is a subset of `p`: the flag stays, the
strict supersets of `p` are unlinked and their counts move into `p`. -/
theorem scan_exact_no_subset (b : Nat → BitArray) (p : Nat) (n : Nat → Int) (Q : List Nat)
    (flag : Bool) (hp : p ∉ Q) (hnd : Q.Nodup)
    (hno : ∀ q ∈ Q, subset_code b q p ≠ SUBSET) :
    (scan_exact b p n Q flag).2.2 = flag ∧
    total (scan_exact b p n Q flag).2.1 (scan_exact b p n Q flag).1
      + (scan_exact b p n Q flag).2.1 p = total n Q + n p ∧
    (∀ x, x ≠ p → (scan_exact b p n Q flag).2.1 x = n x) := by
  induction Q generalizing n flag with
  | nil => simp [scan_exact]
  | cons q Q ih =>
    have hqp : q ≠ p := fun e => hp (by simp [e])
    have hqQ : q ∉ Q := (List.nodup_cons.mp hnd).1
    have hpQ : p ∉ Q := fun h => hp (by simp [h])
    have c1 : subset_code b q p ≠ SUBSET := hno q (by simp)
    simp only [scan_exact, c1, if_false]
    by_cases hn : n q ≠ 0
    · simp only [hn, ne_eq, not_false_eq_true, if_true]
      by_cases c2 : subset_code b q p = SUPERSET
      · simp only [c2, if_true]
        obtain ⟨i1, i2, i3⟩ := ih (Function.update n p (n p + n q)) flag hpQ
          (List.nodup_cons.mp hnd).2 (fun x hx => hno x (by simp [hx]))
        refine ⟨i1, ?_, ?_⟩
        · rw [i2, Function.update_same, total_cons]
          have : total (Function.update n p (n p + n q)) Q = total n Q :=
            total_congr (fun x hx => Function.update_noteq (fun e : x = p => hpQ (e ▸ hx)) _ _)
          rw [this]
          ring
        · intro x hx
          rw [i3 x hx, Function.update_noteq hx]
      · simp only [c2, if_false]
        obtain ⟨i1, i2, i3⟩ := ih n flag hpQ
          (List.nodup_cons.mp hnd).2 (fun x hx => hno x (by simp [hx]))
        refine ⟨i1, ?_, i3⟩
        rw [total_cons, total_cons, i3 q hqp]
        linarith
    · simp only [hn, if_false]
      obtain ⟨i1, i2, i3⟩ := ih n flag hpQ
        (List.nodup_cons.mp hnd).2 (fun x hx => hno x (by simp [hx]))
      refine ⟨i1, ?_, i3⟩
      rw [total_cons, total_cons, i3 q hqp]
      linarith

theorem countP_le_one {L : List Nat} {f : Nat → Bool} (hnd : L.Nodup)
    (h : ∀ x ∈ L, ∀ y ∈ L, f x = true → f y = true → x = y) : L.countP f ≤ 1 := by
  induction L with
  | nil => simp
  | cons a L ih =>
    have hnd1 := List.nodup_cons.mp hnd
    by_cases ha : f a = true
    · rw [List.countP_cons_of_pos _ _ ha]
      have : L.countP f = 0 := by
        rw [List.countP_eq_zero]
        intro y hy hfy
        have := h a (by simp) y (by simp [hy]) ha hfy
        exact hnd1.1 (this ▸ hy)
      omega
    · rw [List.countP_cons_of_neg _ _ ha]
      exact ih hnd1.2 (fun x hx y hy => h x (by simp [hx]) y (by simp [hy]))

theorem NoDouble.of_subset {b : Nat → BitArray} {L L1 : List Nat} (h : NoDouble b L)
    (hs : ∀ x ∈ L1, x ∈ L) : NoDouble b L1 :=
  fun x hx y hy z hz => h x (hs x hx) y (hs y hy) z (hs z hz)

theorem compress_exact_total (b : Nat → BitArray) (R : List Nat) (n : Nat → Int)
    (P : List Nat) (hP : Antichain b P) (hpos : ∀ x ∈ P ++ R, 0 < n x)
    (hnd : (P ++ R).Nodup) :
    total n (P ++ R) ≤ total (compress_exact b n P R).2 (compress_exact b n P R).1 ∧
      (NoDouble b (P ++ R) →
        total (compress_exact b n P R).2 (compress_exact b n P R).1 = total n (P ++ R)) := by
  induction R generalizing n P with
  | nil => simp [compress_exact]
  | cons p R ih =>
    simp only [compress_exact]
    have hnd1 := List.nodup_append.mp hnd
    have hndR := List.nodup_cons.mp hnd1.2.1
    have hpP : p ∉ P := fun hx => hnd1.2.2 hx (by simp)
    have hPR : ∀ x ∈ P, x ∉ R := fun x hx hr => hnd1.2.2 hx (by simp [hr])
    have hposp : 0 < n p := hpos p (by simp)
    obtain ⟨f1, f2, f3, f4⟩ := scan_exact_facts b p n P false
      (fun x hx => hpos x (by simp only [List.mem_cons, List.mem_append] at hx ⊢; tauto))
    have hK : Antichain b (scan_exact b p n P false).1 := List.Pairwise.sublist f1 hP
    have hR : total (scan_exact b p n P false).2.1 R = total n R :=
      total_congr (fun x hx => f3 x (by
        simp only [List.mem_cons, not_or]
        exact ⟨fun e => hndR.1 (e ▸ hx), fun h => hPR x h hx⟩))
    have hposn : ∀ x ∈ P ++ p :: R, 0 < (scan_exact b p n P false).2.1 x :=
      fun x hx => f2 x (hpos x hx)
    have dich : (∀ q ∈ P, subset_code b q p ≠ SUPERSET) ∨
        (∀ q ∈ P, subset_code b q p ≠ SUBSET) := by
      by_cases hex : ∃ q ∈ P, subset_code b q p = SUBSET
      · obtain ⟨q1, hq1, c1⟩ := hex
        left
        intro q2 hq2 c2
        have s1 := (subset_code_subset b q1 p).mp c1
        have s2 := ((subset_code_superset b q2 p).mp c2).2
        have hne : q1 ≠ q2 := by
          rintro rfl
          rw [c1] at c2
          exact absurd c2 (by decide)
        exact hP.not_subset q1 hq1 q2 hq2 hne (s1.trans_sub s2)
      · right
        intro q hq c
        exact hex ⟨q, hq, c⟩
    rcases dich with hno | hno
    · obtain ⟨a1, a2, a3, a4⟩ := scan_exact_no_superset b p n P false
        (fun x hx => by have := hpos x (by simp [hx]); omega) hpP hnd1.1 hno
      simp only [Bool.false_or] at a4
      by_cases hk : 0 < P.countP (fun q => decide (subset_code b q p = SUBSET))
      · have hflag : (scan_exact b p n P false).2.2 = true := by rw [a4]; simpa using hk
        simp only [hflag, if_true, a1]
        obtain ⟨i1, i2⟩ := ih (scan_exact b p n P false).2.1 P hP
          (fun x hx => hposn x (by simp only [List.mem_append, List.mem_cons] at hx ⊢; tauto))
          (List.nodup_append.mpr ⟨hnd1.1, hndR.2, fun x hx hr => hPR x hx hr⟩)
        rw [total_append, a3, hR] at i1 i2
        rw [total_append, total_cons]
        refine ⟨?_, ?_⟩
        · have : n p ≤ (P.countP (fun q => decide (subset_code b q p = SUBSET)) : Nat) * n p := by
            have h1 : (1 : Int) ≤ (P.countP (fun q => decide (subset_code b q p = SUBSET)) : Nat) := by
              exact_mod_cast hk
            nlinarith
          linarith
        · intro hND
          have hk1 : P.countP (fun q => decide (subset_code b q p = SUBSET)) ≤ 1 := by
            apply countP_le_one hnd1.1
            intro x hx y hy hfx hfy
            simp only [decide_eq_true_eq] at hfx hfy
            exact hND p (by simp) x (by simp [hx]) y (by simp [hy])
              (fun e => hpP (e ▸ hx)) (fun e => hpP (e ▸ hy))
              ((subset_code_subset b x p).mp hfx) ((subset_code_subset b y p).mp hfy)
          have hk2 : P.countP (fun q => decide (subset_code b q p = SUBSET)) = 1 := by omega
          rw [i2 (hND.of_subset (fun x hx => by
            simp only [List.mem_append, List.mem_cons] at hx ⊢; tauto)), hk2]
          push_cast
          ring
      · have hk0 : P.countP (fun q => decide (subset_code b q p = SUBSET)) = 0 := by omega
        have hflag : (scan_exact b p n P false).2.2 = false := by rw [a4]; simpa using hk
        simp only [hflag, Bool.false_eq_true, if_false, a1]
        obtain ⟨i1, i2⟩ := ih (scan_exact b p n P false).2.1 (P ++ [p])
          (by
            unfold Antichain
            rw [List.pairwise_append]
            refine ⟨hP, by simp, ?_⟩
            intro x hx y hy
            simp only [List.mem_singleton] at hy
            subst hy
            exact (f4 hflag).2 x (by rw [a1]; exact hx))
          (fun x hx => hposn x (by
            simp only [List.mem_append, List.mem_cons, List.mem_singleton] at hx ⊢; tauto))
          (by simpa using hnd)
        rw [total_append, total_append, a3, hR, hk0, total_cons, total_nil, a2 p hpP] at i1 i2
        rw [total_append, total_cons]
        refine ⟨by push_cast at i1; linarith, ?_⟩
        intro hND
        rw [i2 (hND.of_subset (fun x hx => by
          simp only [List.mem_append, List.mem_cons, List.mem_singleton] at hx ⊢; tauto))]
        push_cast
        ring
    · obtain ⟨b1, b2, b3⟩ := scan_exact_no_subset b p n P false hpP hnd1.1 hno
      simp only [b1, Bool.false_eq_true, if_false]
      have hsub : ∀ x ∈ (scan_exact b p n P false).1 ++ [p] ++ R, x ∈ P ++ p :: R := by
        intro x hx
        simp only [List.mem_append, List.mem_cons, List.mem_singleton, List.not_mem_nil,
          or_false] at hx ⊢
        rcases hx with (hx | hx) | hx
        · exact Or.inl (f1.subset hx)
        · tauto
        · tauto
      obtain ⟨i1, i2⟩ := ih (scan_exact b p n P false).2.1 ((scan_exact b p n P false).1 ++ [p])
        (by
          unfold Antichain
          rw [List.pairwise_append]
          refine ⟨hK, by simp, ?_⟩
          intro x hx y hy
          simp only [List.mem_singleton] at hy
          subst hy
          exact (f4 b1).2 x hx)
        (fun x hx => hposn x (hsub x hx))
        (by
          have : ((scan_exact b p n P false).1 ++ [p] ++ R).Sublist (P ++ p :: R) := by
            rw [List.append_assoc]
            exact List.Sublist.append f1 (List.Sublist.refl _)
          exact this.nodup hnd)
      rw [total_append, total_append, hR, total_cons, total_nil, add_zero, b2] at i1 i2
      rw [total_append, total_cons]
      refine ⟨by linarith, ?_⟩
      intro hND
      rw [i2 (hND.of_subset hsub)]
      ring

/-- The links after `unlink_node`: only the two neighbours of `f` change. -/
theorem unlink_node_links (s : State) (A B : List Nat) (f : Nat)
    (h : RankInv s (A ++ f :: B)) :
    (∀ a, (unlink_node s f).next a
      = if headOr B none = some a then lastOr A none else s.next a) ∧
    (∀ a, (unlink_node s f).prev a
      = if lastOr A none = some a then headOr B none else s.prev a) := by
  obtain ⟨hf1, hf2⟩ := h.linked.at
  have hnd := List.nodup_append.mp h.nodup
  obtain ⟨-, hndB, hdis⟩ := hnd
  simp only [List.nodup_cons] at hndB
  obtain ⟨hfB, -⟩ := hndB
  have hfA : f ∉ A := fun hx => hdis hx (by simp)
  rcases hx : lastOr A none with _ | x
  · rcases hr : headOr B none with _ | r
    · simp only [hx, hr] at hf1 hf2
      refine ⟨fun a => ?_, fun a => ?_⟩ <;> simp [unlink_node, hf1, hf2]
    · have hrf : f ≠ r := fun e => hfB (e ▸ headOr_mem_of_some hr)
      simp only [hx, hr] at hf1 hf2
      refine ⟨fun a => ?_, fun a => ?_⟩ <;>
        simp only [unlink_node, hf1, hf2, Function.update_noteq hrf, Function.update_apply,
          Option.some.injEq, reduceCtorEq, if_false] <;>
        (try (split_ifs <;> first | rfl | (subst_vars; simp_all)))
  · have hxf : f ≠ x := fun e => hfA (e ▸ lastOr_mem_of_some hx)
    rcases hr : headOr B none with _ | r
    · simp only [hx, hr] at hf1 hf2
      refine ⟨fun a => ?_, fun a => ?_⟩ <;>
        simp only [unlink_node, hf1, hf2, Function.update_apply,
          Option.some.injEq, reduceCtorEq, if_false] <;>
        (try (split_ifs <;> first | rfl | (subst_vars; simp_all)))
    · have hrf : f ≠ r := fun e => hfB (e ▸ headOr_mem_of_some hr)
      simp only [hx, hr] at hf1 hf2
      refine ⟨fun a => ?_, fun a => ?_⟩ <;>
        simp only [unlink_node, hf1, hf2, Function.update_noteq hrf, Function.update_apply,
          Option.some.injEq, reduceCtorEq, if_false] <;>
        (try (split_ifs <;> first | rfl | (subst_vars; simp_all)))

theorem order_scan_succ (i fuel : Nat) (s : State) (v : SortVars) (a : Nat) :
    order_scan i (fuel + 1) s v (some a) =
      if BitCount (s.b a) = i then
        order_scan i fuel (sort_move s v a).1 (sort_move s v a).2 (s.next a)
      else order_scan i fuel s v (s.next a) := by
  simp only [order_scan, sort_move]

theorem sort_move_spec (s : State) (v : SortVars) (A D O : List Nat) (a : Nat)
    (h : SortInv s v (A ++ a :: D) O) :
    SortInv (sort_move s v a).1 (sort_move s v a).2 (A ++ D) (O ++ [a]) ∧
      SameFrame s (sort_move s v a).1 ∧ (sort_move s v a).1.n = s.n ∧
      (sort_move s v a).1.nfm = s.nfm - 1 := by
  obtain ⟨u1, -, -, -⟩ := unlink_node_spec s A D a h.main
  obtain ⟨l1, l2⟩ := unlink_node_links s A D a h.main
  obtain ⟨u2, u4, u5⟩ := unlink_node_frame s a
  obtain ⟨ha1, ha2⟩ := h.main.linked.at
  have hnd := h.nodup
  have hM := h.main.nodup
  have haA : a ∉ A := by
    intro hx
    have := (List.nodup_append.mp hM).2.2 hx
    simp at this
  have haD : a ∉ D := by
    have := (List.nodup_append.mp hM).2.1
    exact (List.nodup_cons.mp this).1
  have haO : a ∉ O := by
    intro hx
    exact (List.nodup_append.mp hnd).2.2 (by simp) hx
  have hMO : ∀ x ∈ A ++ D, x ∉ O := by
    intro x hx hxo
    refine (List.nodup_append.mp hnd).2.2 ?_ hxo
    simp only [List.mem_append, List.mem_cons] at hx ⊢
    tauto
  have haM : ∀ x ∈ A ++ D, x ≠ a := by
    intro x hx e
    subst e
    simp only [List.mem_append] at hx
    tauto
  have hOa : ∀ x ∈ O, x ≠ a := fun x hx e => haO (e ▸ hx)
  have hOD : ∀ x ∈ O, headOr D none ≠ some x := fun x hx e =>
    hMO x (by simp [headOr_mem_of_some e]) hx
  have hOA : ∀ x ∈ O, lastOr A none ≠ some x := fun x hx e =>
    hMO x (by simp [lastOr_mem_of_some e]) hx
  have hv : (sort_move s v a).2 =
      { list := if v.list = some a then s.next a else v.list
        ordered := some a
        local_High := if v.ordered = none then some a else v.local_High } := by
    simp only [sort_move, add_fnode]
    by_cases c1 : v.list = some a <;> rcases c2 : v.ordered with _ | o <;> simp [c1, c2]
  have hst : (sort_move s v a).1.High = (unlink_node s a).High ∧
      (sort_move s v a).1.Low = (unlink_node s a).Low ∧
      (sort_move s v a).1.brk = (unlink_node s a).brk ∧
      (sort_move s v a).1.b = (unlink_node s a).b ∧
      (sort_move s v a).1.n = (unlink_node s a).n ∧
      (sort_move s v a).1.left = (unlink_node s a).left ∧
      (sort_move s v a).1.right = (unlink_node s a).right ∧
      (sort_move s v a).1.Failtree = (unlink_node s a).Failtree ∧
      (sort_move s v a).1.nfm = (unlink_node s a).nfm ∧
      (sort_move s v a).1.max_fail = (unlink_node s a).max_fail ∧
      (sort_move s v a).1.nother = (unlink_node s a).nother := by
    simp only [sort_move, add_fnode]
    by_cases c1 : v.list = some a <;> rcases c2 : v.ordered with _ | o <;> simp [c1, c2]
  have hnx : ∀ x, (sort_move s v a).1.next x =
      if x = a then lastOr O none else (unlink_node s a).next x := by
    intro x
    rw [← h.ordered]
    simp only [sort_move, add_fnode]
    by_cases c1 : v.list = some a <;> rcases c2 : v.ordered with _ | o <;>
      simp [c1, c2, Function.update_apply]
  have hpv : ∀ x, (sort_move s v a).1.prev x =
      if lastOr O none = some x then some a else if x = a then none
      else (unlink_node s a).prev x := by
    intro x
    rw [← h.ordered]
    simp only [sort_move, add_fnode]
    by_cases c1 : v.list = some a <;> rcases c2 : v.ordered with _ | o <;>
      simp [c1, c2, Function.update_apply, eq_comm]
  obtain ⟨t1, t2, t3, t4, t5, t6, t7, t8, t9, t10, t11⟩ := hst
  have hbrk : (sort_move s v a).1.brk = s.brk := t3.trans u2.brk
  refine ⟨⟨⟨?_, t1.trans u1.high, t2.trans u1.low, u1.nodup, ?_⟩, ?_, ?_, ?_, ?_, ?_, ?_⟩,
    ⟨t4.trans u2.b, t6.trans u2.left, t7.trans u2.right, hbrk, t8.trans u2.Failtree,
      t10.trans u2.max_fail, t11.trans u2.nother⟩, t5.trans u4, t9.trans u5⟩
  · apply u1.linked.frame
    · intro x hx
      rw [hnx x, if_neg (haM x hx)]
    · intro x hx
      rw [hpv x, if_neg (fun e => hMO x hx (lastOr_mem_of_some e)), if_neg (haM x hx)]
  · intro x hx
    rw [hbrk]
    apply h.main.bound
    simp only [List.mem_append, List.mem_cons] at hx ⊢
    tauto
  · rw [hv]
    simp only
    rw [h.list, lastOr_append, lastOr_cons, lastOr_append]
    by_cases hD : D = []
    · subst hD
      simp [ha1]
    · rw [if_neg (fun e => hD ((lastOr_eq_default D a haD).mp e))]
      exact lastOr_ne_nil _ _ _ hD
  · rw [Linked_append]
    refine ⟨?_, ?_, ?_, trivial⟩
    · apply h.chain.transfer (List.nodup_append.mp hnd).2.1
      · intro x hx
        rw [hnx x, if_neg (hOa x hx), l1 x, if_neg (hOD x hx)]
        split
        · next e => exact h.chain.head_next e
        · rfl
      · intro x hx
        rw [hpv x, l2 x, if_neg (hOA x hx), if_neg (hOa x hx)]
        rfl
    · rw [hnx a, if_pos rfl]
    · rw [hpv a, if_neg (fun e => haO (lastOr_mem_of_some e)), if_pos rfl]
      rfl
  · rw [hv]
    simp
  · rw [hv]
    simp only
    rw [h.ordered, h.local_High, headOr_append]
    by_cases hO : O = []
    · subst hO
      simp
    · rw [if_neg (fun e => hO ((lastOr_none_iff O).mp e))]
      exact headOr_ne_nil _ _ _ hO
  · have hp : (A ++ D ++ (O ++ [a])).Perm (A ++ a :: D ++ O) := by
      have h1 : (A ++ a :: D).Perm (a :: (A ++ D)) := List.perm_middle
      have h2 : (A ++ D ++ (O ++ [a])).Perm (a :: (A ++ D ++ O)) := by
        rw [← List.append_assoc]
        exact List.perm_append_singleton _ _
      exact h2.trans (List.Perm.append_right O h1.symm)
    exact hp.nodup_iff.mpr hnd
  · intro x hx
    rw [hbrk]
    simp only [List.mem_append, List.mem_singleton] at hx
    rcases hx with hx | rfl
    · exact h.bound x hx
    · exact h.main.bound _ (by simp)

theorem order_scan_spec (i : Nat) (Ur : List Nat) (fuel : Nat) (s : State) (v : SortVars)
    (D O : List Nat) (h : SortInv s v (Ur.reverse ++ D) O) (hf : Ur.length < fuel) :
    ∃ s1 v1, order_scan i fuel s v (headOr Ur none) = .ok (s1, v1) ∧
      SortInv s1 v1 ((Ur.filter (fun x => decide (BitCount (s.b x) ≠ i))).reverse ++ D)
        (O ++ Ur.filter (fun x => decide (BitCount (s.b x) = i))) ∧
      SameFrame s s1 ∧ s1.n = s.n ∧
      s1.nfm = s.nfm - (Ur.filter (fun x => decide (BitCount (s.b x) = i))).length := by
  induction Ur generalizing fuel s v D O with
  | nil =>
    cases fuel with
    | zero => simp at hf
    | succ fuel =>
      refine ⟨s, v, rfl, by simpa using h, SameFrame.rfl_frame s, rfl, by simp⟩
  | cons a Ur ih =>
    cases fuel with
    | zero => simp at hf
    | succ fuel =>
      simp only [List.length_cons] at hf
      have h1 : SortInv s v (Ur.reverse ++ a :: D) O := by simpa using h
      have hnext : s.next a = headOr Ur none := by
        rw [(Linked.at h1.main.linked).1, ← headOr_reverse, List.reverse_reverse]
      rw [headOr_cons, order_scan_succ, hnext]
      by_cases c : BitCount (s.b a) = i
      · rw [if_pos c]
        obtain ⟨m1, m2, m3, m4⟩ := sort_move_spec s v Ur.reverse D O a h1
        obtain ⟨s1, v1, e1, r1, f1, n1, g1⟩ := ih fuel _ _ D (O ++ [a]) m1 (by omega)
        rw [m2.b] at r1 g1
        refine ⟨s1, v1, e1, ?_, m2.trans_frame f1, n1.trans m3, ?_⟩
        · simpa [List.filter_cons, c] using r1
        · rw [g1, m4]
          simp only [List.filter_cons, c, decide_True, if_true, List.length_cons]
          push_cast
          ring
      · rw [if_neg c]
        obtain ⟨s1, v1, e1, r1, f1, n1, g1⟩ := ih fuel s v (a :: D) O h1 (by omega)
        refine ⟨s1, v1, e1, ?_, f1, n1, ?_⟩
        · simpa [List.filter_cons, c] using r1
        · rw [g1]
          simp [List.filter_cons, c]

theorem order_buckets_spec (k : Nat) (i : Nat) (s : State) (v : SortVars) (M O : List Nat)
    (h : SortInv s v M O) :
    ∃ s1 v1, order_buckets k i s v = .ok (s1, v1) ∧
      SortInv s1 v1 (sort_model s.b k i M O).1 (sort_model s.b k i M O).2 ∧
      SameFrame s s1 ∧ s1.n = s.n := by
  induction k generalizing i s v M O with
  | zero => exact ⟨s, v, rfl, h, SameFrame.rfl_frame s, rfl⟩
  | succ k ih =>
    have hlen := h.main.length_le
    obtain ⟨s1, v1, e1, r1, f1, n1, -⟩ := order_scan_spec i M.reverse (s.brk + 1) s v [] O
      (by simpa using h) (by simp; omega)
    have hl : v.list = headOr M.reverse none := by rw [h.list, headOr_reverse]
    obtain ⟨s2, v2, e2, r2, f2, n2⟩ := ih (i + 1) s1 v1 _ _ r1
    rw [f1.b] at r2
    refine ⟨s2, v2, ?_, ?_, f1.trans_frame f2, n2.trans n1⟩
    · simp only [order_buckets, hl, e1, e2]
    · simpa [sort_model, List.filter_reverse] using r2

theorem order_fail_data_spec (s : State) (L : List Nat) (l : Nat) (h : RankInv s L)
    (hl : s.Low = some l) :
    ∃ s1, order_fail_data s s.Low = .ok s1 ∧
      RankInv s1 (sort_model s.b (s.b l).n 1 L []).2 ∧
      SameFrame s s1 ∧ s1.n = s.n ∧ s1.nfm = s.nfm := by
  have h0 : SortInv s { list := some l, ordered := none, local_High := none } L [] :=
    ⟨h, by rw [← h.low, hl], trivial, rfl, rfl, by simpa using h.nodup, by simp⟩
  obtain ⟨s1, v1, e1, r1, f1, n1⟩ := order_buckets_spec (s.b l).n 1 s _ L [] h0
  refine ⟨{ s1 with High := v1.local_High, Low := v1.ordered, nfm := s.nfm }, ?_,
    ⟨r1.chain, r1.local_High, r1.ordered, (List.nodup_append.mp r1.nodup).2.1, r1.bound⟩,
    ⟨f1.b, f1.left, f1.right, f1.brk, f1.Failtree, f1.max_fail, f1.nother⟩, n1, rfl⟩
  simp only [hl, order_fail_data, e1]

theorem sort_model_subset (b : Nat → BitArray) (k i : Nat) (M O : List Nat) :
    ∀ x ∈ (sort_model b k i M O).2, x ∈ O ∨ x ∈ M := by
  induction k generalizing i M O with
  | zero => intro x hx; exact Or.inl hx
  | succ k ih =>
    intro x hx
    rcases ih _ _ _ x hx with h | h
    · simp only [List.mem_append, List.mem_filter, List.mem_reverse] at h
      tauto
    · simp only [List.mem_filter] at h
      tauto

/-- The count sums around `compress_fail_data` in a state whose order list is
`L` with positive counts, when no sum leaves the range of `int`. -/
theorem compress_total_of_rank (s : State) (L : List Nat) (hr : RankInv s L)
    (hpos : ∀ x ∈ L, 0 < s.n x)
    (hfit : ∀ x ∈ L, (compress_exact s.b s.n [] L).2 x ≤ INT_MAX) :
    ∃ s1 L1, compress_fail_data s = .ok s1 ∧ rank_list s1 = some L1 ∧
      total s.n L ≤ total s1.n L1 ∧ (NoDouble s.b L → total s1.n L1 = total s.n L) := by
  obtain ⟨s1, e1, r1, -, n1, -⟩ := compress_fail_data_exact s L hr hpos hfit
  obtain ⟨t1, t2⟩ := compress_exact_total s.b L s.n [] List.Pairwise.nil
    (by simpa using hpos) (by simpa using hr.nodup)
  simp only [List.nil_append] at t1 t2
  exact ⟨s1, _, e1, r1.rank_list_eq, by rw [n1]; exact t1, by rw [n1]; exact t2⟩

/-- C5, the claim as stated fails in two ways.  After `{0}`, `{1}`, `{0,1}` the
counts of the rank list sum to 3; `compress_fail_data` absorbs `{0,1}` into
`{0}` and into `{1}`, and the counts of the two records left sum to 4.  After
`{0}` `INT_MAX` times and `{0,1}` once, `compress_fail_data` adds 1 to the count
`INT_MAX` of `{0}`, an `int`, and the count left is `INT_MIN`. -/
theorem C5_sum_not_conserved :
    ((rank_list (scenario 0 [1, 2, 3])).map (total (scenario 0 [1, 2, 3]).n) = some 3 ∧
      ∃ s1, compress_fail_data (scenario 0 [1, 2, 3]) = .ok s1 ∧
        (rank_list s1).map (rows s1) = some [(vec 5 1, 2), (vec 5 2, 2)] ∧
        (rank_list s1).map (total s1.n) = some 4) ∧
    ∃ s s1, record_all (initialise_failures start 0)
        ([vec 5 1] ++ List.replicate 2147483646 (vec 5 1) ++ [vec 5 3]) = .ok s ∧
      rank_list s = some [0, 1] ∧ rows s [0, 1] = [(vec 5 1, 2147483647), (vec 5 3, 1)] ∧
      compress_fail_data s = .ok s1 ∧ rank_list s1 = some [0] ∧
      rows s1 [0] = [(vec 5 1, -2147483648)] := by
  refine ⟨⟨rfl, _, rfl, rfl, rfl⟩, ?_⟩
  have hr : Reachable (scenario 0 [1]) := ⟨start, 0, [1].map (vec 5), rfl⟩
  obtain ⟨T, L, hi⟩ := hr.inv
  have hT : T.nodes = [0] := by
    have e1 := hi.tree_nodes
    have e2 : tree_nodes (scenario 0 [1]) = some [0] := rfl
    rw [e2] at e1
    exact (Option.some.inj e1).symm
  have hl : T.lookup (scenario 0 [1]).b (vec 5 1) = some 0 :=
    hi.bst.lookup_of_mem (by rw [hT]; simp) rfl
  have e := repeat_at_High _ T L (vec 5 1) 0 hi hl rfl 2147483646
  have e0 : record_all (initialise_failures start 0) [vec 5 1] = .ok (scenario 0 [1]) := rfl
  obtain ⟨sb, eb, hb⟩ : ∃ sb : State,
      record_all (scenario 0 [1]) (List.replicate 2147483646 (vec 5 1)) = .ok sb ∧
      sb = { scenario 0 [1] with n := Function.update (scenario 0 [1]).n 0 2147483647 } := by
    refine ⟨_, e, ?_⟩
    have hw : wrap ((scenario 0 [1]).n 0 + (2147483646 : Nat)) = 2147483647 := by decide
    rw [hw]
  obtain ⟨s, es, hl1, hrow, s1, e1, hl2, hrow1⟩ : ∃ s : State,
      record_all { scenario 0 [1] with n := Function.update (scenario 0 [1]).n 0 2147483647 }
        [vec 5 3] = .ok s ∧
      rank_list s = some [0, 1] ∧ rows s [0, 1] = [(vec 5 1, 2147483647), (vec 5 3, 1)] ∧
      ∃ s1, compress_fail_data s = .ok s1 ∧ rank_list s1 = some [0] ∧
        rows s1 [0] = [(vec 5 1, -2147483648)] :=
    ⟨_, rfl, rfl, rfl, _, rfl, rfl, rfl⟩
  rw [← hb] at es
  have h1 : record_all (initialise_failures start 0)
      ([vec 5 1] ++ List.replicate 2147483646 (vec 5 1)) = .ok sb :=
    (record_all_append_ok e0 _).trans eb
  exact ⟨s, s1, (record_all_append_ok h1 _).trans es, hl1, hrow, e1, hl2, hrow1⟩

/-- C5 as amended: take a reachable state in which every count of the rank list
is positive.  If the sums formed by `compress_fail_data` on its rank list,
computed on unbounded integers, do not exceed `INT_MAX`, then
`compress_fail_data` completes and the counts of the records left in the rank
list sum to at least the sum of the counts of the rank list before the call;
the two sums are equal when no record of the list has a vector that includes
the vectors of two other records of the list.  The same holds for the state
after `order_fail_data(Low)` and its rank list. -/
theorem C5_sum_never_lost (s : State) (h : Reachable s) (L : List Nat)
    (hL : rank_list s = some L) (hpos : ∀ x ∈ L, 0 < s.n x) :
    ((∀ x ∈ L, (compress_exact s.b s.n [] L).2 x ≤ INT_MAX) →
      ∃ s1 L1, compress_fail_data s = .ok s1 ∧
        rank_list s1 = some L1 ∧ total s.n L ≤ total s1.n L1 ∧
        (NoDouble s.b L → total s1.n L1 = total s.n L)) ∧
    (∀ s2 L2, order_fail_data s s.Low = .ok s2 → rank_list s2 = some L2 →
      (∀ x ∈ L2, (compress_exact s2.b s2.n [] L2).2 x ≤ INT_MAX) →
      ∃ s3 L3, compress_fail_data s2 = .ok s3 ∧
        rank_list s3 = some L3 ∧ total s2.n L2 ≤ total s3.n L3 ∧
        (NoDouble s2.b L2 → total s3.n L3 = total s2.n L2)) := by
  obtain ⟨T, L0, hi⟩ := h.inv
  rw [hi.rank_list] at hL
  cases hL
  refine ⟨?_, ?_⟩
  · intro hfit
    exact compress_total_of_rank s L hi.rank hpos hfit
  · intro s2 L2 hs2 hL2 hfit
    rcases hl : s.Low with _ | l
    · rw [hl] at hs2
      simp [order_fail_data] at hs2
    · obtain ⟨s2a, e1, r1, -, n1, -⟩ := order_fail_data_spec s L l hi.rank hl
      rw [hs2] at e1
      cases e1
      rw [r1.rank_list_eq] at hL2
      cases hL2
      exact compress_total_of_rank s2 _ r1 (by
        intro x hx
        rw [n1]
        rcases sort_model_subset _ _ _ _ _ x hx with h1 | h1
        · simp at h1
        · exact hpos x h1) hfit

/-- Witness for C5: the state after `{0,1}`, `{0}`, `{0}`, `{2}`. -/
theorem C5_sum_never_lost_witness :
    ((∀ x ∈ [1, 0, 2], (compress_exact (scenario 0 [3, 1, 1, 4]).b
        (scenario 0 [3, 1, 1, 4]).n [] [1, 0, 2]).2 x ≤ INT_MAX) →
      ∃ s1 L1, compress_fail_data (scenario 0 [3, 1, 1, 4]) = .ok s1 ∧
        rank_list s1 = some L1 ∧ total (scenario 0 [3, 1, 1, 4]).n [1, 0, 2] ≤ total s1.n L1 ∧
        (NoDouble (scenario 0 [3, 1, 1, 4]).b [1, 0, 2] →
          total s1.n L1 = total (scenario 0 [3, 1, 1, 4]).n [1, 0, 2])) ∧
    (∀ s2 L2, order_fail_data (scenario 0 [3, 1, 1, 4]) (scenario 0 [3, 1, 1, 4]).Low = .ok s2 →
      rank_list s2 = some L2 →
      (∀ x ∈ L2, (compress_exact s2.b s2.n [] L2).2 x ≤ INT_MAX) →
      ∃ s3 L3, compress_fail_data s2 = .ok s3 ∧
        rank_list s3 = some L3 ∧ total s2.n L2 ≤ total s3.n L3 ∧
        (NoDouble s2.b L2 → total s3.n L3 = total s2.n L2)) :=
  C5_sum_never_lost (scenario 0 [3, 1, 1, 4]) ⟨start, 0, [3, 1, 1, 4].map (vec 5), rfl⟩
    [1, 0, 2] rfl (by decide)

theorem compress2_scan_spec (p : Nat) (U : List Nat) (fuel : Nat) (s : State) (D : List Nat)
    (flag : Bool) (h : RankInv s (U.reverse ++ D)) (hf : U.length < fuel) :
    compress2_scan p fuel s (headOr U none) flag
      = .ok ({ s with n := (scan2_model s.b p s.n U flag).1 },
          (scan2_model s.b p s.n U flag).2) := by
  induction U generalizing fuel s D flag with
  | nil =>
    cases fuel with
    | zero => simp at hf
    | succ fuel => rfl
  | cons q U ih =>
    cases fuel with
    | zero => simp at hf
    | succ fuel =>
      simp only [List.length_cons] at hf
      have h1 : RankInv s (U.reverse ++ q :: D) := by simpa using h
      have hnext : s.next q = headOr U none := by
        rw [(Linked.at h1.linked).1, ← headOr_reverse, List.reverse_reverse]
      simp only [headOr_cons, compress2_scan, FnodeSubset_eq, scan2_model, hnext]
      by_cases c0 : q ≠ p ∧ s.n q ≠ 0
      · simp only [c0, ne_eq, not_false_eq_true, and_self, if_true]
        by_cases c1 : subset_code s.b q p = SUBSET
        · simp only [c1, if_true]
          exact ih fuel { s with n := Function.update s.n q (wrap (s.n q + s.n p)) } (q :: D) true
            (h1.of_counts _) (by omega)
        · simp only [c1, if_false]
          exact ih fuel s (q :: D) flag h1 (by omega)
      · simp only [c0, if_false]
        exact ih fuel s (q :: D) flag h1 (by omega)

theorem compress2_loop_spec (R : List Nat) (fuel : Nat) (s : State) (P : List Nat)
    (h : RankInv s (P ++ R)) (hf : R.length < fuel) :
    ∃ s1, compress2_loop fuel s (headOr R none) = .ok s1 ∧
      RankInv s1 (compress2_model s.b s.n P R).1 ∧
      SameFrame s s1 ∧ s1.n = (compress2_model s.b s.n P R).2 ∧
      s1.nfm = s.nfm + (compress2_model s.b s.n P R).1.length - (P.length + R.length) := by
  induction R generalizing fuel s P with
  | nil =>
    cases fuel with
    | zero => simp at hf
    | succ fuel =>
      refine ⟨s, rfl, by simpa [compress2_model] using h, SameFrame.rfl_frame s, rfl, ?_⟩
      simp [compress2_model]
  | cons p R ih =>
    cases fuel with
    | zero => simp at hf
    | succ fuel =>
      simp only [List.length_cons] at hf
      have hlen := h.length_le
      simp only [List.length_append, List.length_cons] at hlen
      have e1 := compress2_scan_spec p (p :: P.reverse) (s.brk + 1) s R false
        (by simpa using h) (by simp; omega)
      simp only [headOr_cons] at e1
      simp only [headOr_cons, compress2_loop, e1, compress2_model]
      have r1 : RankInv { s with n := (scan2_model s.b p s.n (p :: P.reverse) false).1 }
          (P ++ p :: R) := h.of_counts _
      have hp1 : s.prev p = headOr R none := (Linked.at h.linked).2
      by_cases hflag : (scan2_model s.b p s.n (p :: P.reverse) false).2 = true
      · simp only [hflag, if_true]
        obtain ⟨u1, -, u3, -⟩ := unlink_node_spec _ P R p r1
        obtain ⟨u2, u4, u5⟩ := unlink_node_frame
          { s with n := (scan2_model s.b p s.n (p :: P.reverse) false).1 } p
        obtain ⟨s2, e2, r2, m2, n2, f2⟩ := ih fuel _ P u1 (by omega)
        rw [u2.b, u4] at r2 n2 f2
        refine ⟨s2, ?_, r2, ?_, n2, ?_⟩
        · rw [← e2, u3]
          simp only [hp1]
        · exact ⟨m2.b.trans u2.b, m2.left.trans u2.left, m2.right.trans u2.right,
            m2.brk.trans u2.brk, m2.Failtree.trans u2.Failtree, m2.max_fail.trans u2.max_fail,
            m2.nother.trans u2.nother⟩
        · rw [f2, u5]
          simp only [List.length_cons]
          push_cast
          ring
      · rw [Bool.not_eq_true] at hflag
        simp only [hflag, Bool.false_eq_true, if_false]
        obtain ⟨s2, e2, r2, m2, n2, f2⟩ := ih fuel
          { s with n := (scan2_model s.b p s.n (p :: P.reverse) false).1 } (P ++ [p])
          (by simpa using r1) (by omega)
        refine ⟨s2, ?_, r2, ?_, n2, ?_⟩
        · rw [← e2]
          simp only [hp1]
        · exact ⟨m2.b, m2.left, m2.right, m2.brk, m2.Failtree, m2.max_fail, m2.nother⟩
        · rw [f2]
          simp only [List.length_cons, List.length_append, List.length_nil]
          push_cast
          ring

theorem testBit_lt_self {m i : Nat} (h : m.testBit i = true) : i < m :=
  lt_of_lt_of_le (Nat.lt_two_pow i) (Nat.testBit_implies_ge h)

theorem BitCount_eq_card (a : BitArray) :
    BitCount a = ((Finset.range a.bits).filter (fun i => a.bits.testBit i = true)).card := by
  unfold BitCount
  rw [Finset.card_def, Finset.filter_val, Finset.range_val, Multiset.range,
    Multiset.filter_coe, Multiset.coe_card]
  congr 1
  apply List.filter_congr
  intro x _
  simp

theorem mem_bitset (a : BitArray) (i : Nat) :
    i ∈ (Finset.range a.bits).filter (fun i => a.bits.testBit i = true) ↔ a.has i := by
  simp only [Finset.mem_filter, Finset.mem_range, BitArray.has]
  exact ⟨fun h => h.2, fun h => ⟨testBit_lt_self h, h⟩⟩

theorem bitset_subset {a b : BitArray} (h : Subset a b) :
    (Finset.range a.bits).filter (fun i => a.bits.testBit i = true)
      ⊆ (Finset.range b.bits).filter (fun i => b.bits.testBit i = true) := by
  intro i hi
  rw [mem_bitset] at hi ⊢
  exact h i hi

theorem BitCount_le_of_subset {a b : BitArray} (h : Subset a b) : BitCount a ≤ BitCount b := by
  rw [BitCount_eq_card, BitCount_eq_card]
  exact Finset.card_le_card (bitset_subset h)

theorem bits_eq_of_subset_of_BitCount_le {a b : BitArray} (h : Subset a b)
    (hc : BitCount b ≤ BitCount a) : a.bits = b.bits := by
  rw [BitCount_eq_card, BitCount_eq_card] at hc
  have he := Finset.eq_of_subset_of_card_le (bitset_subset h) hc
  apply Nat.eq_of_testBit_eq
  intro i
  have h1 := mem_bitset a i
  have h2 := mem_bitset b i
  rw [he] at h1
  have : a.has i ↔ b.has i := h1.symm.trans h2
  simp only [BitArray.has] at this
  cases ha : a.bits.testBit i <;> cases hb : b.bits.testBit i <;> simp_all

theorem absorb_nil (b : Nat → BitArray) (p : Nat) (n : Nat → Int) : absorb b p n [] = n := by
  funext x
  simp [absorb]

theorem absorbed_nil (b : Nat → BitArray) (p : Nat) (n : Nat → Int) :
    absorbed b p n [] = false := by
  simp [absorbed]

theorem absorb_cons_hit (b : Nat → BitArray) (p q : Nat) (n : Nat → Int) (Q : List Nat)
    (hpq : q ≠ p) (hq : q ∉ Q) (h0 : n q ≠ 0) (h1 : subset_code b q p = SUBSET) :
    absorb b p (Function.update n q (wrap (n q + n p))) Q = absorb b p n (q :: Q) := by
  funext x
  have hp : Function.update n q (wrap (n q + n p)) p = n p := Function.update_noteq (Ne.symm hpq) _ _
  simp only [absorb, hp]
  by_cases e : x = q
  · subst e
    simp [hq, h0, h1]
  · simp [Function.update_noteq e, e]

theorem absorb_cons_miss (b : Nat → BitArray) (p q : Nat) (n : Nat → Int) (Q : List Nat)
    (h : ¬ (n q ≠ 0 ∧ subset_code b q p = SUBSET)) :
    absorb b p n Q = absorb b p n (q :: Q) := by
  funext x
  simp only [absorb]
  by_cases e : x = q
  · subst e
    rw [if_neg (fun c => h c.2), if_neg (fun c => h c.2)]
  · simp [e]

theorem absorbed_cons_hit (b : Nat → BitArray) (p q : Nat) (n : Nat → Int) (Q : List Nat)
    (h0 : n q ≠ 0) (h1 : subset_code b q p = SUBSET) : absorbed b p n (q :: Q) = true := by
  simp only [absorbed, decide_eq_true_eq]
  exact ⟨q, by simp, h0, h1⟩

theorem absorbed_cons_miss (b : Nat → BitArray) (p q : Nat) (n : Nat → Int) (Q : List Nat)
    (h : ¬ (n q ≠ 0 ∧ subset_code b q p = SUBSET)) :
    absorbed b p n (q :: Q) = absorbed b p n Q := by
  simp only [absorbed, List.mem_cons, exists_eq_or_imp, decide_eq_decide]
  constructor
  · rintro (c | c)
    · exact absurd c h
    · exact c
  · exact Or.inr

theorem absorbed_update (b : Nat → BitArray) (p q : Nat) (n : Nat → Int) (Q : List Nat) (v : Int)
    (hq : q ∉ Q) : absorbed b p (Function.update n q v) Q = absorbed b p n Q := by
  simp only [absorbed, decide_eq_decide]
  constructor
  · rintro ⟨x, hx, c⟩
    have e : x ≠ q := fun e => hq (e ▸ hx)
    rw [Function.update_noteq e] at c
    exact ⟨x, hx, c⟩
  · rintro ⟨x, hx, c⟩
    have e : x ≠ q := fun e => hq (e ▸ hx)
    exact ⟨x, hx, by rw [Function.update_noteq e]; exact c⟩

/-- When no record of `Q` has a vector that strictly includes the vector of `p`,
the inner loop of `compress_fail_data` unlinks nothing and only adds counts. -/
theorem scan_model_absorb (b : Nat → BitArray) (p : Nat) (n : Nat → Int) (Q : List Nat)
    (flag : Bool) (hp : p ∉ Q) (hQ : Q.Nodup)
    (hs : ∀ q ∈ Q, subset_code b q p ≠ SUPERSET) :
    scan_model b p n Q flag = (Q, absorb b p n Q, flag || absorbed b p n Q) := by
  induction Q generalizing n flag with
  | nil => simp [scan_model, absorb_nil, absorbed_nil]
  | cons q Q ih =>
    have hpq : q ≠ p := fun e => hp (by simp [e])
    have hp1 : p ∉ Q := fun c => hp (by simp [c])
    have hq : q ∉ Q := (List.nodup_cons.mp hQ).1
    have hQ1 : Q.Nodup := (List.nodup_cons.mp hQ).2
    have hs1 : ∀ x ∈ Q, subset_code b x p ≠ SUPERSET := fun x hx => hs x (by simp [hx])
    have c2 : subset_code b q p ≠ SUPERSET := hs q (by simp)
    simp only [scan_model]
    by_cases h0 : n q ≠ 0
    · by_cases h1 : subset_code b q p = SUBSET
      · rw [if_pos h0, if_pos h1, ih _ true hp1 hQ1 hs1, absorb_cons_hit b p q n Q hpq hq h0 h1,
          absorbed_cons_hit b p q n Q h0 h1]
        simp
      · rw [if_pos h0, if_neg h1, if_neg c2, ih n flag hp1 hQ1 hs1,
          absorb_cons_miss b p q n Q (fun c => h1 c.2),
          absorbed_cons_miss b p q n Q (fun c => h1 c.2)]
    · rw [if_neg h0, ih n flag hp1 hQ1 hs1,
        absorb_cons_miss b p q n Q (fun c => h0 c.1),
        absorbed_cons_miss b p q n Q (fun c => h0 c.1)]

/-- The inner loop of `compress_fail_data2` over records other than `p`. -/
theorem scan2_model_absorb (b : Nat → BitArray) (p : Nat) (n : Nat → Int) (U : List Nat)
    (flag : Bool) (hp : p ∉ U) (hU : U.Nodup) :
    scan2_model b p n U flag = (absorb b p n U, flag || absorbed b p n U) := by
  induction U generalizing n flag with
  | nil => simp [scan2_model, absorb_nil, absorbed_nil]
  | cons q U ih =>
    have hpq : q ≠ p := fun e => hp (by simp [e])
    have hp1 : p ∉ U := fun c => hp (by simp [c])
    have hq : q ∉ U := (List.nodup_cons.mp hU).1
    have hU1 : U.Nodup := (List.nodup_cons.mp hU).2
    simp only [scan2_model]
    by_cases h0 : n q ≠ 0
    · by_cases h1 : subset_code b q p = SUBSET
      · rw [if_pos ⟨hpq, h0⟩, if_pos h1, ih _ true hp1 hU1, absorb_cons_hit b p q n U hpq hq h0 h1,
          absorbed_cons_hit b p q n U h0 h1]
        simp
      · rw [if_pos ⟨hpq, h0⟩, if_neg h1, ih n flag hp1 hU1,
          absorb_cons_miss b p q n U (fun c => h1 c.2),
          absorbed_cons_miss b p q n U (fun c => h1 c.2)]
    · rw [if_neg (fun c => h0 c.2), ih n flag hp1 hU1,
        absorb_cons_miss b p q n U (fun c => h0 c.1),
        absorbed_cons_miss b p q n U (fun c => h0 c.1)]

theorem absorb_reverse (b : Nat → BitArray) (p : Nat) (n : Nat → Int) (P : List Nat) :
    absorb b p n P.reverse = absorb b p n P := by
  funext x
  simp [absorb]

theorem absorbed_reverse (b : Nat → BitArray) (p : Nat) (n : Nat → Int) (P : List Nat) :
    absorbed b p n P.reverse = absorbed b p n P := by
  simp [absorbed]

/-- The scan of `compress_fail_data2` from `p` through `next` skips `p` itself
and then meets the records above `p` in reverse order. -/
theorem scan2_model_self (b : Nat → BitArray) (p : Nat) (n : Nat → Int) (P : List Nat)
    (hp : p ∉ P) (hP : P.Nodup) :
    scan2_model b p n (p :: P.reverse) false = (absorb b p n P, absorbed b p n P) := by
  have e : scan2_model b p n (p :: P.reverse) false = scan2_model b p n P.reverse false := by
    simp [scan2_model]
  rw [e, scan2_model_absorb b p n P.reverse false (by simpa using hp)
    (List.nodup_reverse.mpr hP), absorb_reverse, absorbed_reverse]
  simp

theorem scan2_model_none (b : Nat → BitArray) (p : Nat) (n : Nat → Int) (U : List Nat)
    (flag : Bool) (h : ∀ q ∈ U, q ≠ p → ¬ Subset (b q) (b p)) :
    scan2_model b p n U flag = (n, flag) := by
  induction U generalizing n flag with
  | nil => rfl
  | cons q U ih =>
    have hrest : ∀ x ∈ U, x ≠ p → ¬ Subset (b x) (b p) := fun x hx => h x (by simp [hx])
    simp only [scan2_model]
    by_cases c0 : q ≠ p ∧ n q ≠ 0
    · have c1 : subset_code b q p ≠ SUBSET := fun c =>
        h q (by simp) c0.1 ((subset_code_subset b q p).mp c)
      simp only [c0, ne_eq, not_false_eq_true, and_self, if_true, c1, if_false]
      exact ih n flag hrest
    · simp only [c0, if_false]
      exact ih n flag hrest

/-- On an antichain `compress_fail_data2` finds nothing to absorb. -/
theorem compress2_model_antichain (b : Nat → BitArray) (R : List Nat) (n : Nat → Int)
    (P : List Nat) (h : Antichain b (P ++ R)) :
    compress2_model b n P R = (P ++ R, n) := by
  induction R generalizing n P with
  | nil => simp [compress2_model]
  | cons p R ih =>
    have hs : scan2_model b p n (p :: P.reverse) false = (n, false) := by
      apply scan2_model_none
      intro q hq hqp
      simp only [List.mem_cons, List.mem_reverse] at hq
      rcases hq with rfl | hq
      · exact absurd rfl hqp
      · exact h.not_subset q (by simp [hq]) p (by simp) hqp
    simp only [compress2_model, hs, Bool.false_eq_true, if_false]
    rw [ih n (P ++ [p]) (by simpa using h)]
    simp

theorem absorb_eq_self (b : Nat → BitArray) (p : Nat) (n : Nat → Int) (P : List Nat)
    (h : absorbed b p n P = false) : absorb b p n P = n := by
  funext x
  simp only [absorbed, decide_eq_false_iff_not, not_exists, not_and] at h
  simp only [absorb]
  rw [if_neg]
  rintro ⟨h1, h2, h3⟩
  exact h x h1 h2 h3

/-- On a list sorted by bit count with pairwise different vectors
`compress_fail_data2` leaves a list in which every record whose vector is
included in the vector of another record has the count zero. -/
theorem compress2_model_dormant (b : Nat → BitArray) (R : List Nat) (n : Nat → Int)
    (P : List Nat) (hnd : (P ++ R).Nodup)
    (hsort : (P ++ R).Pairwise (fun x y => BitCount (b x) ≤ BitCount (b y)))
    (hdist : (P ++ R).Pairwise (fun x y => (b x).bits ≠ (b y).bits))
    (hP : Dormant b n P) :
    Dormant b (compress2_model b n P R).2 (compress2_model b n P R).1 ∧
      (compress2_model b n P R).1.Sublist (P ++ R) := by
  induction R generalizing n P with
  | nil =>
    simp only [compress2_model]
    exact ⟨hP, by simp⟩
  | cons p R ih =>
    have hp : p ∉ P := fun c => (List.nodup_append.mp hnd).2.2 c (by simp)
    have hPnd : P.Nodup := (List.nodup_append.mp hnd).1
    have hsub : (P ++ R).Sublist (P ++ p :: R) :=
      List.Sublist.append (List.Sublist.refl P) (List.sublist_cons_self p R)
    have hA : Dormant b (absorb b p n P) P := by
      intro q hq x hx hqx hs
      have h0 := hP q hq x hx hqx hs
      simp only [absorb]
      rw [if_neg (fun c => c.2.1 h0)]
      exact h0
    simp only [compress2_model, scan2_model_self b p n P hp hPnd]
    by_cases hflag : absorbed b p n P = true
    · simp only [hflag, if_true]
      obtain ⟨i1, i2⟩ := ih (absorb b p n P) P (hnd.sublist hsub) (hsort.sublist hsub)
        (hdist.sublist hsub) hA
      exact ⟨i1, i2.trans hsub⟩
    · rw [Bool.not_eq_true] at hflag
      simp only [hflag, Bool.false_eq_true, if_false]
      have hn := absorb_eq_self b p n P hflag
      have hPp : Dormant b (absorb b p n P) (P ++ [p]) := by
        rw [hn]
        intro q hq x hx hqx hs
        simp only [List.mem_append, List.mem_singleton] at hq hx
        rcases hq with hq | rfl
        · rcases hx with hx | rfl
          · exact hP q hq x hx hqx hs
          · by_contra h0
            simp only [absorbed, decide_eq_false_iff_not, not_exists, not_and] at hflag
            exact hflag q hq h0 ((subset_code_subset b q x).mpr hs)
        · rcases hx with hx | rfl
          · exfalso
            have hle : BitCount (b x) ≤ BitCount (b q) :=
              (List.pairwise_append.mp hsort).2.2 x hx q (by simp)
            have hne : (b x).bits ≠ (b q).bits :=
              (List.pairwise_append.mp hdist).2.2 x hx q (by simp)
            exact hne (bits_eq_of_subset_of_BitCount_le hs hle).symm
          · exact absurd rfl hqx
      obtain ⟨i1, i2⟩ := ih (absorb b p n P) (P ++ [p]) (by simpa using hnd)
        (by simpa using hsort) (by simpa using hdist) hPp
      exact ⟨i1, by simpa using i2⟩

/-- On a list in which every record whose vector is included in the vector of
another record has the count zero, `compress_fail_data2` finds nothing to
absorb. -/
theorem compress2_model_quiet (b : Nat → BitArray) (R : List Nat) (n : Nat → Int)
    (P : List Nat) (hnd : (P ++ R).Nodup) (hD : Dormant b n (P ++ R)) :
    compress2_model b n P R = (P ++ R, n) := by
  induction R generalizing P with
  | nil => simp [compress2_model]
  | cons p R ih =>
    have hp : p ∉ P := fun c => (List.nodup_append.mp hnd).2.2 c (by simp)
    have hPnd : P.Nodup := (List.nodup_append.mp hnd).1
    have hflag : absorbed b p n P = false := by
      simp only [absorbed, decide_eq_false_iff_not, not_exists, not_and]
      intro x hx h0 hs
      have hxp : x ≠ p := fun e => hp (e ▸ hx)
      exact h0 (hD x (by simp [hx]) p (by simp) hxp ((subset_code_subset b x p).mp hs))
    simp only [compress2_model, scan2_model_self b p n P hp hPnd, hflag, Bool.false_eq_true,
      if_false, absorb_eq_self b p n P hflag]
    rw [ih (P ++ [p]) (by simpa using hnd) (by simpa using hD)]
    simp

theorem sort_model_mem_iff (b : Nat → BitArray) (k i : Nat) (M O : List Nat) (x : Nat) :
    x ∈ (sort_model b k i M O).2 ↔
      x ∈ O ∨ (x ∈ M ∧ i ≤ BitCount (b x) ∧ BitCount (b x) < i + k) := by
  induction k generalizing i M O with
  | zero => simp [sort_model]
  | succ k ih =>
    simp only [sort_model, ih, List.mem_append, List.mem_filter, List.mem_reverse,
      decide_eq_true_eq]
    constructor
    · rintro ((h | ⟨h1, h2⟩) | ⟨⟨h1, h2⟩, h3, h4⟩)
      · exact Or.inl h
      · exact Or.inr ⟨h1, by omega, by omega⟩
      · exact Or.inr ⟨h1, by omega, by omega⟩
    · rintro (h | ⟨h1, h2, h3⟩)
      · exact Or.inl (Or.inl h)
      · by_cases e : BitCount (b x) = i
        · exact Or.inl (Or.inr ⟨h1, e⟩)
        · exact Or.inr ⟨⟨h1, e⟩, by omega, by omega⟩

theorem sort_model_sorted (b : Nat → BitArray) (k i : Nat) (M O : List Nat)
    (hO : O.Pairwise (fun x y => BitCount (b x) ≤ BitCount (b y)))
    (hlt : ∀ x ∈ O, BitCount (b x) < i) :
    (sort_model b k i M O).2.Pairwise (fun x y => BitCount (b x) ≤ BitCount (b y)) := by
  induction k generalizing i M O with
  | zero => exact hO
  | succ k ih =>
    simp only [sort_model]
    apply ih
    · rw [List.pairwise_append]
      refine ⟨hO, ?_, ?_⟩
      · rw [List.pairwise_iff_forall_sublist]
        intro x y hxy
        have hx := hxy.subset (List.mem_cons_self x [y])
        have hy := hxy.subset (List.mem_cons_of_mem x (List.mem_singleton_self y))
        simp only [List.mem_filter, decide_eq_true_eq] at hx hy
        omega
      · intro x hx y hy
        simp only [List.mem_filter, decide_eq_true_eq] at hy
        have := hlt x hx
        omega
    · intro x hx
      simp only [List.mem_append, List.mem_filter, decide_eq_true_eq] at hx
      rcases hx with hx | hx
      · have := hlt x hx; omega
      · omega

theorem sort_model_buckets (b : Nat → BitArray) (k i : Nat) (M O : List Nat) :
    (sort_model b k i M O).2 =
      O ++ (List.range k).flatMap
        (fun j => M.reverse.filter (fun x => decide (BitCount (b x) = i + j))) := by
  induction k generalizing i M O with
  | zero => simp [sort_model]
  | succ k ih =>
    rw [sort_model, ih, List.range_succ_eq_map, List.flatMap_cons, List.flatMap_map,
      List.append_assoc]
    congr 1
    simp only [add_zero, List.filter_reverse, List.filter_filter]
    congr 1
    apply List.flatMap_congr
    intro j _
    congr 1
    apply List.filter_congr
    intro x _
    have : i + 1 + j = i + (j + 1) := by omega
    rw [this]
    by_cases e : BitCount (b x) = i + (j + 1)
    · have : BitCount (b x) ≠ i := by omega
      simp [e]
    · simp [e]

theorem compress_fail_data2_spec (s : State) (L : List Nat) (l : Nat) (h : RankInv s L)
    (hl : s.Low = some l) :
    ∃ s1, compress_fail_data2 s = .ok s1 ∧
      RankInv s1 (compress2_model s.b s.n [] (sort_model s.b (s.b l).n 1 L []).2).1 ∧
      SameFrame s s1 ∧
      s1.n = (compress2_model s.b s.n [] (sort_model s.b (s.b l).n 1 L []).2).2 ∧
      s1.nfm = s.nfm
        + (compress2_model s.b s.n [] (sort_model s.b (s.b l).n 1 L []).2).1.length
        - (sort_model s.b (s.b l).n 1 L []).2.length := by
  obtain ⟨sA, e1, r1, f1, n1, g1⟩ := order_fail_data_spec s L l h hl
  have hlen := r1.length_le
  obtain ⟨s1, e2, r2, f2, n2, g2⟩ := compress2_loop_spec _ (sA.brk + 1) sA [] (by simpa using r1)
    (by omega)
  rw [f1.b, n1] at r2 n2 g2
  refine ⟨s1, ?_, r2, f1.trans_frame f2, n2, ?_⟩
  · simp only [compress_fail_data2, e1]
    rw [← e2, r1.high]
  · rw [g2, g1]
    simp

/-- C7, the claim as stated fails. After `{0}` and `{1}` the first
`compress_fail_data2` leaves the rank list `[1, 0]` and the second call turns
it into `[0, 1]`: the records of one bit count come out in reverse order. After
the all-zero vector alone, the first call empties the rank list and the second
call reads `Low->b` through a `NULL` pointer. -/
theorem C7_second_call_differs :
    (∃ s1 s2, compress_fail_data2 (scenario 0 [1, 2]) = .ok s1 ∧
      compress_fail_data2 s1 = .ok s2 ∧
      rank_list s1 = some [1, 0] ∧ rank_list s2 = some [0, 1]) ∧
    (∃ s1, compress_fail_data2 (scenario 0 [0]) = .ok s1 ∧ rank_list s1 = some [] ∧
      compress_fail_data2 s1 = .error .nullDeref) :=
  ⟨⟨_, _, rfl, rfl, rfl, rfl⟩, ⟨_, rfl, rfl, rfl⟩⟩

/-- C7 as amended: in a reachable state with a non-empty rank list whose vectors
all sit in arrays of the same width `w`, `compress_fail_data2` completes, and if
it leaves a non-empty rank list then a second call completes too and keeps the
same records with the same counts, the same vectors, the same `nfm` and the same
`nother`; the rank list after the second call is a permutation of the list
before it, namely its records by ascending bit count, those of equal bit count
in the reverse of their previous order. -/
theorem C7_second_call_keeps_records (s : State) (h : Reachable s) (L : List Nat)
    (hL : rank_list s = some L) (hne : L ≠ []) (w : Nat) (hw : ∀ x ∈ L, (s.b x).n = w) :
    ∃ s1 L1, compress_fail_data2 s = .ok s1 ∧ rank_list s1 = some L1 ∧
      (L1 ≠ [] → ∃ s2 L2, compress_fail_data2 s1 = .ok s2 ∧ rank_list s2 = some L2 ∧
        L2.Perm L1 ∧
        L2 = (List.range w).flatMap
          (fun j => L1.reverse.filter (fun x => decide (BitCount (s1.b x) = 1 + j))) ∧
        s2.n = s1.n ∧ s2.b = s1.b ∧ s2.nfm = s1.nfm ∧ s2.nother = s1.nother) := by
  obtain ⟨T, L0, hi⟩ := h.inv
  rw [hi.rank_list] at hL
  cases hL
  obtain ⟨l, hl⟩ : ∃ l, s.Low = some l := by
    rw [hi.rank.low]
    cases L with
    | nil => exact absurd rfl hne
    | cons a L => exact lastOr_some L a
  have hlL : l ∈ L := lastOr_mem_of_some (by rw [← hi.rank.low]; exact hl)
  have hwl : (s.b l).n = w := hw l hlL
  obtain ⟨sA, -, rA, -, -, -⟩ := order_fail_data_spec s L l hi.rank hl
  obtain ⟨s1, e1, r1, f1, n1, -⟩ := compress_fail_data2_spec s L l hi.rank hl
  rw [hwl] at rA r1 n1
  have hmem1 := sort_model_mem_iff s.b w 1 L []
  have hdist : (sort_model s.b w 1 L []).2.Pairwise (fun x y => (s.b x).bits ≠ (s.b y).bits) := by
    have hnd : (sort_model s.b w 1 L []).2.Pairwise (fun x y => x ≠ y) := rA.nodup
    refine hnd.imp_of_mem (fun {x y} hx hy hxy => ?_)
    have hx1 : x ∈ L := by have := (hmem1 x).mp hx; simp at this; exact this.1
    have hy1 : y ∈ L := by have := (hmem1 y).mp hy; simp at this; exact this.1
    exact hi.bst.distinct x (hi.perm.mem_iff.mpr hx1) y (hi.perm.mem_iff.mpr hy1) hxy
  obtain ⟨a1, a2⟩ := compress2_model_dormant s.b (sort_model s.b w 1 L []).2 s.n []
    (by simpa using rA.nodup)
    (by simpa using sort_model_sorted s.b w 1 L [] List.Pairwise.nil (by simp))
    (by simpa using hdist) (by intro q hq; simp at hq)
  simp only [List.nil_append] at a2
  refine ⟨s1, _, e1, r1.rank_list_eq, ?_⟩
  intro hne1
  obtain ⟨l1, hl1⟩ : ∃ l1, s1.Low = some l1 := by
    rw [r1.low]
    rcases hc : (compress2_model s.b s.n [] (sort_model s.b w 1 L []).2).1 with _ | ⟨a, L1⟩
    · exact absurd hc hne1
    · exact lastOr_some L1 a
  have hl1L1 := lastOr_mem_of_some (by rw [← r1.low]; exact hl1)
  have hin : ∀ x ∈ (compress2_model s.b s.n [] (sort_model s.b w 1 L []).2).1,
      x ∈ L ∧ 1 ≤ BitCount (s.b x) ∧ BitCount (s.b x) < 1 + w := by
    intro x hx
    have := (hmem1 x).mp (a2.subset hx)
    simpa using this
  have hwl1 : (s1.b l1).n = w := by rw [f1.b]; exact hw l1 (hin l1 hl1L1).1
  obtain ⟨sB, -, rB, -, -, -⟩ := order_fail_data_spec s1 _ l1 r1 hl1
  obtain ⟨s2, e2, r2, f2, n2, g2⟩ := compress_fail_data2_spec s1 _ l1 r1 hl1
  rw [hwl1] at rB r2 n2 g2
  have hperm : (sort_model s1.b w 1
      (compress2_model s.b s.n [] (sort_model s.b w 1 L []).2).1 []).2.Perm
      (compress2_model s.b s.n [] (sort_model s.b w 1 L []).2).1 := by
    rw [List.perm_ext_iff_of_nodup rB.nodup r1.nodup]
    intro x
    rw [sort_model_mem_iff, f1.b]
    simp only [List.not_mem_nil, false_or]
    exact ⟨fun hx => hx.1, fun hx => ⟨hx, (hin x hx).2⟩⟩
  have hdor : Dormant s1.b s1.n (sort_model s1.b w 1
      (compress2_model s.b s.n [] (sort_model s.b w 1 L []).2).1 []).2 := by
    intro q hq x hx hqx hs
    rw [f1.b] at hs
    rw [n1]
    exact a1 q (hperm.mem_iff.mp hq) x (hperm.mem_iff.mp hx) hqx hs
  have hid := compress2_model_quiet s1.b _ s1.n [] (by simpa using rB.nodup)
    (by simpa using hdor)
  simp only [List.nil_append] at hid
  rw [hid] at r2 n2 g2
  refine ⟨s2, _, e2, r2.rank_list_eq, hperm, ?_, n2, f2.b, ?_, f2.nother⟩
  · rw [sort_model_buckets]
    simp
  · rw [g2]
    simp

/-- Witness for C7: the state after `{0}` and `{1}`, in arrays of 5 bits. -/
theorem C7_second_call_keeps_records_witness :
    ∃ s1 L1, compress_fail_data2 (scenario 0 [1, 2]) = .ok s1 ∧ rank_list s1 = some L1 ∧
      (L1 ≠ [] → ∃ s2 L2, compress_fail_data2 s1 = .ok s2 ∧ rank_list s2 = some L2 ∧
        L2.Perm L1 ∧
        L2 = (List.range 5).flatMap
          (fun j => L1.reverse.filter (fun x => decide (BitCount (s1.b x) = 1 + j))) ∧
        s2.n = s1.n ∧ s2.b = s1.b ∧ s2.nfm = s1.nfm ∧ s2.nother = s1.nother) :=
  C7_second_call_keeps_records (scenario 0 [1, 2]) ⟨start, 0, [1, 2].map (vec 5), rfl⟩
    [0, 1] rfl (by decide) 5 (by decide)

/-! ## The subset test, the sort and the compressors -/

theorem subset_code_cases (b : Nat → BitArray) (q p : Nat) :
    subset_code b q p = SUBSET ∨ subset_code b q p = SUPERSET ∨ subset_code b q p = NEITHER := by
  unfold subset_code
  split_ifs <;> simp

theorem subset_code_neither (b : Nat → BitArray) (q p : Nat) :
    subset_code b q p = NEITHER ↔ ¬ Subset (b q) (b p) ∧ ¬ Subset (b p) (b q) := by
  have h1 := subset_code_subset b q p
  have h2 := subset_code_superset b q p
  have hd1 : SUBSET ≠ NEITHER := by decide
  have hd2 : SUPERSET ≠ NEITHER := by decide
  constructor
  · intro h
    have n1 : ¬ Subset (b q) (b p) := fun hs => hd1 ((h1.mpr hs).symm.trans h)
    exact ⟨n1, fun hs => hd2 ((h2.mpr ⟨n1, hs⟩).symm.trans h)⟩
  · intro h
    rcases subset_code_cases b q p with c | c | c
    · exact absurd (h1.mp c) h.1
    · exact absurd (h2.mp c).2 h.2
    · exact c

/-- C18: the union `BitOR` and the equality `BitEquals` are set union and set
equality, and `FnodeSubset(f1, f2)` is `SUBSET` (1) exactly when the vector of
`f1` is a subset of the vector of `f2` (equal vectors included), `SUPERSET`
(-1) exactly when the vector of `f2` is a proper subset of the vector of `f1`,
and `NEITHER` (0) exactly when neither vector is a subset of the other. -/
theorem C18_FnodeSubset_result (s : State) (f1 f2 : Nat) :
    (∀ a b i, (BitOR a b).has i ↔ a.has i ∨ b.has i) ∧
    (∀ a b, BitEquals a b = true ↔ ∀ i, a.has i ↔ b.has i) ∧
    SUBSET = 1 ∧ SUPERSET = -1 ∧ NEITHER = 0 ∧
    (FnodeSubset s f1 f2 = SUBSET ↔ Subset (s.b f1) (s.b f2)) ∧
    (FnodeSubset s f1 f2 = SUPERSET ↔ ProperSubset (s.b f2) (s.b f1)) ∧
    (FnodeSubset s f1 f2 = NEITHER ↔
      ¬ Subset (s.b f1) (s.b f2) ∧ ¬ Subset (s.b f2) (s.b f1)) := by
  refine ⟨?_, ?_, rfl, rfl, rfl, ?_, ?_, ?_⟩
  · intro a b i
    simp [BitArray.has, BitOR, Nat.testBit_lor]
  · intro a b
    simp only [BitEquals, decide_eq_true_eq, BitArray.has]
    constructor
    · intro h i; rw [h]
    · intro h
      apply Nat.eq_of_testBit_eq
      intro i
      have := h i
      cases ha : a.bits.testBit i <;> cases hb : b.bits.testBit i <;> simp_all
  · rw [FnodeSubset_eq]; exact subset_code_subset s.b f1 f2
  · rw [FnodeSubset_eq, subset_code_superset]
    exact ⟨fun h => ⟨h.2, h.1⟩, fun h => ⟨h.2, h.1⟩⟩
  · rw [FnodeSubset_eq]; exact subset_code_neither s.b f1 f2

theorem scan_model_incomparable (b : Nat → BitArray) (p : Nat) (n : Nat → Int) (Q : List Nat)
    (flag : Bool) (h : ∀ q ∈ Q, ¬ Subset (b q) (b p) ∧ ¬ Subset (b p) (b q)) :
    scan_model b p n Q flag = (Q, n, flag) := by
  induction Q generalizing n flag with
  | nil => rfl
  | cons q Q ih =>
    have hq := h q (by simp)
    have c1 : subset_code b q p ≠ SUBSET := fun c => hq.1 ((subset_code_subset b q p).mp c)
    have c2 : subset_code b q p ≠ SUPERSET := fun c =>
      hq.2 ((subset_code_superset b q p).mp c).2
    simp only [scan_model, c1, c2, if_false, ite_self]
    rw [ih n flag (fun x hx => h x (by simp [hx]))]

/-- On an antichain `compress_fail_data` finds nothing to absorb. -/
theorem compress_model_incomparable (b : Nat → BitArray) (R : List Nat) (n : Nat → Int)
    (P : List Nat) (h : Antichain b (P ++ R)) :
    compress_model b n P R = (P ++ R, n) := by
  induction R generalizing n P with
  | nil => simp [compress_model]
  | cons p R ih =>
    have hs : scan_model b p n P false = (P, n, false) := by
      apply scan_model_incomparable
      intro q hq
      have hpw : (P ++ p :: R).Pairwise
          (fun x y => ¬ Subset (b x) (b y) ∧ ¬ Subset (b y) (b x)) := h
      exact (List.pairwise_append.mp hpw).2.2 q hq p (by simp)
    simp only [compress_model, hs, Bool.false_eq_true, if_false]
    rw [ih n (P ++ [p]) (by simpa using h)]
    simp

/-- C14: in a reachable state in which no stored vector is a subset of the
vector of another record, `compress_fail_data` completes and changes nothing:
the rank list holds the same records in the same order, and the counts, the
vectors, `nfm`, `nother`, `High` and `Low` are the same. -/
theorem C14_incomparable_unchanged (s : State) (h : Reachable s) (L : List Nat)
    (hL : rank_list s = some L)
    (hinc : ∀ x ∈ L, ∀ y ∈ L, x ≠ y → ¬ Subset (s.b x) (s.b y)) :
    ∃ s1, compress_fail_data s = .ok s1 ∧ rank_list s1 = some L ∧
      s1.n = s.n ∧ s1.b = s.b ∧ s1.nfm = s.nfm ∧ s1.nother = s.nother ∧
      s1.High = s.High ∧ s1.Low = s.Low := by
  obtain ⟨T, L0, hi⟩ := h.inv
  rw [hi.rank_list] at hL
  cases hL
  have hanti : Antichain s.b ([] ++ L) := by
    have hnd : L.Pairwise (fun x y => x ≠ y) := hi.rank.nodup
    exact hnd.imp_of_mem (fun {x y} hx hy hxy =>
      ⟨hinc x hx y hy hxy, hinc y hy x hx (Ne.symm hxy)⟩)
  obtain ⟨s1, e1, r1, f1, n1, g1⟩ := compress_fail_data_spec s L hi.rank
  rw [compress_model_incomparable s.b L s.n [] hanti] at r1 n1 g1
  simp only [List.nil_append] at r1 n1 g1
  refine ⟨s1, e1, r1.rank_list_eq, n1, f1.b, ?_, f1.nother, ?_, ?_⟩
  · rw [g1]; simp
  · rw [r1.high, hi.rank.high]
  · rw [r1.low, hi.rank.low]

/-- Witness for C14: `{0}` and `{1}` recorded once each. -/
theorem C14_incomparable_unchanged_witness :
    ∃ s1, compress_fail_data (scenario 0 [1, 2]) = .ok s1 ∧ rank_list s1 = some [0, 1] ∧
      s1.n = (scenario 0 [1, 2]).n ∧ s1.b = (scenario 0 [1, 2]).b ∧
      s1.nfm = (scenario 0 [1, 2]).nfm ∧ s1.nother = (scenario 0 [1, 2]).nother ∧
      s1.High = (scenario 0 [1, 2]).High ∧ s1.Low = (scenario 0 [1, 2]).Low :=
  C14_incomparable_unchanged (scenario 0 [1, 2]) ⟨start, 0, [1, 2].map (vec 5), rfl⟩
    [0, 1] rfl (by
      intro x hx y hy hxy
      rw [Subset_iff_lor]
      simp only [List.mem_cons, List.mem_singleton, List.not_mem_nil, or_false] at hx hy
      rcases hx with rfl | rfl <;> rcases hy with rfl | rfl <;>
        first | exact absurd rfl hxy | decide)

theorem Shape.lookup_none_of_distinct {b : Nat → BitArray} {v : BitArray} {T : Shape}
    (h : ∀ t ∈ T.nodes, BitEquals v (b t) = false) : T.lookup b v = none := by
  rcases hl : T.lookup b v with _ | t
  · rfl
  · obtain ⟨h1, h2⟩ := Shape.lookup_mem hl
    have := h t h1
    rw [BitComp_eq_zero] at h2
    simp [BitEquals, h2] at this

/-- C19: in a reachable state, for a vector `v` equal to no stored vector and
with the registry below its limit (or with no limit), `record_failure(v)`
completes and creates exactly one record, at the address `brk`, holding `v` with
count 1: the rank list afterwards is the previous rank list with the new record
appended at `Low`, the older records keep their vectors and counts, the tree
gains the new record only, `nfm` grows by one and `nother` is unchanged. -/
theorem C19_new_record_appended (s : State) (h : Reachable s) (T L : List Nat)
    (hT : tree_nodes s = some T) (hL : rank_list s = some L) (v : BitArray)
    (hv : ∀ t ∈ T, BitEquals v (s.b t) = false)
    (hcap : s.max_fail = 0 ∨ s.nfm < s.max_fail) :
    ∃ s1, record_failure s v = .ok s1 ∧
      rank_list s1 = some (L ++ [s.brk]) ∧ s1.Low = some s.brk ∧ s.brk ∉ L ∧
      s1.b s.brk = v ∧ s1.n s.brk = 1 ∧
      (∀ x ∈ L, s1.b x = s.b x ∧ s1.n x = s.n x) ∧
      (∃ T1, tree_nodes s1 = some T1 ∧ T1.Perm (s.brk :: T)) ∧
      s1.nfm = s.nfm + 1 ∧ s1.nother = s.nother := by
  obtain ⟨T0, L0, hi⟩ := h.inv
  rw [hi.rank_list] at hL
  rw [hi.tree_nodes] at hT
  cases hL
  cases hT
  have hl := Shape.lookup_none_of_distinct hv
  obtain ⟨s1, e1, i1, hb, hn, hf, ho, -, -⟩ := record_grow s T0 L v hi hl
    (by rcases hcap with c | c
        · exact Or.inl c
        · exact Or.inr (le_of_lt c))
  have hk : ∀ a ∈ L, a ≠ s.brk := fun a ha => Nat.ne_of_lt (hi.rank.bound a ha)
  refine ⟨s1, e1, i1.rank_list, ?_, fun hx => hk _ hx rfl, ?_, ?_, ?_, ?_, hf, ho⟩
  · rw [i1.rank.low]; simp
  · rw [hb, Function.update_same]
  · rw [hn, Function.update_same]
  · intro x hx
    rw [hb, hn, Function.update_noteq (hk x hx), Function.update_noteq (hk x hx)]
    exact ⟨rfl, rfl⟩
  · exact ⟨_, i1.tree_nodes, Shape.insert_perm hl⟩

/-- Witness for C19: with the limit 3, after `{0}` and `{1}` the vector `{2}`
is new and the registry holds two records. -/
theorem C19_new_record_appended_witness :
    ∃ s1, record_failure (scenario 3 [1, 2]) (vec 5 4) = .ok s1 ∧
      rank_list s1 = some ([0, 1] ++ [(scenario 3 [1, 2]).brk]) ∧
      s1.Low = some (scenario 3 [1, 2]).brk ∧ (scenario 3 [1, 2]).brk ∉ [0, 1] ∧
      s1.b (scenario 3 [1, 2]).brk = vec 5 4 ∧ s1.n (scenario 3 [1, 2]).brk = 1 ∧
      (∀ x ∈ [0, 1], s1.b x = (scenario 3 [1, 2]).b x ∧ s1.n x = (scenario 3 [1, 2]).n x) ∧
      (∃ T1, tree_nodes s1 = some T1 ∧ T1.Perm ((scenario 3 [1, 2]).brk :: [0, 1])) ∧
      s1.nfm = (scenario 3 [1, 2]).nfm + 1 ∧ s1.nother = (scenario 3 [1, 2]).nother :=
  C19_new_record_appended (scenario 3 [1, 2]) ⟨start, 3, [1, 2].map (vec 5), rfl⟩
    [0, 1] [0, 1] rfl rfl (vec 5 4) (by decide) (Or.inr (by decide))

/-- C17, the code at the failing input: on the empty registry left by
`initialise_failures`, whatever the limit, `order_fail_data(Low)` reads
`list->b` through `Low = NULL`, and so does `compress_fail_data2`, which starts
with that call; the sibling `compress_fail_data` completes there and returns
`(NULL, 0, 0)`. -/
theorem C17_empty_registry_null_read (s0 : State) (c : Int) :
    (initialise_failures s0 c).Low = none ∧
    order_fail_data (initialise_failures s0 c) (initialise_failures s0 c).Low
      = .error .nullDeref ∧
    compress_fail_data2 (initialise_failures s0 c) = .error .nullDeref ∧
    ∃ s1, compress_fail_data (initialise_failures s0 c) = .ok s1 ∧
      get_fail_data s1 = (none, 0, 0) :=
  ⟨rfl, rfl, rfl, _, rfl, rfl⟩

/-- C11, the code at the failing input: after the all-zero vector and `{0}`
are recorded the rank list is `[0, 1]`; `order_fail_data(Low)` runs its buckets
from bit count 1, never moves the all-zero record 0, and leaves the rank list
`[1]` while restoring `nfm = 2`. -/
theorem C11_zero_vector_dropped :
    rank_list (scenario 0 [0, 1]) = some [0, 1] ∧ (scenario 0 [0, 1]).nfm = 2 ∧
    ∃ s1, order_fail_data (scenario 0 [0, 1]) (scenario 0 [0, 1]).Low = .ok s1 ∧
      rank_list s1 = some [1] ∧ rank_list_up s1 = some [1] ∧ s1.nfm = 2 ∧
      tree_nodes s1 = some [0, 1] ∧ BitCount (s1.b 0) = 0 :=
  ⟨rfl, rfl, _, rfl, rfl, rfl, rfl, rfl, rfl⟩

/-- C15: whatever the state before, after `initialise_failures(c)` the registry
is empty: `get_fail_data` returns `(NULL, 0, 0)`, the limit is `c`, no record
is reachable from `Failtree`, `High` or `Low`, and every later run of
`record_failure` calls gives the result it gives on the never-used registry
initialised with `c`. -/
theorem C15_initialise_resets (s : State) (c : Int) :
    get_fail_data (initialise_failures s c) = (none, 0, 0) ∧
    (initialise_failures s c).max_fail = c ∧
    rank_list (initialise_failures s c) = some [] ∧
    rank_list_up (initialise_failures s c) = some [] ∧
    tree_nodes (initialise_failures s c) = some [] ∧
    ∀ bs, record_all (initialise_failures s c) bs
      = record_all (initialise_failures start c) bs :=
  ⟨rfl, rfl, rfl, rfl, rfl, fun _ => rfl⟩

theorem not_proper_of_BitCount_le {a b : BitArray} (h : BitCount b ≤ BitCount a) :
    ¬ ProperSubset a b := by
  rintro ⟨h1, h2⟩
  have e := bits_eq_of_subset_of_BitCount_le h1 h
  apply h2
  intro i hi
  simp only [BitArray.has] at hi ⊢
  rw [e]
  exact hi

theorem Reachable.low_some {s : State} {L : List Nat} (hr : RankInv s L) (hne : L ≠ []) :
    ∃ l, s.Low = some l ∧ l ∈ L := by
  cases L with
  | nil => exact absurd rfl hne
  | cons a L =>
    obtain ⟨x, hx⟩ := lastOr_some L a
    refine ⟨x, by rw [hr.low]; exact hx, ?_⟩
    exact lastOr_mem_of_some (by simpa using hx)

/-- C12: in a reachable state with a non-empty rank list, `order_fail_data(Low)`
completes, and on the walk from `High` through `prev` afterwards the bit count
never decreases, so no record met earlier is a strict superset of a record met
later. -/
theorem C12_sorted_by_bit_count (s : State) (h : Reachable s) (L : List Nat)
    (hL : rank_list s = some L) (hne : L ≠ []) :
    ∃ s1 L1, order_fail_data s s.Low = .ok s1 ∧ rank_list s1 = some L1 ∧
      L1.Pairwise (fun x y => BitCount (s1.b x) ≤ BitCount (s1.b y)) ∧
      L1.Pairwise (fun x y => ¬ ProperSubset (s1.b y) (s1.b x)) := by
  obtain ⟨T, L0, hi⟩ := h.inv
  rw [hi.rank_list] at hL
  cases hL
  obtain ⟨l, hl, -⟩ := Reachable.low_some hi.rank hne
  obtain ⟨s1, e1, r1, f1, -, -⟩ := order_fail_data_spec s L l hi.rank hl
  have hs : (sort_model s.b (s.b l).n 1 L []).2.Pairwise
      (fun x y => BitCount (s1.b x) ≤ BitCount (s1.b y)) := by
    rw [f1.b]
    exact sort_model_sorted s.b (s.b l).n 1 L [] List.Pairwise.nil (by simp)
  exact ⟨s1, _, e1, r1.rank_list_eq, hs, hs.imp (fun hxy => not_proper_of_BitCount_le hxy)⟩

/-- Witness for C12: the state after `{0,1}`, `{0}`, `{0}`, `{2}`. -/
theorem C12_sorted_by_bit_count_witness :
    ∃ s1 L1, order_fail_data (scenario 0 [3, 1, 1, 4]) (scenario 0 [3, 1, 1, 4]).Low = .ok s1 ∧
      rank_list s1 = some L1 ∧
      L1.Pairwise (fun x y => BitCount (s1.b x) ≤ BitCount (s1.b y)) ∧
      L1.Pairwise (fun x y => ¬ ProperSubset (s1.b y) (s1.b x)) :=
  C12_sorted_by_bit_count (scenario 0 [3, 1, 1, 4]) ⟨start, 0, [3, 1, 1, 4].map (vec 5), rfl⟩
    [1, 0, 2] rfl (by decide)

/-- C16, the claim as stated fails: after `{2}` twice, `{0}` twice and `{0,1}`
once the rank list is `[0, 1, 2]` with the counts 2, 2, 1; `compress_fail_data`
adds the count of `{0,1}` to `{0}` and unlinks `{0,1}`, leaving the rank list
`[0, 1]` with the counts 2, 3, which increase from `High` through `prev`. -/
theorem C16_rank_order_broken :
    (rank_list (scenario 0 [4, 4, 1, 1, 3])).map (rows (scenario 0 [4, 4, 1, 1, 3]))
      = some [(vec 5 4, 2), (vec 5 1, 2), (vec 5 3, 1)] ∧
    ∃ s1, compress_fail_data (scenario 0 [4, 4, 1, 1, 3]) = .ok s1 ∧
      rank_list s1 = some [0, 1] ∧
      rows s1 [0, 1] = [(vec 5 4, 2), (vec 5 1, 3)] ∧
      ¬ [0, 1].Pairwise (fun a c => s1.n c ≤ s1.n a) :=
  ⟨rfl, _, rfl, rfl, rfl, by decide⟩

theorem scan_model_sublist (b : Nat → BitArray) (p : Nat) (n : Nat → Int) (Q : List Nat)
    (flag : Bool) : (scan_model b p n Q flag).1.Sublist Q := by
  induction Q generalizing n flag with
  | nil => simp [scan_model]
  | cons q Q ih =>
    simp only [scan_model]
    split_ifs
    · exact (ih _ _).cons₂ q
    · exact (ih _ _).cons q
    · exact (ih _ _).cons₂ q
    · exact (ih _ _).cons₂ q

theorem scan_model_flag (b : Nat → BitArray) (p : Nat) (n : Nat → Int) (Q : List Nat) :
    (scan_model b p n Q true).2.2 = true := by
  induction Q generalizing n with
  | nil => rfl
  | cons q Q ih =>
    simp only [scan_model]
    split_ifs
    · exact ih _
    · exact ih _
    · exact ih _
    · exact ih _

/-- A pass of the inner loop of `compress_fail_data` that unlinks no record and
leaves the flag down has changed no count. -/
theorem scan_model_still (b : Nat → BitArray) (p : Nat) (n : Nat → Int) (Q : List Nat)
    (flag : Bool) (hlen : (scan_model b p n Q flag).1.length = Q.length)
    (hflag : (scan_model b p n Q flag).2.2 = false) :
    scan_model b p n Q flag = (Q, n, false) := by
  induction Q generalizing n flag with
  | nil =>
    simp only [scan_model] at hflag ⊢
    rw [hflag]
  | cons q Q ih =>
    simp only [scan_model] at hlen hflag ⊢
    split_ifs at hlen hflag ⊢ with c0 c1 c2
    · have := scan_model_flag b p (Function.update n q (wrap (n q + n p))) Q
      rw [this] at hflag
      cases hflag
    · have := scan_model_length b p (Function.update n p (wrap (n p + n q))) Q flag
      simp only [List.length_cons] at hlen
      omega
    · simp only [List.length_cons, add_left_inj] at hlen
      rw [ih n flag hlen hflag]
    · simp only [List.length_cons, add_left_inj] at hlen
      rw [ih n flag hlen hflag]

theorem compress_model_sublist (b : Nat → BitArray) (R : List Nat) (n : Nat → Int)
    (P : List Nat) : (compress_model b n P R).1.Sublist (P ++ R) := by
  induction R generalizing n P with
  | nil => simp [compress_model]
  | cons p R ih =>
    have hs := scan_model_sublist b p n P false
    simp only [compress_model]
    split_ifs
    · exact (ih _ _).trans ((hs.append (List.Sublist.refl R)).trans
        (List.Sublist.append (List.Sublist.refl P) (List.sublist_cons_self p R)))
    · refine (ih _ _).trans ?_
      have := (hs.append (List.Sublist.refl [p])).append (List.Sublist.refl R)
      simpa using this

/-- A run of `compress_fail_data` that unlinks no record has changed no
count. -/
theorem compress_model_still (b : Nat → BitArray) (R : List Nat) (n : Nat → Int)
    (P : List Nat) (hlen : (compress_model b n P R).1.length = P.length + R.length) :
    compress_model b n P R = (P ++ R, n) := by
  induction R generalizing n P with
  | nil => simp [compress_model]
  | cons p R ih =>
    have hs := scan_model_length b p n P false
    simp only [compress_model] at hlen ⊢
    split_ifs at hlen ⊢ with c
    · have := (compress_model_sublist b R (scan_model b p n P false).2.1
        (scan_model b p n P false).1).length_le
      simp only [List.length_append, List.length_cons] at this hlen
      omega
    · have h1 := (compress_model_sublist b R (scan_model b p n P false).2.1
        ((scan_model b p n P false).1 ++ [p])).length_le
      simp only [List.length_append, List.length_cons, List.length_nil] at h1 hlen
      have h2 : (scan_model b p n P false).1.length = P.length := by omega
      rw [Bool.not_eq_true] at c
      have h3 := scan_model_still b p n P false h2 c
      rw [h3] at hlen ⊢
      dsimp only at hlen ⊢
      have h4 : (compress_model b n (P ++ [p]) R).1.length = (P ++ [p]).length + R.length := by
        simp only [List.length_append, List.length_cons, List.length_nil]
        omega
      rw [ih n (P ++ [p]) h4]
      simp

/-- C16 as amended: in a reachable state `compress_fail_data` completes and
the rank list afterwards is a sublist of the rank list before, so the records
left keep their relative order, and if the counts before the call do not
increase from `High` through `prev` then neither do these counts over the
records left; when the call removes no record the counts are unchanged; and
when every count of the rank list is positive and the sums formed by the call,
computed on unbounded integers, do not exceed `INT_MAX`, no count is lowered by
the call. -/
theorem C16_survivors_keep_order (s : State) (h : Reachable s) (L : List Nat)
    (hL : rank_list s = some L) :
    ∃ s1 L1, compress_fail_data s = .ok s1 ∧ rank_list s1 = some L1 ∧
      L1.Sublist L ∧
      (L.Pairwise (fun a c => s.n c ≤ s.n a) → L1.Pairwise (fun a c => s.n c ≤ s.n a)) ∧
      (L1 = L → s1.n = s.n) ∧
      ((∀ x ∈ L, 0 < s.n x) → (∀ x ∈ L, (compress_exact s.b s.n [] L).2 x ≤ INT_MAX) →
        ∀ x, s.n x ≤ s1.n x) := by
  obtain ⟨T, L0, hi⟩ := h.inv
  rw [hi.rank_list] at hL
  cases hL
  obtain ⟨s1, e1, r1, f1, n1, g1⟩ := compress_fail_data_spec s L hi.rank
  have a3 := compress_model_sublist s.b L s.n []
  simp only [List.nil_append] at a3
  refine ⟨s1, _, e1, r1.rank_list_eq, a3, fun hs => hs.sublist a3, ?_, ?_⟩
  · intro e
    have hc := compress_model_still s.b L s.n [] (by rw [e]; simp)
    rw [n1, hc]
  · intro hpos hfit x
    have hm := compress_exact_mono s.b L s.n [] (by simpa using hpos) x
    rw [n1, compress_model_eq_exact s.b L s.n [] (by simpa using hpos) (by simpa using hfit)]
    exact hm

/-- Witness for C16: the state after `{2}` twice, `{0}` twice and `{0,1}`. -/
theorem C16_survivors_keep_order_witness :
    ∃ s1 L1, compress_fail_data (scenario 0 [4, 4, 1, 1, 3]) = .ok s1 ∧
      rank_list s1 = some L1 ∧ L1.Sublist [0, 1, 2] ∧
      ([0, 1, 2].Pairwise
          (fun a c => (scenario 0 [4, 4, 1, 1, 3]).n c ≤ (scenario 0 [4, 4, 1, 1, 3]).n a) →
        L1.Pairwise
          (fun a c => (scenario 0 [4, 4, 1, 1, 3]).n c ≤ (scenario 0 [4, 4, 1, 1, 3]).n a)) ∧
      (L1 = [0, 1, 2] → s1.n = (scenario 0 [4, 4, 1, 1, 3]).n) ∧
      ((∀ x ∈ [0, 1, 2], 0 < (scenario 0 [4, 4, 1, 1, 3]).n x) →
        (∀ x ∈ [0, 1, 2], (compress_exact (scenario 0 [4, 4, 1, 1, 3]).b
          (scenario 0 [4, 4, 1, 1, 3]).n [] [0, 1, 2]).2 x ≤ INT_MAX) →
        ∀ x, (scenario 0 [4, 4, 1, 1, 3]).n x ≤ s1.n x) :=
  C16_survivors_keep_order (scenario 0 [4, 4, 1, 1, 3])
    ⟨start, 0, [4, 4, 1, 1, 3].map (vec 5), rfl⟩ [0, 1, 2] rfl

/-! ## The two compressors on a list sorted by bit count -/

/-- On a list without repetition in which no record has a vector that strictly
includes the vector of a later record, the two compressors compute the same
list and the same counts. -/
theorem compress_model_eq_compress2_model (b : Nat → BitArray) (R : List Nat) (n : Nat → Int)
    (P : List Nat) (hnd : (P ++ R).Nodup)
    (hs : (P ++ R).Pairwise (fun q p => subset_code b q p ≠ SUPERSET)) :
    compress_model b n P R = compress2_model b n P R := by
  induction R generalizing n P with
  | nil => simp [compress_model, compress2_model]
  | cons p R ih =>
    have hp : p ∉ P := fun c => by
      have := (List.nodup_append.mp hnd).2.2
      exact this c (by simp) 
    have hP : P.Nodup := (List.nodup_append.mp hnd).1
    have hsp : ∀ q ∈ P, subset_code b q p ≠ SUPERSET := fun q hq =>
      (List.pairwise_append.mp hs).2.2 q hq p (by simp)
    have hnd1 : (P ++ R).Nodup := by
      rw [List.nodup_append] at hnd ⊢
      refine ⟨hnd.1, (List.nodup_cons.mp hnd.2.1).2, ?_⟩
      intro a h1 h2
      exact hnd.2.2 h1 (by simp [h2])
    have hs1 : (P ++ R).Pairwise (fun q p => subset_code b q p ≠ SUPERSET) := by
      rw [List.pairwise_append] at hs ⊢
      refine ⟨hs.1, (List.pairwise_cons.mp hs.2.1).2, ?_⟩
      intro a h1 c h2
      exact hs.2.2 a h1 c (by simp [h2])
    simp only [compress_model, compress2_model, scan_model_absorb b p n P false hp hP hsp,
      scan2_model_self b p n P hp hP, Bool.false_or]
    split_ifs
    · exact ih _ P hnd1 hs1
    · exact ih _ (P ++ [p]) (by simpa using hnd) (by simpa using hs)

/-- A record with at most the bit count of a later record never gives the code
`SUPERSET` against it. -/
theorem subset_code_ne_superset_of_BitCount_le (b : Nat → BitArray) (q p : Nat)
    (h : BitCount (b q) ≤ BitCount (b p)) : subset_code b q p ≠ SUPERSET := by
  intro c
  have c1 := (subset_code_superset b q p).mp c
  have e := bits_eq_of_subset_of_BitCount_le c1.2 h
  apply c1.1
  intro i hi
  simp only [BitArray.has] at hi ⊢
  rw [e]
  exact hi

/-- C20: in a reachable state with a non-empty rank list, `compress_fail_data2`
and `order_fail_data(Low)` followed by `compress_fail_data` both complete and
leave the same rank list, the same report rows (vector and count of every
record left), the same counts and vectors overall, and the same answer of
`get_fail_data` (`High`, `nfm`, `nother`); in the sorted list no record has the
code `SUPERSET` against a record that follows it, so the `SUPERSET` branch of
`compress_fail_data` is never taken. -/
theorem C20_compressors_agree (s : State) (h : Reachable s) (L : List Nat)
    (hL : rank_list s = some L) (hne : L ≠ []) :
    ∃ sA LA s2 s3 L1, order_fail_data s s.Low = .ok sA ∧ rank_list sA = some LA ∧
      compress_fail_data sA = .ok s3 ∧ compress_fail_data2 s = .ok s2 ∧
      rank_list s2 = some L1 ∧ rank_list s3 = some L1 ∧
      rows s2 L1 = rows s3 L1 ∧ s2.n = s3.n ∧ s2.b = s3.b ∧
      get_fail_data s2 = get_fail_data s3 ∧
      LA.Pairwise (fun q p => FnodeSubset sA q p ≠ SUPERSET) := by
  obtain ⟨T, L0, hi⟩ := h.inv
  rw [hi.rank_list] at hL
  cases hL
  obtain ⟨l, hl, -⟩ := Reachable.low_some hi.rank hne
  obtain ⟨sA, e1, r1, f1, n1, g1⟩ := order_fail_data_spec s L l hi.rank hl
  obtain ⟨s3, e3, r3, f3, n3, g3⟩ := compress_fail_data_spec sA _ r1
  obtain ⟨s2, e2, r2, f2, n2, g2⟩ := compress_fail_data2_spec s L l hi.rank hl
  have hs : (sort_model s.b (s.b l).n 1 L []).2.Pairwise
      (fun q p => subset_code s.b q p ≠ SUPERSET) :=
    (sort_model_sorted s.b (s.b l).n 1 L [] List.Pairwise.nil (by simp)).imp
      (fun hxy => subset_code_ne_superset_of_BitCount_le s.b _ _ hxy)
  have hm := compress_model_eq_compress2_model s.b (sort_model s.b (s.b l).n 1 L []).2 s.n []
    (by simpa using r1.nodup) (by simpa using hs)
  rw [f1.b, n1, hm] at r3 n3 g3
  have hn : s2.n = s3.n := by rw [n2, n3]
  have hb : s2.b = s3.b := by rw [f2.b, f3.b, f1.b]
  refine ⟨sA, _, s2, s3, _, e1, r1.rank_list_eq, e3, e2, r2.rank_list_eq, r3.rank_list_eq,
    ?_, hn, hb, ?_, ?_⟩
  · simp only [rows, hn, hb]
  · simp only [get_fail_data, r2.high, r3.high, g2, g3, g1, f2.nother, f3.nother, f1.nother]
  · have e : (fun q p => FnodeSubset sA q p ≠ SUPERSET)
        = (fun q p => subset_code s.b q p ≠ SUPERSET) := by
      funext q p
      rw [← f1.b]
      rfl
    rw [e]
    exact hs

/-- Witness for C20: the state after `{0,1}`, `{0}`, `{0}`, `{2}`. -/
theorem C20_compressors_agree_witness :
    ∃ sA LA s2 s3 L1,
      order_fail_data (scenario 0 [3, 1, 1, 4]) (scenario 0 [3, 1, 1, 4]).Low = .ok sA ∧
      rank_list sA = some LA ∧
      compress_fail_data sA = .ok s3 ∧ compress_fail_data2 (scenario 0 [3, 1, 1, 4]) = .ok s2 ∧
      rank_list s2 = some L1 ∧ rank_list s3 = some L1 ∧
      rows s2 L1 = rows s3 L1 ∧ s2.n = s3.n ∧ s2.b = s3.b ∧
      get_fail_data s2 = get_fail_data s3 ∧
      LA.Pairwise (fun q p => FnodeSubset sA q p ≠ SUPERSET) :=
  C20_compressors_agree (scenario 0 [3, 1, 1, 4]) ⟨start, 0, [3, 1, 1, 4].map (vec 5), rfl⟩
    [1, 0, 2] rfl (by decide)

/-! ## Two nested vectors, sorted and compressed -/

theorem tally_append_same (pre : List BitArray) (u v : BitArray) (h : v.bits = u.bits) :
    tally (pre ++ [v]) u = tally pre u + 1 := by
  simp [tally, List.countP_append, List.countP_cons, h]

theorem tally_append_other (pre : List BitArray) (u v : BitArray) (h : v.bits ≠ u.bits) :
    tally (pre ++ [v]) u = tally pre u := by
  simp [tally, List.countP_append, List.countP_cons, h]

theorem tally_eq_zero (pre : List BitArray) (v : BitArray) (h : ∀ u ∈ pre, u.bits ≠ v.bits) :
    tally pre v = 0 := by
  simp only [tally, Nat.cast_eq_zero, List.countP_eq_zero, decide_eq_true_eq]
  exact h

theorem Census.at_start (s0 : State) : Census (initialise_failures s0 0) [] [] :=
  ⟨by simp, by simp, by simp, rfl, rfl⟩

theorem Census.after_call {s : State} {T : Shape} {L : List Nat} {pre : List BitArray}
    (h : Inv s T L) (hc : Census s L pre) (v : BitArray) :
    ∃ s1 T1 L1, record_failure s v = .ok s1 ∧ Inv s1 T1 L1 ∧ Census s1 L1 (pre ++ [v]) := by
  rcases hl : T.lookup s.b v with _ | t
  · obtain ⟨s1, e1, i1, b1, n1, -, o1, m1, -⟩ := record_grow s T L v h hl (Or.inl hc.unlimited)
    have hk : ∀ a ∈ L, a ≠ s.brk := fun a ha => Nat.ne_of_lt (h.rank.bound a ha)
    have hnew : ∀ x ∈ L, v.bits ≠ (s.b x).bits := by
      intro x hx e
      have := h.bst.lookup_of_mem (h.perm.mem_iff.mpr hx) ((BitComp_eq_zero v (s.b x)).mpr e)
      rw [hl] at this
      cases this
    have hz : tally pre v = 0 := by
      apply tally_eq_zero
      intro u hu e
      obtain ⟨x, hx, ex⟩ := hc.cover u hu
      exact hnew x hx (by rw [ex, e])
    refine ⟨s1, _, _, e1, i1, ?_, ?_, ?_, by rw [m1]; exact hc.unlimited,
      by rw [o1]; exact hc.nother⟩
    · intro x hx
      rw [b1]
      simp only [List.mem_append, List.mem_singleton] at hx ⊢
      rcases hx with hx | rfl
      · rw [Function.update_noteq (hk x hx)]; exact Or.inl (hc.mem x hx)
      · rw [Function.update_same]; exact Or.inr rfl
    · intro x hx
      rw [b1, n1]
      simp only [List.mem_append, List.mem_singleton] at hx
      rcases hx with hx | rfl
      · rw [Function.update_noteq (hk x hx), Function.update_noteq (hk x hx),
          tally_append_other pre _ v (hnew x hx)]
        exact hc.count x hx
      · rw [Function.update_same, Function.update_same, tally_append_same pre v v rfl, hz]
        rfl
    · intro u hu
      rw [b1]
      simp only [List.mem_append, List.mem_singleton] at hu
      rcases hu with hu | rfl
      · obtain ⟨x, hx, ex⟩ := hc.cover u hu
        exact ⟨x, by simp [hx], by rw [Function.update_noteq (hk x hx)]; exact ex⟩
      · exact ⟨s.brk, by simp, by rw [Function.update_same]⟩
  · obtain ⟨s1, L1, e1, i1, p1, n1, b1, -, o1, m1, -⟩ := record_found s T L v t h hl
    obtain ⟨ht, hv⟩ := Shape.lookup_mem hl
    rw [BitComp_eq_zero] at hv
    have htL : t ∈ L := h.perm.mem_iff.mp ht
    refine ⟨s1, _, _, e1, i1, ?_, ?_, ?_, by rw [m1]; exact hc.unlimited,
      by rw [o1]; exact hc.nother⟩
    · intro x hx
      rw [b1]
      exact List.mem_append_left _ (hc.mem x (p1.mem_iff.mp hx))
    · intro x hx
      have hxL := p1.mem_iff.mp hx
      rw [b1, n1]
      by_cases e : x = t
      · subst e
        rw [Function.update_same, tally_append_same pre _ v hv, hc.count x hxL, wrap_add_left]
      · rw [Function.update_noteq e, tally_append_other pre _ v, hc.count x hxL]
        rw [hv]
        exact fun c => h.bst.distinct t ht x (h.perm.mem_iff.mpr hxL) (Ne.symm e) c
    · intro u hu
      rw [b1]
      simp only [List.mem_append, List.mem_singleton] at hu
      rcases hu with hu | rfl
      · obtain ⟨x, hx, ex⟩ := hc.cover u hu
        exact ⟨x, p1.mem_iff.mpr hx, ex⟩
      · exact ⟨t, p1.mem_iff.mpr htL, hv.symm⟩

theorem Census.after_calls {s : State} {T : Shape} {L : List Nat} {pre : List BitArray}
    (h : Inv s T L) (hc : Census s L pre) (bs : List BitArray) :
    ∃ s1 T1 L1, record_all s bs = .ok s1 ∧ Inv s1 T1 L1 ∧ Census s1 L1 (pre ++ bs) := by
  induction bs generalizing s T L pre with
  | nil => exact ⟨s, T, L, rfl, h, by simpa using hc⟩
  | cons v bs ih =>
    obtain ⟨s1, T1, L1, h1, h2, c2⟩ := hc.after_call h v
    obtain ⟨s2, T2, L2, h3, h4, c4⟩ := ih h2 c2
    refine ⟨s2, T2, L2, ?_, h4, by simpa using c4⟩
    simp only [record_all, h1, h3]

theorem BitCount_pos_of_has {a : BitArray} {i : Nat} (h : a.has i) : 1 ≤ BitCount a := by
  rw [BitCount_eq_card]
  exact Finset.card_pos.mpr ⟨i, (mem_bitset a i).mpr h⟩

theorem BitCount_le_width {a : BitArray} {w : Nat} (h : a.bits < 2 ^ w) : BitCount a ≤ w := by
  rw [BitCount_eq_card]
  have hs : (Finset.range a.bits).filter (fun i => a.bits.testBit i = true) ⊆ Finset.range w := by
    intro i hi
    rw [mem_bitset] at hi
    rw [Finset.mem_range]
    by_contra hc
    have hle : 2 ^ w ≤ 2 ^ i := Nat.pow_le_pow_right (by decide) (by omega)
    have := Nat.testBit_lt_two_pow (lt_of_lt_of_le h hle)
    simp only [BitArray.has] at hi
    rw [hi] at this
    cases this
  simpa using Finset.card_le_card hs

theorem BitCount_lt_of_proper {a b : BitArray} (h : ProperSubset a b) :
    BitCount a < BitCount b := by
  by_contra hc
  exact not_proper_of_BitCount_le (by omega) h

/-- A list without repetition that holds `x` and `y` and nothing else, in
ascending order of `f`, is `[x, y]` when `f x < f y`. -/
theorem eq_pair_of_sorted {S : List Nat} {x y : Nat} (f : Nat → Nat) (hnd : S.Nodup)
    (hall : ∀ z ∈ S, z = x ∨ z = y) (hx : x ∈ S) (hy : y ∈ S)
    (hs : S.Pairwise (fun u v => f u ≤ f v)) (hlt : f x < f y) : S = [x, y] := by
  have hxy : x ≠ y := fun e => by rw [e] at hlt; omega
  match S, hnd, hall, hx, hy, hs with
  | [], _, _, hx, _, _ => simp at hx
  | [z], _, _, hx, hy, _ =>
    simp only [List.mem_singleton] at hx hy
    exact absurd (hx.trans hy.symm) hxy
  | z1 :: z2 :: rest, hnd, hall, hx, hy, hs =>
    have h1 := hall z1 (by simp)
    have h2 := hall z2 (by simp)
    simp only [List.nodup_cons, List.mem_cons, not_or] at hnd
    obtain ⟨⟨n12, n1r⟩, n2r, -⟩ := hnd
    have hr : rest = [] := by
      cases rest with
      | nil => rfl
      | cons z3 rest =>
        have h3 := hall z3 (by simp)
        have a1 : z1 ≠ z3 := fun e => n1r (by simp [e])
        have a2 : z2 ≠ z3 := fun e => n2r (by simp [e])
        rcases h1 with rfl | rfl <;> rcases h2 with rfl | rfl <;> rcases h3 with rfl | rfl <;>
          simp_all
    subst hr
    have hle : f z1 ≤ f z2 := by
      simp only [List.pairwise_cons, List.mem_cons, List.mem_singleton] at hs
      exact hs.1 z2 (by simp)
    rcases h1 with rfl | rfl <;> rcases h2 with rfl | rfl
    · exact absurd rfl n12
    · rfl
    · omega
    · exact absurd rfl n12

/-- C13, the claim as stated fails in two ways.  When the two vectors sit in
bit arrays of different widths: `order_fail_data` runs its buckets up to
`Low->b->n`; with `B = {0,1}` in an array of 5 bits recorded first and
`A = {0}` in an array of 1 bit recorded second, `Low` is the record of `A`, the
only bucket is the one of bit count 1, and the record of `B` leaves the rank
list: one record is left, `A` with the count 1, not 2, and `nfm` is still 2.
When `a + b` exceeds `INT_MAX`: after `A = {0}` `INT_MAX` times and `B = {0,1}`
once, in arrays of 5 bits, the record left holds `A` with the count `INT_MIN`. -/
theorem C13_pair_not_merged :
    (∃ s sA s3, record_all (initialise_failures start 0) [vec 5 3, vec 1 1] = .ok s ∧
      order_fail_data s s.Low = .ok sA ∧ compress_fail_data sA = .ok s3 ∧
      rank_list s3 = some [1] ∧ rows s3 [1] = [(vec 1 1, 1)] ∧
      get_fail_data s3 = (some 1, 2, 0)) ∧
    ∃ s sA s3, record_all (initialise_failures start 0)
        ([vec 5 1] ++ List.replicate 2147483646 (vec 5 1) ++ [vec 5 3]) = .ok s ∧
      order_fail_data s s.Low = .ok sA ∧ compress_fail_data sA = .ok s3 ∧
      rank_list s3 = some [0] ∧ rows s3 [0] = [(vec 5 1, -2147483648)] := by
  refine ⟨⟨_, _, _, rfl, rfl, rfl, rfl, rfl, rfl⟩, ?_⟩
  have hr : Reachable (scenario 0 [1]) := ⟨start, 0, [1].map (vec 5), rfl⟩
  obtain ⟨T, L, hi⟩ := hr.inv
  have hT : T.nodes = [0] := by
    have e1 := hi.tree_nodes
    have e2 : tree_nodes (scenario 0 [1]) = some [0] := rfl
    rw [e2] at e1
    exact (Option.some.inj e1).symm
  have hl : T.lookup (scenario 0 [1]).b (vec 5 1) = some 0 :=
    hi.bst.lookup_of_mem (by rw [hT]; simp) rfl
  have e := repeat_at_High _ T L (vec 5 1) 0 hi hl rfl 2147483646
  have e0 : record_all (initialise_failures start 0) [vec 5 1] = .ok (scenario 0 [1]) := rfl
  obtain ⟨sb, eb, hb⟩ : ∃ sb : State,
      record_all (scenario 0 [1]) (List.replicate 2147483646 (vec 5 1)) = .ok sb ∧
      sb = { scenario 0 [1] with n := Function.update (scenario 0 [1]).n 0 2147483647 } := by
    refine ⟨_, e, ?_⟩
    have hw : wrap ((scenario 0 [1]).n 0 + (2147483646 : Nat)) = 2147483647 := by decide
    rw [hw]
  obtain ⟨s, es, sA, eA, s3, e3, hl3, hrow3⟩ : ∃ s : State,
      record_all { scenario 0 [1] with n := Function.update (scenario 0 [1]).n 0 2147483647 }
        [vec 5 3] = .ok s ∧
      ∃ sA, order_fail_data s s.Low = .ok sA ∧
      ∃ s3, compress_fail_data sA = .ok s3 ∧ rank_list s3 = some [0] ∧
        rows s3 [0] = [(vec 5 1, -2147483648)] :=
    ⟨_, rfl, _, rfl, _, rfl, rfl, rfl⟩
  rw [← hb] at es
  have h1 : record_all (initialise_failures start 0)
      ([vec 5 1] ++ List.replicate 2147483646 (vec 5 1)) = .ok sb :=
    (record_all_append_ok e0 _).trans eb
  exact ⟨s, sA, s3, (record_all_append_ok h1 _).trans es, eA, e3, hl3, hrow3⟩

/-- C13 as amended: let `A` be a non-empty proper subset of `B`, both in bit
arrays of the same width that holds every bit of `B`, and let `bs` be any
arrangement of `a ≥ 1` copies of `A` and `b ≥ 1` copies of `B` with
`a + b ≤ INT_MAX`.  After `initialise_failures(0)` and one `record_failure`
call per vector of `bs`, `order_fail_data(Low)` followed by
`compress_fail_data` completes and leaves exactly one record in the rank list;
it holds `A` with the count `a + b`, and `get_fail_data` answers that record
with `nfm = 1` and `nother = 0`. -/
theorem C13_nested_pair_merged (s0 : State) (A B : BitArray) (a b : Nat)
    (bs : List BitArray) (hw : A.n = B.n) (hB : B.bits < 2 ^ B.n)
    (hA : ∃ i, A.has i) (hAB : ProperSubset A B) (ha : 1 ≤ a) (hb : 1 ≤ b)
    (hab : (a : Int) + b ≤ INT_MAX)
    (hbs : bs.Perm (List.replicate a A ++ List.replicate b B)) :
    ∃ s sA s3 x, record_all (initialise_failures s0 0) bs = .ok s ∧
      order_fail_data s s.Low = .ok sA ∧ compress_fail_data sA = .ok s3 ∧
      rank_list s3 = some [x] ∧ rows s3 [x] = [(A, (a : Int) + b)] ∧
      get_fail_data s3 = (some x, 1, 0) := by
  obtain ⟨s, T, L, e0, hi, hc⟩ := (Census.at_start s0).after_calls (Inv.init s0 0) bs
  simp only [List.nil_append] at hc
  -- the vectors of the run
  have hne : A.bits ≠ B.bits := by
    intro e
    apply hAB.2
    intro i hi
    simp only [BitArray.has] at hi ⊢
    rw [e]; exact hi
  have hmem : ∀ v ∈ bs, v = A ∨ v = B := by
    intro v hv
    have := hbs.mem_iff.mp hv
    simp only [List.mem_append, List.mem_replicate] at this
    tauto
  have hAin : A ∈ bs := hbs.mem_iff.mpr (by simp; omega)
  have hBin : B ∈ bs := hbs.mem_iff.mpr (by simp; omega)
  have tA : tally bs A = a := by
    simp only [tally]
    rw [hbs.countP_eq, List.countP_append, List.countP_replicate, List.countP_replicate]
    simp [Ne.symm hne]
  have tB : tally bs B = b := by
    simp only [tally]
    rw [hbs.countP_eq, List.countP_append, List.countP_replicate, List.countP_replicate]
    simp [hne]
  -- the two records
  obtain ⟨x, hx, ex⟩ := hc.cover A hAin
  obtain ⟨y, hy, ey⟩ := hc.cover B hBin
  have bx : s.b x = A := by
    rcases hmem _ (hc.mem x hx) with e | e
    · exact e
    · rw [e] at ex; exact absurd ex.symm hne
  have by1 : s.b y = B := by
    rcases hmem _ (hc.mem y hy) with e | e
    · rw [e] at ey; exact absurd ey hne
    · exact e
  have hxy : x ≠ y := fun e => by rw [e, by1] at bx; exact hne (by rw [bx])
  have hall : ∀ z ∈ L, z = x ∨ z = y := by
    intro z hz
    have hzT := hi.perm.mem_iff.mpr hz
    rcases hmem _ (hc.mem z hz) with e | e
    · left
      by_contra c
      exact hi.bst.distinct z hzT x (hi.perm.mem_iff.mpr hx) c (by rw [e, bx])
    · right
      by_contra c
      exact hi.bst.distinct z hzT y (hi.perm.mem_iff.mpr hy) c (by rw [e, by1])
  have nx : s.n x = a := by
    rw [hc.count x hx, bx, tA]
    exact wrap_of_range (by unfold INT_MIN; omega) (by omega)
  have ny : s.n y = b := by
    rw [hc.count y hy, by1, tB]
    exact wrap_of_range (by unfold INT_MIN; omega) (by omega)
  have hlen : L.length = 2 := by
    apply le_antisymm
    · have h1 : L ⊆ [x, y] := fun z hz => by
        rcases hall z hz with e | e <;> simp [e]
      exact (List.subperm_of_subset hi.rank.nodup h1).length_le
    · have h1 : [x, y] ⊆ L := fun z hz => by
        simp only [List.mem_cons, List.mem_singleton, List.not_mem_nil, or_false] at hz
        rcases hz with e | e <;> rw [e] <;> assumption
      exact (List.subperm_of_subset (by simp [hxy]) h1).length_le
  -- the sort
  obtain ⟨l, hl, hlL⟩ := Reachable.low_some hi.rank (List.ne_nil_of_mem hx)
  have hwl : (s.b l).n = B.n := by
    rcases hall l hlL with e | e
    · rw [e, bx, hw]
    · rw [e, by1]
  obtain ⟨sA, e1, r1, f1, n1, g1⟩ := order_fail_data_spec s L l hi.rank hl
  have cA : 1 ≤ BitCount A := by
    obtain ⟨i, hi⟩ := hA
    exact BitCount_pos_of_has hi
  have cB : BitCount B ≤ B.n := BitCount_le_width hB
  have cAB : BitCount A < BitCount B := BitCount_lt_of_proper hAB
  have hS : (sort_model s.b (s.b l).n 1 L []).2 = [x, y] := by
    apply eq_pair_of_sorted (fun z => BitCount (s.b z)) r1.nodup
    · intro z hz
      rcases sort_model_subset _ _ _ _ _ z hz with c | c
      · simp at c
      · exact hall z c
    · rw [sort_model_mem_iff, bx, hwl]
      exact Or.inr ⟨hx, by omega, by omega⟩
    · rw [sort_model_mem_iff, by1, hwl]
      exact Or.inr ⟨hy, by omega, by omega⟩
    · exact sort_model_sorted s.b (s.b l).n 1 L [] List.Pairwise.nil (by simp)
    · show BitCount (s.b x) < BitCount (s.b y)
      rw [bx, by1]
      exact cAB
  rw [hS] at r1
  -- the compression
  obtain ⟨s3, e3, r3, f3, n3, g3⟩ := compress_fail_data_spec sA [x, y] r1
  have hsub : subset_code s.b x y = SUBSET := by
    rw [subset_code_subset, bx, by1]
    exact hAB.1
  have hcm : compress_model sA.b sA.n [] [x, y]
      = ([x], Function.update s.n x (s.n x + s.n y)) := by
    rw [f1.b, n1]
    have h0 : s.n x ≠ 0 := by rw [nx]; exact_mod_cast (by omega : a ≠ 0)
    have hwr : wrap (s.n x + s.n y) = s.n x + s.n y := by
      rw [nx, ny]
      exact wrap_of_range (by unfold INT_MIN; omega) hab
    simp [compress_model, scan_model, h0, hsub, hwr]
  rw [hcm] at r3 n3 g3
  refine ⟨s, sA, s3, x, e0, e1, e3, r3.rank_list_eq, ?_, ?_⟩
  · simp only [rows, List.map_cons, List.map_nil, n3, Function.update_same, f3.b, f1.b, bx, nx, ny]
  · simp only [get_fail_data, r3.high, headOr_cons, g3, g1, hi.nfm, hlen, f3.nother, f1.nother,
      hc.nother]
    simp

/-- Witness for C13: `{0,1}` once and `{0}` three times leave the one record
`{0}` with the count 4. -/
theorem C13_nested_pair_merged_witness :
    ∃ s sA s3 x, record_all (initialise_failures start 0) [vec 5 3, vec 5 1, vec 5 1, vec 5 1]
        = .ok s ∧
      order_fail_data s s.Low = .ok sA ∧ compress_fail_data sA = .ok s3 ∧
      rank_list s3 = some [x] ∧ rows s3 [x] = [(vec 5 1, ((3 : Nat) : Int) + (1 : Nat))] ∧
      get_fail_data s3 = (some x, 1, 0) :=
  C13_nested_pair_merged start (vec 5 1) (vec 5 3) 3 1 [vec 5 3, vec 5 1, vec 5 1, vec 5 1]
    rfl (by decide) ⟨0, by unfold BitArray.has; decide⟩
    ⟨fun i hi => by
        simp only [BitArray.has, vec] at hi ⊢
        rw [Nat.testBit_one_eq_true_iff_self_eq_zero] at hi
        subst hi
        decide,
      fun c => absurd (c 1 (by unfold BitArray.has; decide)) (by unfold BitArray.has; decide)⟩
    (by decide) (by decide) (by decide) (by decide)

end FailureStatistics
